import Mathlib

/-!
# Linear-probing hash table of `src/table.h`

A shallow embedding of the class `LPTable<TYPE>` and a verification of its
specification.

Modelling conventions.

* `records_` (an array of owning `Record*`) is a list of optional records:
  `none` is the null pointer.  `recordStatus_` is a list of characters.  A null
  array pointer is the empty list, so that every index into it is out of bounds.
* `size_t` is 64 bits wide: a hash index lives in `[0, 2^64)` and `++hashIdx`
  wraps around.  `std::hash<std::string>` is implementation defined, so the hash
  function is a parameter `hashFunction : String → Nat`, reduced modulo `2^64`
  where the source stores it in a `size_t`.
* `max_` and `size_` are `int`s, embedded in `Int`; `capacity_` is an `int` that
  is only ever given a non-negative value (`new T[n]` rejects a negative `n`),
  embedded in `Nat`.  Signed overflow is undefined behaviour in C++: an
  arithmetic result outside the `int` range is the fault `intOverflow`.
* The `double maxLoadFactor` is an exact fraction `num / den`, and the
  conversion of `capacity_ * maxLoadFactor` to `int` truncates toward zero.
  Every threshold between `0` and `capacity` arises from some fraction in
  `(0, 1]`, so the tables reached in this model cover those reached with doubles.
* A `while` loop takes a fuel argument, the number of iterations it may run, and
  stops with the fault `outOfFuel` when the fuel is used up.  A loop that runs
  forever in C++ is a loop that returns `outOfFuel` for every amount of fuel.
* Undefined behaviour (remainder by zero, an index outside an array, a null
  record dereferenced) is a fault.  Memory release (`delete`) is not modelled
  in this embedding.
* Lists are values, so this embedding cannot express that two tables share
  storage.  Where that matters (the copy operations), the class is embedded a
  second time over an explicit free store, with addresses, `new`, assignment
  through a pointer and `delete`; the two embeddings are proved to agree call by
  call.
-/

/-- The number of values of a `size_t`. -/
def SIZE_MOD : Nat := 2 ^ 64

/-- The largest `int`. -/
def INT_MAX : Int := 2 ^ 31 - 1

/-- The smallest `int`. -/
def INT_MIN : Int := -(2 ^ 31)

/-- Ways in which a call can fail to return normally. -/
inductive Fault where
  | outOfFuel
  | divByZero
  | outOfBounds
  | nullDeref
  | intOverflow
  deriving DecidableEq

/-- Source `LPTable::Record`: the payload and the key of one record. -/
structure Record (α : Type) where
  data_ : α
  key_ : String
  deriving DecidableEq

/-- Source `LPTable`: the data members of the class. -/
structure LPTable (α : Type) where
  records_ : List (Option (Record α))
  recordStatus_ : List Char
  max_ : Int
  size_ : Int
  capacity_ : Nat
  deriving DecidableEq

/-- The `double maxLoadFactor` as an exact fraction `num / den`. -/
structure LoadFactor where
  num : Int
  den : Nat

section Operations

variable {α : Type} (hashFunction : String → Nat)

/-- The `while` loop of `LPTable::search`, started at `hashIdx`. -/
def LPTable.searchLoop (t : LPTable α) (key : String) : Nat → Nat → Except Fault (Option Nat)
  | 0, _ => .error .outOfFuel
  | fuel + 1, hashIdx =>
    if t.capacity_ = 0 then .error .divByZero
    else
      match t.recordStatus_[hashIdx % t.capacity_]? with
      | none => .error .outOfBounds
      | some st =>
        if st = 'E' then .ok none
        else
          match t.records_[hashIdx % t.capacity_]? with
          | none => .error .outOfBounds
          | some none => LPTable.searchLoop t key fuel ((hashIdx + 1) % SIZE_MOD)
          | some (some r) =>
            if r.key_ = key then .ok (some (hashIdx % t.capacity_))
            else LPTable.searchLoop t key fuel ((hashIdx + 1) % SIZE_MOD)

/-- Source `LPTable::search`: `some resultIdx` when found, `none` when not. -/
def LPTable.search (fuel : Nat) (t : LPTable α) (key : String) : Except Fault (Option Nat) :=
  t.searchLoop key fuel (hashFunction key % SIZE_MOD)

/-- Source `LPTable::insert`: the `while` loop, started at `hashIdx`. -/
def LPTable.insert (t : LPTable α) (key : String) (value : α) :
    Nat → Nat → Except Fault (LPTable α)
  | 0, _ => .error .outOfFuel
  | fuel + 1, hashIdx =>
    if t.capacity_ = 0 then .error .divByZero
    else
      match t.recordStatus_[hashIdx % t.capacity_]? with
      | none => .error .outOfBounds
      | some st =>
        if st ≠ 'O' then
          if hashIdx % t.capacity_ < t.records_.length then
            .ok { t with
              records_ := t.records_.set (hashIdx % t.capacity_) (some ⟨value, key⟩)
              recordStatus_ := t.recordStatus_.set (hashIdx % t.capacity_) 'O' }
          else .error .outOfBounds
        else LPTable.insert t key value fuel ((hashIdx + 1) % SIZE_MOD)

/-- The second `for` loop of `LPTable::grow`: re-insert the records of the old
array, one index after the other. -/
def LPTable.reinsert (fuel : Nat) (tmpRecords : List (Option (Record α))) :
    List Nat → LPTable α → Except Fault (LPTable α)
  | [], t => .ok t
  | i :: rest, t =>
    match tmpRecords[i]? with
    | none => .error .outOfBounds
    | some none => LPTable.reinsert fuel tmpRecords rest t
    | some (some r) =>
      match t.insert r.key_ r.data_ fuel (hashFunction r.key_ % SIZE_MOD) with
      | .error e => .error e
      | .ok t' => LPTable.reinsert fuel tmpRecords rest t'

/-- Source `LPTable::grow`. -/
def LPTable.grow (fuel : Nat) (t : LPTable α) : Except Fault (LPTable α) :=
  if INT_MAX < 2 * (t.capacity_ : Int) then .error .intOverflow
  else if INT_MAX < 2 * t.max_ ∨ 2 * t.max_ < INT_MIN then .error .intOverflow
  else
    LPTable.reinsert hashFunction fuel t.records_ (List.range t.capacity_)
      { records_ := List.replicate (2 * t.capacity_) none
        recordStatus_ := List.replicate (2 * t.capacity_) 'E'
        max_ := 2 * t.max_
        size_ := t.size_
        capacity_ := 2 * t.capacity_ }

/-- Source `LPTable::LPTable(int capacity, double maxLoadFactor)`. -/
def LPTable.ctor (capacity : Nat) (maxLoadFactor : LoadFactor) : LPTable α :=
  { records_ := List.replicate capacity none
    recordStatus_ := List.replicate capacity 'E'
    max_ := Int.tdiv ((capacity : Int) * maxLoadFactor.num) (maxLoadFactor.den : Int)
    size_ := 0
    capacity_ := capacity }

/-- The copy loop shared by the copy constructor and the copy assignment. -/
def LPTable.copyLoop (other : LPTable α) :
    List Nat → Except Fault (List (Option (Record α)) × List Char)
  | [] => .ok ([], [])
  | i :: rest =>
    match other.records_[i]?, other.recordStatus_[i]? with
    | some r, some st =>
      match LPTable.copyLoop other rest with
      | .error e => .error e
      | .ok (rs, sts) =>
        .ok ((match r with
              | some rec => some ⟨rec.data_, rec.key_⟩
              | none => none) :: rs, st :: sts)
    | _, _ => .error .outOfBounds

/-- Source `LPTable::LPTable(const LPTable& other)`. -/
def LPTable.copyCtor (other : LPTable α) : Except Fault (LPTable α) :=
  match other.copyLoop (List.range other.capacity_) with
  | .error e => .error e
  | .ok (rs, sts) =>
    .ok { records_ := rs, recordStatus_ := sts, max_ := other.max_, size_ := other.size_
          capacity_ := other.capacity_ }

/-- Source `LPTable::LPTable(LPTable&& other)`: the new table and the state in
which `other` is left. -/
def LPTable.moveCtor (other : LPTable α) : LPTable α × LPTable α :=
  ({ records_ := other.records_, recordStatus_ := other.recordStatus_, max_ := other.max_
     size_ := other.size_, capacity_ := other.capacity_ },
   { records_ := [], recordStatus_ := [], max_ := 0, size_ := 0, capacity_ := 0 })

/-- Source `LPTable::update`. -/
def LPTable.update (fuel : Nat) (t : LPTable α) (key : String) (value : α) :
    Except Fault (LPTable α) :=
  match t.search hashFunction fuel key with
  | .error e => .error e
  | .ok (some index_) =>
    match t.records_[index_]? with
    | none => .error .outOfBounds
    | some none => .error .nullDeref
    | some (some r) => .ok { t with records_ := t.records_.set index_ (some { r with data_ := value }) }
  | .ok none =>
    match t.insert key value fuel (hashFunction key % SIZE_MOD) with
    | .error e => .error e
    | .ok t1 =>
      if INT_MAX < t1.size_ + 1 then .error .intOverflow
      else
        if t1.size_ + 1 > t1.max_ then LPTable.grow hashFunction fuel { t1 with size_ := t1.size_ + 1 }
        else .ok { t1 with size_ := t1.size_ + 1 }

/-- Source `LPTable::remove`: the returned flag and the table afterwards. -/
def LPTable.remove (fuel : Nat) (t : LPTable α) (key : String) :
    Except Fault (Bool × LPTable α) :=
  match t.search hashFunction fuel key with
  | .error e => .error e
  | .ok (some rmIdx) =>
    if rmIdx < t.records_.length ∧ rmIdx < t.recordStatus_.length then
      if t.size_ - 1 < INT_MIN then .error .intOverflow
      else
        .ok (true, { t with
          records_ := t.records_.set rmIdx none
          recordStatus_ := t.recordStatus_.set rmIdx 'D'
          size_ := t.size_ - 1 })
    else .error .outOfBounds
  | .ok none => .ok (false, t)

/-- Source `LPTable::find`: `value` is the out-parameter as the caller passes
it; the result is the returned flag and the out-parameter afterwards. -/
def LPTable.find (fuel : Nat) (t : LPTable α) (key : String) (value : α) :
    Except Fault (Bool × α) :=
  match t.search hashFunction fuel key with
  | .error e => .error e
  | .ok (some index_) =>
    match t.records_[index_]? with
    | none => .error .outOfBounds
    | some none => .error .nullDeref
    | some (some r) => .ok (true, r.data_)
  | .ok none => .ok (false, value)

/-- Source `LPTable::operator=(const LPTable& other)`.  `sameObject` is the
outcome of the test `this == &other`. -/
def LPTable.copyAssign (this other : LPTable α) (sameObject : Bool) : Except Fault (LPTable α) :=
  if sameObject then .ok this
  else
    match other.copyLoop (List.range other.capacity_) with
    | .error e => .error e
    | .ok (rs, sts) =>
      .ok { records_ := rs, recordStatus_ := sts, max_ := other.max_, size_ := other.size_
            capacity_ := other.capacity_ }

/-- Source `LPTable::operator=(LPTable&& other)`: the five members are swapped;
the result is `*this` and `other` afterwards. -/
def LPTable.moveAssign (this other : LPTable α) : LPTable α × LPTable α :=
  (other, this)

/-- Source `LPTable::isEmpty`. -/
def LPTable.isEmpty (t : LPTable α) : Bool :=
  decide (t.size_ = 0)

/-- Source `LPTable::numRecords`. -/
def LPTable.numRecords (t : LPTable α) : Int :=
  t.size_

end Operations

/-! ## Scenarios and the reference model -/

/-- A sequence of `update` calls, one per `(key, value)` pair, in order. -/
def LPTable.updateAll {α : Type} (hashFunction : String → Nat) (fuel : Nat) :
    List (String × α) → LPTable α → Except Fault (LPTable α)
  | [], t => .ok t
  | (key, value) :: rest, t =>
    match t.update hashFunction fuel key value with
    | .error e => .error e
    | .ok t' => LPTable.updateAll hashFunction fuel rest t'

/-- A call of the mutating part of the public interface. -/
inductive Call (α : Type) where
  | update (key : String) (value : α)
  | remove (key : String)

/-- A sequence of `update` and `remove` calls, in order. -/
def LPTable.run {α : Type} (hashFunction : String → Nat) (fuel : Nat) :
    List (Call α) → LPTable α → Except Fault (LPTable α)
  | [], t => .ok t
  | .update key value :: rest, t =>
    match t.update hashFunction fuel key value with
    | .error e => .error e
    | .ok t' => LPTable.run hashFunction fuel rest t'
  | .remove key :: rest, t =>
    match t.remove hashFunction fuel key with
    | .error e => .error e
    | .ok (_, t') => LPTable.run hashFunction fuel rest t'

/-- The reference map of the specification, reduced to its keys: the distinct
keys that a sequence of calls has updated and not removed since, starting from
the keys `ks`. -/
def refKeys {α : Type} : List (Call α) → List String → List String
  | [], ks => ks
  | .update key _ :: rest, ks => refKeys rest (if key ∈ ks then ks else key :: ks)
  | .remove key :: rest, ks => refKeys rest (ks.erase key)

/-- The table that `LPTable(1, 1.0)` followed by `update("a", 1)` builds: its
single slot is `Occupied`. -/
def fullTable : LPTable Nat :=
  { records_ := [some ⟨1, "a"⟩], recordStatus_ := ['O'], max_ := 1, size_ := 1, capacity_ := 1 }

/-- The table that `LPTable(1, 1.0)`, `update("a", 1)` and `remove("a")` build:
its single slot is `Deleted`. -/
def tombstoneTable : LPTable Nat :=
  { records_ := [none], recordStatus_ := ['D'], max_ := 1, size_ := 0, capacity_ := 1 }

/-- The table that `LPTable(4, 0.5)` followed by `update("a", 1)` builds when
the hash of a key is its length. -/
def oneKeyTable : LPTable Nat :=
  { records_ := [none, some ⟨1, "a"⟩, none, none], recordStatus_ := ['E', 'O', 'E', 'E']
    max_ := 2, size_ := 1, capacity_ := 4 }

/-- A table of capacity 2 and threshold 1 in which both slots are `Deleted`. -/
def twoTombstones : LPTable Nat :=
  { records_ := [none, none], recordStatus_ := ['D', 'D'], max_ := 1, size_ := 0, capacity_ := 2 }

/-- The table that `LPTable(4, 0.75)`, `update("a", 1)` and `update("b", 2)`
build when the hash of a key is its length: the two keys collide. -/
def twoKeyTable : LPTable Nat :=
  { records_ := [none, some ⟨1, "a"⟩, some ⟨2, "b"⟩, none]
    recordStatus_ := ['E', 'O', 'O', 'E'], max_ := 3, size_ := 2, capacity_ := 4 }

/-- A hash function that sends the key `"w"` to the largest `size_t` and every
other key to 1. -/
def wrapHash (key : String) : Nat :=
  if key = "w" then 2 ^ 64 - 1 else 1

/-- The table that `LPTable(7, 0.5)`, `update("a", 1)` and `update("w", 2)` build
under `wrapHash`: both keys start at slot 1, and the hash index of `"w"` wraps
around to 0 after its first probe. -/
def wrapTable : LPTable Nat :=
  { records_ := [some ⟨2, "w"⟩, some ⟨1, "a"⟩, none, none, none, none, none]
    recordStatus_ := ['O', 'O', 'E', 'E', 'E', 'E', 'E'], max_ := 3, size_ := 2, capacity_ := 7 }

/-- The probe-chain invariant in the words of the specification: for every
record in an `Occupied` slot `i`, the slots of the cyclic path that starts at
`hash(key) mod capacity` and steps by `+1 mod capacity` up to but excluding `i`
are `Occupied` or `Deleted`. -/
def LPTable.cyclicChain {α : Type} (hashFunction : String → Nat) (t : LPTable α) : Prop :=
  ∀ (i : Nat) (r : Record α), t.recordStatus_[i]? = some 'O' → t.records_[i]? = some (some r) →
    ∀ d : Nat,
      d < (i + t.capacity_ - hashFunction r.key_ % SIZE_MOD % t.capacity_) % t.capacity_ →
      t.recordStatus_[(hashFunction r.key_ % SIZE_MOD % t.capacity_ + d) % t.capacity_]?
          = some 'O' ∨
        t.recordStatus_[(hashFunction r.key_ % SIZE_MOD % t.capacity_ + d) % t.capacity_]?
          = some 'D'

/-- The table that `remove("a")` makes of `twoKeyTable`: slot 1 is a tombstone
in front of the record of `"b"`. -/
def oneTombstoneTable : LPTable Nat :=
  { records_ := [none, none, some ⟨2, "b"⟩, none]
    recordStatus_ := ['E', 'D', 'O', 'E'], max_ := 3, size_ := 1, capacity_ := 4 }

/-! ## The class over an explicit free store

The embedding above gives every table its own arrays, so it cannot tell a copy
that allocates new records from one that shares the pointers of its source.
The operations are embedded a second time with the pointers kept: a record
lives in a cell of the free store, `records_` and `recordStatus_` are the
addresses of two arrays, `new` takes the next unused address, an assignment
through a pointer changes the cell in place, and `delete` ends the lifetime of
a cell or an array.  Reading through a deleted or unallocated address, or
deleting it again, is a fault.  The constructor, `search`, `insert`, `grow`,
`update`, `remove`, `find`, the copy constructor and the copy assignment are
embedded; the move operations only reassign the five members.
-/

/-- The free store.  An address is an index into one of the three lists: the
`Record` objects, the `Record*` arrays and the `char` arrays made by `new`.  An
entry is `none` once it has been deleted.  A `Record*` is `none` when it is
null and `some p` when it holds the address `p`. -/
structure Heap (α : Type) where
  cells : List (Option (Record α))
  ptrArrays : List (Option (List (Option Nat)))
  charArrays : List (Option (List Char))

/-- Source `LPTable`: the data members of one object, the two arrays held as
the pointers they are (`none` is `nullptr`). -/
structure LPObject where
  records_ : Option Nat
  recordStatus_ : Option Nat
  max_ : Int
  size_ : Int
  capacity_ : Nat
  deriving DecidableEq

section FreeStore

variable {α : Type}

/-- The record `*p`, when `p` is the address of a live `Record`. -/
def Heap.record (h : Heap α) (p : Nat) : Option (Record α) :=
  match h.cells[p]? with
  | some (some r) => some r
  | _ => none

/-- The `Record*` array that the pointer `a` addresses, when it is live. -/
def Heap.ptrArray (h : Heap α) : Option Nat → Option (List (Option Nat))
  | none => none
  | some a =>
    match h.ptrArrays[a]? with
    | some (some ps) => some ps
    | _ => none

/-- The `char` array that the pointer `b` addresses, when it is live. -/
def Heap.charArray (h : Heap α) : Option Nat → Option (List Char)
  | none => none
  | some b =>
    match h.charArrays[b]? with
    | some (some sts) => some sts
    | _ => none

/-- The pointer `a[i]` of a `Record*` array. -/
def Heap.pointerAt (h : Heap α) (a : Option Nat) (i : Nat) : Option (Option Nat) :=
  match h.ptrArray a with
  | none => none
  | some ps => ps[i]?

/-- The character `b[i]` of a `char` array. -/
def Heap.statusAt (h : Heap α) (b : Option Nat) (i : Nat) : Option Char :=
  match h.charArray b with
  | none => none
  | some sts => sts[i]?

/-- The pointer `a[i]` read and, when it is not null, followed: `some none` for
a null pointer, `some (some r)` for a pointer to the live record `r`, `none`
when either read is invalid. -/
def Heap.slotAt (h : Heap α) (a : Option Nat) (i : Nat) : Option (Option (Record α)) :=
  match h.pointerAt a i with
  | none => none
  | some none => some none
  | some (some p) =>
    match h.record p with
    | none => none
    | some r => some (some r)

/-- The store after `new Record(...)`: the record is placed at the next unused
address, `h.cells.length`. -/
def Heap.newRecord (h : Heap α) (r : Record α) : Heap α :=
  { h with cells := h.cells ++ [some r] }

/-- The store after `new Record*[n]`, the array given the contents `ps`: it is
placed at the next unused address, `h.ptrArrays.length`. -/
def Heap.newPtrArray (h : Heap α) (ps : List (Option Nat)) : Heap α :=
  { h with ptrArrays := h.ptrArrays ++ [some ps] }

/-- The store after `new char[n]`, the array given the contents `sts`: it is
placed at the next unused address, `h.charArrays.length`. -/
def Heap.newCharArray (h : Heap α) (sts : List Char) : Heap α :=
  { h with charArrays := h.charArrays ++ [some sts] }

/-- The assignment `a[i] = q` to an entry of a `Record*` array. -/
def Heap.writePointer (h : Heap α) (a : Option Nat) (i : Nat) (q : Option Nat) :
    Option (Heap α) :=
  match a with
  | none => none
  | some a0 =>
    match h.ptrArray (some a0) with
    | none => none
    | some ps =>
      if i < ps.length then some { h with ptrArrays := h.ptrArrays.set a0 (some (ps.set i q)) }
      else none

/-- The assignment `b[i] = st` to an entry of a `char` array. -/
def Heap.writeStatus (h : Heap α) (b : Option Nat) (i : Nat) (st : Char) : Option (Heap α) :=
  match b with
  | none => none
  | some b0 =>
    match h.charArray (some b0) with
    | none => none
    | some sts =>
      if i < sts.length then
        some { h with charArrays := h.charArrays.set b0 (some (sts.set i st)) }
      else none

/-- The assignment `p->data_ = value`: the record at the address `p` is changed
in place. -/
def Heap.writeData (h : Heap α) (p : Nat) (value : α) : Option (Heap α) :=
  match h.record p with
  | none => none
  | some r => some { h with cells := h.cells.set p (some { r with data_ := value }) }

/-- The statement `delete p` for the address `p` of a live record. -/
def Heap.deleteRecord (h : Heap α) (p : Nat) : Option (Heap α) :=
  match h.record p with
  | none => none
  | some _ => some { h with cells := h.cells.set p none }

/-- The statement `delete[] a` for a `Record*` array; on a null pointer it does
nothing. -/
def Heap.deletePtrArray (h : Heap α) : Option Nat → Option (Heap α)
  | none => some h
  | some a0 =>
    match h.ptrArray (some a0) with
    | none => none
    | some _ => some { h with ptrArrays := h.ptrArrays.set a0 none }

/-- The statement `delete[] b` for a `char` array; on a null pointer it does
nothing. -/
def Heap.deleteCharArray (h : Heap α) : Option Nat → Option (Heap α)
  | none => some h
  | some b0 =>
    match h.charArray (some b0) with
    | none => none
    | some _ => some { h with charArrays := h.charArrays.set b0 none }

variable (hashFunction : String → Nat)

/-- The `while` loop of `LPTable::search` over the free store, started at
`hashIdx`. -/
def LPObject.searchLoop (h : Heap α) (o : LPObject) (key : String) :
    Nat → Nat → Except Fault (Option Nat)
  | 0, _ => .error .outOfFuel
  | fuel + 1, hashIdx =>
    if o.capacity_ = 0 then .error .divByZero
    else
      match h.statusAt o.recordStatus_ (hashIdx % o.capacity_) with
      | none => .error .outOfBounds
      | some st =>
        if st = 'E' then .ok none
        else
          match h.slotAt o.records_ (hashIdx % o.capacity_) with
          | none => .error .outOfBounds
          | some none => LPObject.searchLoop h o key fuel ((hashIdx + 1) % SIZE_MOD)
          | some (some r) =>
            if r.key_ = key then .ok (some (hashIdx % o.capacity_))
            else LPObject.searchLoop h o key fuel ((hashIdx + 1) % SIZE_MOD)

/-- Source `LPTable::search` over the free store. -/
def LPObject.search (h : Heap α) (fuel : Nat) (o : LPObject) (key : String) :
    Except Fault (Option Nat) :=
  o.searchLoop h key fuel (hashFunction key % SIZE_MOD)

/-- Source `LPTable::insert` over the free store: the record is allocated with
`new`, its address stored in `records_[currIdx]`, and the status set. -/
def LPObject.insert (o : LPObject) (key : String) (value : α) :
    Nat → Nat → Heap α → Except Fault (Heap α)
  | 0, _, _ => .error .outOfFuel
  | fuel + 1, hashIdx, h =>
    if o.capacity_ = 0 then .error .divByZero
    else
      match h.statusAt o.recordStatus_ (hashIdx % o.capacity_) with
      | none => .error .outOfBounds
      | some st =>
        if st ≠ 'O' then
          match (h.newRecord ⟨value, key⟩).writePointer o.records_ (hashIdx % o.capacity_)
              (some h.cells.length) with
          | none => .error .outOfBounds
          | some h1 =>
            match h1.writeStatus o.recordStatus_ (hashIdx % o.capacity_) 'O' with
            | none => .error .outOfBounds
            | some h2 => .ok h2
        else LPObject.insert o key value fuel ((hashIdx + 1) % SIZE_MOD) h

/-- The second `for` loop of `LPTable::grow` over the free store: the records
that the old array `tmpRecords` points to are inserted into the object `o`. -/
def LPObject.reinsert (fuel : Nat) (tmpRecords : Option Nat) (o : LPObject) :
    List Nat → Heap α → Except Fault (Heap α)
  | [], h => .ok h
  | i :: rest, h =>
    match h.slotAt tmpRecords i with
    | none => .error .outOfBounds
    | some none => LPObject.reinsert fuel tmpRecords o rest h
    | some (some r) =>
      match o.insert r.key_ r.data_ fuel (hashFunction r.key_ % SIZE_MOD) h with
      | .error e => .error e
      | .ok h1 => LPObject.reinsert fuel tmpRecords o rest h1

/-- A `for` loop that deletes the records an array points to: the third loop of
`LPTable::grow` and the first loop of the copy assignment. -/
def Heap.deleteRecords (a : Option Nat) : List Nat → Heap α → Except Fault (Heap α)
  | [], h => .ok h
  | i :: rest, h =>
    match h.pointerAt a i with
    | none => .error .outOfBounds
    | some none => Heap.deleteRecords a rest h
    | some (some p) =>
      match h.deleteRecord p with
      | none => .error .nullDeref
      | some h1 => Heap.deleteRecords a rest h1

/-- Source `LPTable::grow` over the free store: the store and the data members
afterwards. -/
def LPObject.grow (fuel : Nat) (o : LPObject) (h : Heap α) : Except Fault (Heap α × LPObject) :=
  if INT_MAX < 2 * (o.capacity_ : Int) then .error .intOverflow
  else if INT_MAX < 2 * o.max_ ∨ 2 * o.max_ < INT_MIN then .error .intOverflow
  else
    match LPObject.reinsert hashFunction fuel o.records_
        { records_ := some h.ptrArrays.length
          recordStatus_ := some h.charArrays.length
          max_ := 2 * o.max_
          size_ := o.size_
          capacity_ := 2 * o.capacity_ }
        (List.range o.capacity_)
        ((h.newPtrArray (List.replicate (2 * o.capacity_) none)).newCharArray
          (List.replicate (2 * o.capacity_) 'E')) with
    | .error e => .error e
    | .ok h1 =>
      match Heap.deleteRecords o.records_ (List.range o.capacity_) h1 with
      | .error e => .error e
      | .ok h2 =>
        match h2.deletePtrArray o.records_ with
        | none => .error .nullDeref
        | some h3 =>
          match h3.deleteCharArray o.recordStatus_ with
          | none => .error .nullDeref
          | some h4 =>
            .ok (h4, { records_ := some h.ptrArrays.length
                       recordStatus_ := some h.charArrays.length
                       max_ := 2 * o.max_
                       size_ := o.size_
                       capacity_ := 2 * o.capacity_ })

/-- Source `LPTable::LPTable(int capacity, double maxLoadFactor)` over the free
store: the store and the data members of the new object. -/
def LPObject.ctor (h : Heap α) (capacity : Nat) (maxLoadFactor : LoadFactor) :
    Heap α × LPObject :=
  ((h.newPtrArray (List.replicate capacity none)).newCharArray (List.replicate capacity 'E'),
   { records_ := some h.ptrArrays.length
     recordStatus_ := some h.charArrays.length
     max_ := Int.tdiv ((capacity : Int) * maxLoadFactor.num) (maxLoadFactor.den : Int)
     size_ := 0
     capacity_ := capacity })

/-- The copy loop of the copy constructor and of the copy assignment over the
free store: for each index, a record that `other` points to is copied into a
cell made by `new Record(key_, data_)` and the address of that cell is stored in
the array of `this`; a null pointer is stored as null; the status is copied. -/
def LPObject.copyLoop (this other : LPObject) : List Nat → Heap α → Except Fault (Heap α)
  | [], h => .ok h
  | i :: rest, h =>
    match h.slotAt other.records_ i with
    | none => .error .outOfBounds
    | some slot =>
      match (match slot with
             | some r => (h.newRecord ⟨r.data_, r.key_⟩).writePointer this.records_ i
                 (some h.cells.length)
             | none => h.writePointer this.records_ i none) with
      | none => .error .outOfBounds
      | some h1 =>
        match h1.statusAt other.recordStatus_ i with
        | none => .error .outOfBounds
        | some st =>
          match h1.writeStatus this.recordStatus_ i st with
          | none => .error .outOfBounds
          | some h2 => LPObject.copyLoop this other rest h2

/-- Source `LPTable::LPTable(const LPTable& other)` over the free store: the
store and the data members of the new object.  The entries of the two new
arrays are indeterminate until the loop assigns them; they are given the null
pointer and the null character. -/
def LPObject.copyCtor (h : Heap α) (other : LPObject) : Except Fault (Heap α × LPObject) :=
  match LPObject.copyLoop
      { records_ := some h.ptrArrays.length
        recordStatus_ := some h.charArrays.length
        max_ := other.max_
        size_ := other.size_
        capacity_ := other.capacity_ }
      other (List.range other.capacity_)
      ((h.newPtrArray (List.replicate other.capacity_ none)).newCharArray
        (List.replicate other.capacity_ (Char.ofNat 0))) with
  | .error e => .error e
  | .ok h1 =>
    .ok (h1, { records_ := some h.ptrArrays.length
               recordStatus_ := some h.charArrays.length
               max_ := other.max_
               size_ := other.size_
               capacity_ := other.capacity_ })

/-- Source `LPTable::update` over the free store: a found record is changed in
place through its pointer. -/
def LPObject.update (fuel : Nat) (o : LPObject) (h : Heap α) (key : String) (value : α) :
    Except Fault (Heap α × LPObject) :=
  match o.search hashFunction h fuel key with
  | .error e => .error e
  | .ok (some index_) =>
    match h.pointerAt o.records_ index_ with
    | none => .error .outOfBounds
    | some none => .error .nullDeref
    | some (some p) =>
      match h.writeData p value with
      | none => .error .nullDeref
      | some h1 => .ok (h1, o)
  | .ok none =>
    match o.insert key value fuel (hashFunction key % SIZE_MOD) h with
    | .error e => .error e
    | .ok h1 =>
      if INT_MAX < o.size_ + 1 then .error .intOverflow
      else
        if o.size_ + 1 > o.max_ then
          LPObject.grow hashFunction fuel { o with size_ := o.size_ + 1 } h1
        else .ok (h1, { o with size_ := o.size_ + 1 })

/-- Source `LPTable::remove` over the free store: the record is deleted, its
pointer set to null and its status to `D`. -/
def LPObject.remove (fuel : Nat) (o : LPObject) (h : Heap α) (key : String) :
    Except Fault (Bool × Heap α × LPObject) :=
  match o.search hashFunction h fuel key with
  | .error e => .error e
  | .ok (some rmIdx) =>
    match h.pointerAt o.records_ rmIdx with
    | none => .error .outOfBounds
    | some q =>
      match (match q with
             | some p => h.deleteRecord p
             | none => some h) with
      | none => .error .nullDeref
      | some h1 =>
        match h1.writePointer o.records_ rmIdx none with
        | none => .error .outOfBounds
        | some h2 =>
          match h2.writeStatus o.recordStatus_ rmIdx 'D' with
          | none => .error .outOfBounds
          | some h3 =>
            if o.size_ - 1 < INT_MIN then .error .intOverflow
            else .ok (true, h3, { o with size_ := o.size_ - 1 })
  | .ok none => .ok (false, h, o)

/-- Source `LPTable::find` over the free store. -/
def LPObject.find (fuel : Nat) (o : LPObject) (h : Heap α) (key : String) (value : α) :
    Except Fault (Bool × α) :=
  match o.search hashFunction h fuel key with
  | .error e => .error e
  | .ok (some index_) =>
    match h.slotAt o.records_ index_ with
    | none => .error .outOfBounds
    | some none => .error .nullDeref
    | some (some r) => .ok (true, r.data_)
  | .ok none => .ok (false, value)

/-- Source `LPTable::operator=(const LPTable& other)` over the free store.
`sameObject` is the outcome of the test `this == &other`.  The records and the
arrays of `this` are deleted, then `other` is copied as in the copy
constructor. -/
def LPObject.copyAssign (h : Heap α) (this other : LPObject) (sameObject : Bool) :
    Except Fault (Heap α × LPObject) :=
  if sameObject then .ok (h, this)
  else
    match Heap.deleteRecords this.records_ (List.range this.capacity_) h with
    | .error e => .error e
    | .ok h1 =>
      match h1.deletePtrArray this.records_ with
      | none => .error .nullDeref
      | some h2 =>
        match h2.deleteCharArray this.recordStatus_ with
        | none => .error .nullDeref
        | some h3 =>
          match LPObject.copyLoop
              { records_ := some h3.ptrArrays.length
                recordStatus_ := some h3.charArrays.length
                max_ := other.max_
                size_ := other.size_
                capacity_ := other.capacity_ }
              other (List.range other.capacity_)
              ((h3.newPtrArray (List.replicate other.capacity_ none)).newCharArray
                (List.replicate other.capacity_ (Char.ofNat 0))) with
          | .error e => .error e
          | .ok h4 =>
            .ok (h4, { records_ := some h3.ptrArrays.length
                       recordStatus_ := some h3.charArrays.length
                       max_ := other.max_
                       size_ := other.size_
                       capacity_ := other.capacity_ })

/-- A sequence of `update` and `remove` calls on one object, in order. -/
def LPObject.run (fuel : Nat) : List (Call α) → LPObject → Heap α →
    Except Fault (Heap α × LPObject)
  | [], o, h => .ok (h, o)
  | .update key value :: rest, o, h =>
    match o.update hashFunction fuel h key value with
    | .error e => .error e
    | .ok (h1, o1) => LPObject.run fuel rest o1 h1
  | .remove key :: rest, o, h =>
    match o.remove hashFunction fuel h key with
    | .error e => .error e
    | .ok (_, h1, o1) => LPObject.run fuel rest o1 h1

end FreeStore

/-- The free store after `LPTable(4, 0.5)` and `update("a", 1)` are run on an
empty store with the hash of a key being its length: one record, one `Record*`
array and one `char` array. -/
def oneKeyStore : Heap Nat :=
  { cells := [some ⟨1, "a"⟩]
    ptrArrays := [some [none, some 0, none, none]]
    charArrays := [some ['E', 'O', 'E', 'E']] }

/-- The object that `LPTable(4, 0.5)` and `update("a", 1)` build in
`oneKeyStore`: it holds `oneKeyTable`. -/
def oneKeyObject : LPObject :=
  { records_ := some 0, recordStatus_ := some 0, max_ := 2, size_ := 1, capacity_ := 4 }

/-! ## Notions used to state the properties -/

section Model

variable {α : Type}

/-- The hash index after `j` executions of `++hashIdx`, starting from `h`. -/
def advance (h : Nat) : Nat → Nat
  | 0 => h
  | j + 1 => advance ((h + 1) % SIZE_MOD) j

/-- The table after a record `(key, value)` is stored in slot `i`. -/
def LPTable.setSlot (t : LPTable α) (i : Nat) (key : String) (value : α) : LPTable α :=
  { t with
    records_ := t.records_.set i (some ⟨value, key⟩)
    recordStatus_ := t.recordStatus_.set i 'O' }

/-- Slot `i` does not stop a search for `key`: it is not `Empty` and holds no
record with that key. -/
def LPTable.passes (t : LPTable α) (key : String) (i : Nat) : Prop :=
  (∃ st, t.recordStatus_[i]? = some st ∧ st ≠ 'E') ∧
    (t.records_[i]? = some none ∨ ∃ r, t.records_[i]? = some (some r) ∧ r.key_ ≠ key)

/-- The representation invariant of the two arrays: they have `capacity_`
entries and stay in lockstep, no key is stored twice, and every stored key is
met by its probe sequence before any `Empty` slot. -/
structure LPTable.Core (hashFunction : String → Nat) (t : LPTable α) : Prop where
  cap_pos : 0 < t.capacity_
  cap_le : (t.capacity_ : Int) ≤ INT_MAX
  len_records : t.records_.length = t.capacity_
  len_status : t.recordStatus_.length = t.capacity_
  status_mem : ∀ st, st ∈ t.recordStatus_ → st = 'E' ∨ st = 'O' ∨ st = 'D'
  lockstep : ∀ i : Nat, (∃ r, t.records_[i]? = some (some r)) ↔ t.recordStatus_[i]? = some 'O'
  unique : ∀ (i j : Nat) (ri rj : Record α), t.records_[i]? = some (some ri) →
    t.records_[j]? = some (some rj) → ri.key_ = rj.key_ → i = j
  chain : ∀ (i : Nat) (r : Record α), t.records_[i]? = some (some r) →
    ∃ j : Nat, advance (hashFunction r.key_ % SIZE_MOD) j % t.capacity_ = i ∧
      ∀ j' : Nat, j' < j →
        t.recordStatus_[advance (hashFunction r.key_ % SIZE_MOD) j' % t.capacity_]? ≠ some 'E'

/-- The data-model invariant: the representation invariant, `size_` is the
number of `Occupied` slots, and the threshold lies between `0` and the
capacity. -/
structure LPTable.WF (hashFunction : String → Nat) (t : LPTable α)
    extends LPTable.Core hashFunction t : Prop where
  size_eq : t.size_ = ((t.recordStatus_.count 'O' : Nat) : Int)
  max_nonneg : 0 ≤ t.max_
  max_le : t.max_ ≤ (t.capacity_ : Int)

/-- The record `r` is stored in some slot of the array `rs`. -/
def Stored (rs : List (Option (Record α))) (r : Record α) : Prop :=
  ∃ i : Nat, rs[i]? = some (some r)

/-- The table maps `key` to `value`. -/
def LPTable.Holds (t : LPTable α) (key : String) (value : α) : Prop :=
  Stored t.records_ ⟨value, key⟩

/-- Slot `i` of the array `rs` holds a record (the pointer is not null). -/
def occupiedAt (rs : List (Option (Record α))) (i : Nat) : Bool :=
  match rs[i]? with
  | some (some _) => true
  | _ => false

/-- The tables that the public interface can produce: the result of the
constructor for a positive `int` capacity and a load factor in `(0, 1]`, and
what a returning `update` or `remove` leaves. -/
inductive Reachable (hf : String → Nat) : LPTable α → Prop
  | ctor (capacity : Nat) (maxLoadFactor : LoadFactor) (hpos : 0 < capacity)
      (hint : (capacity : Int) ≤ INT_MAX) (h0 : 0 < maxLoadFactor.num)
      (h1 : maxLoadFactor.num ≤ maxLoadFactor.den) :
      Reachable hf (LPTable.ctor capacity maxLoadFactor)
  | update {t t' : LPTable α} (fuel : Nat) (key : String) (value : α) (ht : Reachable hf t)
      (hu : t.update hf fuel key value = .ok t') : Reachable hf t'
  | remove {t t' : LPTable α} (fuel : Nat) (key : String) (b : Bool) (ht : Reachable hf t)
      (hr : t.remove hf fuel key = .ok (b, t')) : Reachable hf t'

/-- The state of the table after `n` of the distinct keys have been inserted
into a fresh table, before the threshold is crossed. -/
structure Filling (hf : String → Nat) (c thr : Nat) (kvs : List (String × α)) (n : Nat)
    (t : LPTable α) : Prop where
  wf : t.WF hf
  cap : t.capacity_ = c
  max : t.max_ = thr
  size : t.size_ = n
  noDeleted : ∀ st, st ∈ t.recordStatus_ → st = 'E' ∨ st = 'O'
  content : ∀ r, Stored t.records_ r ↔ (r.key_, r.data_) ∈ kvs.take n

/-- A part of the free store: a set of addresses of `Record*` arrays, of `char`
arrays and of records. -/
structure Region where
  ptrs : Nat → Prop
  chars : Nat → Prop
  cells : Nat → Prop

/-- Every address of the region is live in the store `h`. -/
def Region.Live (S : Region) (h : Heap α) : Prop :=
  (∀ a, S.ptrs a → ∃ ps, h.ptrArray (some a) = some ps) ∧
  (∀ b, S.chars b → ∃ sts, h.charArray (some b) = some sts) ∧
  (∀ p, S.cells p → ∃ r, h.record p = some r)

/-- The stores `h` and `h'` hold the same arrays and records at the addresses
of the region. -/
def Region.Keeps (S : Region) (h h' : Heap α) : Prop :=
  (∀ a, S.ptrs a → h'.ptrArray (some a) = h.ptrArray (some a)) ∧
  (∀ b, S.chars b → h'.charArray (some b) = h.charArray (some b)) ∧
  (∀ p, S.cells p → h'.record p = h.record p)

/-- The object `o` owns nothing of the region: its two arrays and the records
its array points to in the store `h` lie outside. -/
def Region.Apart (S : Region) (h : Heap α) (o : LPObject) : Prop :=
  (∀ a, o.records_ = some a → ¬ S.ptrs a) ∧
  (∀ b, o.recordStatus_ = some b → ¬ S.chars b) ∧
  (∀ (i p : Nat), h.pointerAt o.records_ i = some (some p) → ¬ S.cells p)

/-- The addresses of either region. -/
def Region.union (S T : Region) : Region :=
  { ptrs := fun a => S.ptrs a ∨ T.ptrs a
    chars := fun b => S.chars b ∨ T.chars b
    cells := fun p => S.cells p ∨ T.cells p }

/-- The storage that the object `o` owns in the store `h`: its two arrays and
the records its `Record*` array points to. -/
def LPObject.region (h : Heap α) (o : LPObject) : Region :=
  { ptrs := fun a => o.records_ = some a
    chars := fun b => o.recordStatus_ = some b
    cells := fun p => ∃ i : Nat, h.pointerAt o.records_ i = some (some p) }

/-- The object `o` in the store `h` is the table `t`: the scalar members agree,
the status array is live and holds `t.recordStatus_`, the pointer array is live,
each of its entries is null where `t.records_` is null and points to a live
record equal to that of `t.records_` elsewhere, and no record is pointed to
from two entries. -/
structure Represents (h : Heap α) (o : LPObject) (t : LPTable α) : Prop where
  max_eq : o.max_ = t.max_
  size_eq : o.size_ = t.size_
  cap_eq : o.capacity_ = t.capacity_
  status : h.charArray o.recordStatus_ = some t.recordStatus_
  live : ∃ ps, h.ptrArray o.records_ = some ps ∧ ps.length = t.records_.length
  slots : ∀ i : Nat, h.slotAt o.records_ i = t.records_[i]?
  inj : ∀ (i j p : Nat), h.pointerAt o.records_ i = some (some p) →
    h.pointerAt o.records_ j = some (some p) → i = j

/-- Two outcomes agree: both are the same fault, or both are results related
by `R`. -/
def Sim {A B : Type} (R : A → B → Prop) : Except Fault A → Except Fault B → Prop
  | .error e, .error e' => e = e'
  | .ok a, .ok b => R a b
  | _, _ => False

end Model

/-! ## The probe sequence -/

section ProbeLemmas

theorem SIZE_MOD_pos : 0 < SIZE_MOD := by decide

theorem advance_lt (h : Nat) (hh : h < SIZE_MOD) : ∀ j, advance h j < SIZE_MOD := by
  intro j
  induction j generalizing h with
  | zero => exact hh
  | succ n ih => exact ih _ (Nat.mod_lt _ SIZE_MOD_pos)

theorem advance_eq_mod (j : Nat) : ∀ h, h < SIZE_MOD → advance h j = (h + j) % SIZE_MOD := by
  induction j with
  | zero => intro h hh; simp [advance, Nat.mod_eq_of_lt hh]
  | succ n ih =>
    intro h hh
    rw [advance, ih _ (Nat.mod_lt _ SIZE_MOD_pos), Nat.mod_add_mod]
    congr 1
    omega

theorem advance_succ (h j : Nat) (hh : h < SIZE_MOD) :
    advance h (j + 1) = (advance h j + 1) % SIZE_MOD := by
  rw [advance_eq_mod _ _ hh, advance_eq_mod _ _ hh, Nat.mod_add_mod, Nat.add_assoc]

theorem advance_add (h : Nat) (a b : Nat) : advance h (a + b) = advance (advance h a) b := by
  induction a generalizing h with
  | zero => simp [advance]
  | succ n ih =>
    rw [Nat.add_right_comm, advance, ih, advance]

/-- Every slot of a table of capacity at most `2^64` is met within `2 * cap`
steps of the probe sequence, whatever the starting hash index. -/
theorem advance_covers (cap h i : Nat) (hcap : cap ≤ SIZE_MOD) (hh : h < SIZE_MOD)
    (hi : i < cap) : ∃ j, j < 2 * cap ∧ advance h j % cap = i := by
  have hpos : 0 < cap := by omega
  obtain ⟨m, r, hm, hr, hmod⟩ : ∃ m r, h = m + r ∧ r < cap ∧ ∀ x, (m + x) % cap = x % cap := by
    refine ⟨cap * (h / cap), h % cap, (Nat.div_add_mod h cap).symm, Nat.mod_lt _ hpos, ?_⟩
    intro x
    rw [Nat.mul_add_mod]
  by_cases hwrap : h + cap ≤ SIZE_MOD
  · by_cases hle : r ≤ i
    · refine ⟨i - r, by omega, ?_⟩
      have e1 : (h + (i - r)) % SIZE_MOD = m + i := by
        rw [Nat.mod_eq_of_lt (by omega)]; omega
      rw [advance_eq_mod _ _ hh, e1, hmod, Nat.mod_eq_of_lt hi]
    · refine ⟨cap - r + i, by omega, ?_⟩
      have e1 : (h + (cap - r + i)) % SIZE_MOD = m + (cap + i) := by
        rw [Nat.mod_eq_of_lt (by omega)]; omega
      rw [advance_eq_mod _ _ hh, e1, hmod, Nat.add_mod_left, Nat.mod_eq_of_lt hi]
  · refine ⟨SIZE_MOD - h + i, by omega, ?_⟩
    have e1 : (h + (SIZE_MOD - h + i)) % SIZE_MOD = i := by
      have : h + (SIZE_MOD - h + i) = SIZE_MOD + i := by omega
      rw [this, Nat.add_mod_left]
      exact Nat.mod_eq_of_lt (by omega)
    rw [advance_eq_mod _ _ hh, e1, Nat.mod_eq_of_lt hi]

end ProbeLemmas

/-! ## The two probe loops -/

section LoopLemmas

variable {α : Type}

theorem searchLoop_mono (t : LPTable α) (key : String) (d : Nat) :
    ∀ fuel h res, t.searchLoop key fuel h = .ok res → t.searchLoop key (fuel + d) h = .ok res := by
  intro fuel
  induction fuel with
  | zero => intro h res hres; simp [LPTable.searchLoop] at hres
  | succ n ih =>
    intro h res hres
    rw [Nat.add_right_comm]
    rw [LPTable.searchLoop] at hres ⊢
    by_cases hc : t.capacity_ = 0
    · simp [hc] at hres
    · simp only [hc, if_false] at hres ⊢
      cases hs : t.recordStatus_[h % t.capacity_]? with
      | none => simp [hs] at hres
      | some st =>
        simp only [hs] at hres ⊢
        by_cases hE : st = 'E'
        · simpa [hE] using hres
        · simp only [hE, if_false] at hres ⊢
          cases hr : t.records_[h % t.capacity_]? with
          | none => simp [hr] at hres
          | some o =>
            cases o with
            | none => simp only [hr] at hres ⊢; exact ih _ _ hres
            | some r =>
              simp only [hr] at hres ⊢
              by_cases hk : r.key_ = key
              · simpa [hk] using hres
              · simp only [hk, if_false] at hres ⊢
                exact ih _ _ hres

theorem searchLoop_skip (t : LPTable α) (key : String) (hcap : t.capacity_ ≠ 0) :
    ∀ j h fuel, (∀ j', j' < j → t.passes key (advance h j' % t.capacity_)) →
      t.searchLoop key (fuel + j) h = t.searchLoop key fuel (advance h j) := by
  intro j
  induction j with
  | zero => intro h fuel _; rfl
  | succ n ih =>
    intro h fuel hp
    have h0 := hp 0 (Nat.succ_pos n)
    obtain ⟨⟨st, hs, hne⟩, hrec⟩ := h0
    simp only [advance] at hs hrec
    have hrest : t.searchLoop key (fuel + n) ((h + 1) % SIZE_MOD)
        = t.searchLoop key fuel (advance h (n + 1)) := by
      rw [advance]
      apply ih
      intro j' hj'
      have := hp (j' + 1) (Nat.succ_lt_succ hj')
      simpa [advance] using this
    rw [← Nat.add_assoc, LPTable.searchLoop]
    simp only [hcap, if_false, hs, hne]
    rcases hrec with h0 | ⟨r, hr, hk⟩
    · rw [h0]; exact hrest
    · rw [hr]; simp only [hk, if_false]; exact hrest

theorem searchLoop_stop_empty (t : LPTable α) (key : String) (hcap : t.capacity_ ≠ 0)
    (fuel h : Nat) (hE : t.recordStatus_[h % t.capacity_]? = some 'E') :
    t.searchLoop key (fuel + 1) h = .ok none := by
  rw [LPTable.searchLoop]
  simp [hcap, hE]

theorem searchLoop_stop_match (t : LPTable α) (key : String) (hcap : t.capacity_ ≠ 0)
    (fuel h : Nat) (st : Char) (r : Record α)
    (hs : t.recordStatus_[h % t.capacity_]? = some st) (hne : st ≠ 'E')
    (hr : t.records_[h % t.capacity_]? = some (some r)) (hk : r.key_ = key) :
    t.searchLoop key (fuel + 1) h = .ok (some (h % t.capacity_)) := by
  rw [LPTable.searchLoop]
  simp [hcap, hs, hne, hr, hk]

theorem searchLoop_sound (t : LPTable α) (key : String) :
    ∀ fuel h i, t.searchLoop key fuel h = .ok (some i) →
      ∃ r, t.records_[i]? = some (some r) ∧ r.key_ = key ∧
        (∃ st, t.recordStatus_[i]? = some st) := by
  intro fuel
  induction fuel with
  | zero => intro h i hres; simp [LPTable.searchLoop] at hres
  | succ n ih =>
    intro h i hres
    rw [LPTable.searchLoop] at hres
    split at hres
    · simp at hres
    · split at hres
      · simp at hres
      · rename_i st hs
        split at hres
        · simp at hres
        · split at hres
          · simp at hres
          · exact ih _ _ hres
          · rename_i r hr
            split at hres
            · rename_i hk
              simp only [Except.ok.injEq, Option.some.injEq] at hres
              subst hres
              exact ⟨r, hr, hk, st, hs⟩
            · exact ih _ _ hres

theorem insert_mono (t : LPTable α) (key : String) (value : α) (d : Nat) :
    ∀ fuel h res, t.insert key value fuel h = .ok res →
      t.insert key value (fuel + d) h = .ok res := by
  intro fuel
  induction fuel with
  | zero => intro h res hres; simp [LPTable.insert] at hres
  | succ n ih =>
    intro h res hres
    rw [Nat.add_right_comm]
    rw [LPTable.insert] at hres ⊢
    by_cases hc : t.capacity_ = 0
    · simp [hc] at hres
    · simp only [hc, if_false] at hres ⊢
      cases hs : t.recordStatus_[h % t.capacity_]? with
      | none => simp [hs] at hres
      | some st =>
        simp only [hs] at hres ⊢
        by_cases hO : st = 'O'
        · simp only [hO, ne_eq, not_true_eq_false, if_false] at hres ⊢
          exact ih _ _ hres
        · simpa [hO] using hres

theorem insert_skip (t : LPTable α) (key : String) (value : α) (hcap : t.capacity_ ≠ 0) :
    ∀ j h fuel, (∀ j', j' < j → t.recordStatus_[advance h j' % t.capacity_]? = some 'O') →
      t.insert key value (fuel + j) h = t.insert key value fuel (advance h j) := by
  intro j
  induction j with
  | zero => intro h fuel _; rfl
  | succ n ih =>
    intro h fuel hp
    have h0 := hp 0 (Nat.succ_pos n)
    simp only [advance] at h0
    rw [← Nat.add_assoc, LPTable.insert]
    simp only [hcap, if_false, h0, ne_eq, not_true_eq_false]
    rw [advance]
    apply ih
    intro j' hj'
    have := hp (j' + 1) (Nat.succ_lt_succ hj')
    simpa [advance] using this

theorem insert_here (t : LPTable α) (key : String) (value : α) (hcap : t.capacity_ ≠ 0)
    (fuel h : Nat) (st : Char) (hs : t.recordStatus_[h % t.capacity_]? = some st)
    (hne : st ≠ 'O') (hlen : h % t.capacity_ < t.records_.length) :
    t.insert key value (fuel + 1) h = .ok (t.setSlot (h % t.capacity_) key value) := by
  rw [LPTable.insert]
  simp [hcap, hs, hne, hlen, LPTable.setSlot]

/-- What a returning `insert` did: it stored the record in the first slot of
the probe sequence that was not `Occupied`. -/
theorem insert_sound (t : LPTable α) (key : String) (value : α) :
    ∀ fuel h res, t.insert key value fuel h = .ok res →
      ∃ j, j < fuel ∧ res = t.setSlot (advance h j % t.capacity_) key value ∧
        advance h j % t.capacity_ < t.records_.length ∧
        (∃ st, t.recordStatus_[advance h j % t.capacity_]? = some st ∧ st ≠ 'O') ∧
        ∀ j', j' < j → t.recordStatus_[advance h j' % t.capacity_]? = some 'O' := by
  intro fuel
  induction fuel with
  | zero => intro h res hres; simp [LPTable.insert] at hres
  | succ n ih =>
    intro h res hres
    rw [LPTable.insert] at hres
    split at hres
    · simp at hres
    · split at hres
      · simp at hres
      · rename_i st hs
        split at hres
        · rename_i hne
          split at hres
          · rename_i hlen
            simp only [Except.ok.injEq] at hres
            refine ⟨0, Nat.succ_pos n, ?_, hlen, ⟨st, hs, hne⟩, ?_⟩
            · rw [← hres]; rfl
            · intro j' hj'; exact absurd hj' (Nat.not_lt_zero _)
          · simp at hres
        · rename_i hO
          have hO' : st = 'O' := by simpa using hO
          obtain ⟨j, hj, hres', hlen, hst, hall⟩ := ih _ _ hres
          refine ⟨j + 1, Nat.succ_lt_succ hj, ?_, ?_, ?_, ?_⟩
          · simpa [advance] using hres'
          · simpa [advance] using hlen
          · simpa [advance] using hst
          · intro j' hj'
            cases j' with
            | zero => simpa [advance, hO'] using hs
            | succ m =>
              have := hall m (Nat.lt_of_succ_lt_succ hj')
              simpa [advance] using this

end LoopLemmas

/-! ## The data-model invariant -/

section Invariant

variable {α : Type}

theorem cap_le_size_mod (c : Nat) (h : (c : Int) ≤ INT_MAX) : c ≤ SIZE_MOD := by
  unfold INT_MAX at h
  unfold SIZE_MOD
  omega

/-- The least index at which a property of the probe steps holds. -/
theorem first_step (P : Nat → Prop) : ∀ j0, P j0 → ∃ j1, j1 ≤ j0 ∧ P j1 ∧ ∀ j', j' < j1 → ¬ P j' := by
  intro j0
  induction j0 using Nat.strong_induction_on with
  | _ n ih =>
    intro hn
    by_cases hall : ∀ j', j' < n → ¬ P j'
    · exact ⟨n, Nat.le_refl _, hn, hall⟩
    · simp only [not_forall, not_not] at hall
      obtain ⟨m, hm, hPm⟩ := hall
      obtain ⟨j1, hj1, hP, hmin⟩ := ih m hm hPm
      exact ⟨j1, by omega, hP, hmin⟩

variable {hf : String → Nat} {t : LPTable α}

theorem LPTable.Core.status_some (hwf : t.Core hf) {i : Nat} (hi : i < t.capacity_) :
    ∃ st, t.recordStatus_[i]? = some st := by
  have : i < t.recordStatus_.length := by rw [hwf.len_status]; exact hi
  exact ⟨_, List.getElem?_eq_getElem this⟩

theorem LPTable.Core.record_some (hwf : t.Core hf) {i : Nat} (hi : i < t.capacity_) :
    ∃ o, t.records_[i]? = some o := by
  have : i < t.records_.length := by rw [hwf.len_records]; exact hi
  exact ⟨_, List.getElem?_eq_getElem this⟩

theorem LPTable.Core.lt_of_record (hwf : t.Core hf) {i : Nat} {o : Option (Record α)}
    (h : t.records_[i]? = some o) : i < t.capacity_ := by
  rw [← hwf.len_records]
  exact (List.getElem?_eq_some.mp h).1

theorem LPTable.Core.lt_of_status (hwf : t.Core hf) {i : Nat} {st : Char}
    (h : t.recordStatus_[i]? = some st) : i < t.capacity_ := by
  rw [← hwf.len_status]
  exact (List.getElem?_eq_some.mp h).1

/-- In a well-formed table a slot lets a search for `key` pass unless it is
`Empty` or holds `key`. -/
theorem LPTable.Core.passes_or (hwf : t.Core hf) (key : String) {i : Nat} (hi : i < t.capacity_) :
    t.passes key i ∨ t.recordStatus_[i]? = some 'E' ∨
      ∃ r, t.records_[i]? = some (some r) ∧ r.key_ = key ∧ t.recordStatus_[i]? = some 'O' := by
  obtain ⟨st, hs⟩ := hwf.status_some hi
  obtain ⟨o, ho⟩ := hwf.record_some hi
  by_cases hE : st = 'E'
  · right; left; rw [hs, hE]
  · cases o with
    | none => left; exact ⟨⟨st, hs, hE⟩, Or.inl ho⟩
    | some r =>
      by_cases hk : r.key_ = key
      · right; right; exact ⟨r, ho, hk, (hwf.lockstep i).mp ⟨r, ho⟩⟩
      · left; exact ⟨⟨st, hs, hE⟩, Or.inr ⟨r, ho, hk⟩⟩

theorem passes_not_empty {key : String} {i : Nat} (hp : t.passes key i) :
    t.recordStatus_[i]? ≠ some 'E' := by
  obtain ⟨⟨st, hs, hne⟩, _⟩ := hp
  rw [hs]
  intro h
  exact hne (Option.some.inj h)

theorem passes_not_key {key : String} {i : Nat} (hp : t.passes key i) (r : Record α)
    (hr : t.records_[i]? = some (some r)) : r.key_ ≠ key := by
  obtain ⟨_, h0 | ⟨r', hr', hk⟩⟩ := hp
  · rw [hr] at h0; simp at h0
  · rw [hr] at hr'
    have : r = r' := Option.some.inj (Option.some.inj hr')
    rw [this]; exact hk

/-- A stored key is found, in the slot that stores it. -/
theorem LPTable.Core.search_present (hwf : t.Core hf) {i : Nat} {r : Record α}
    (hr : t.records_[i]? = some (some r)) {fuel : Nat} (hfuel : 2 * t.capacity_ ≤ fuel) :
    t.search hf fuel r.key_ = .ok (some i) := by
  have hcap : t.capacity_ ≠ 0 := Nat.pos_iff_ne_zero.mp hwf.cap_pos
  have hi : i < t.capacity_ := hwf.lt_of_record hr
  have hh : hf r.key_ % SIZE_MOD < SIZE_MOD := Nat.mod_lt _ SIZE_MOD_pos
  obtain ⟨j0, hj0, hslot⟩ := advance_covers t.capacity_ _ i (cap_le_size_mod _ hwf.cap_le) hh hi
  have hstop : ¬ t.passes r.key_ (advance (hf r.key_ % SIZE_MOD) j0 % t.capacity_) := by
    intro hp
    rw [hslot] at hp
    exact passes_not_key hp r hr rfl
  obtain ⟨j1, hj1, hP, hmin⟩ :=
    first_step (fun j => ¬ t.passes r.key_ (advance (hf r.key_ % SIZE_MOD) j % t.capacity_)) j0 hstop
  have hpass : ∀ j', j' < j1 →
      t.passes r.key_ (advance (hf r.key_ % SIZE_MOD) j' % t.capacity_) := by
    intro j' hj'
    exact not_not.mp (hmin j' hj')
  have hlt : advance (hf r.key_ % SIZE_MOD) j1 % t.capacity_ < t.capacity_ :=
    Nat.mod_lt _ hwf.cap_pos
  have hfuel' : fuel = (fuel - j1 - 1) + 1 + j1 := by omega
  unfold LPTable.search
  rw [hfuel', searchLoop_skip t r.key_ hcap j1 _ _ hpass]
  rcases hwf.passes_or r.key_ hlt with hp | hE | ⟨r', hr', hk, hO⟩
  · exact absurd hp hP
  · exfalso
    obtain ⟨jc, hjc, hchain⟩ := hwf.chain i r hr
    rcases Nat.lt_trichotomy j1 jc with h1 | h1 | h1
    · exact hchain j1 h1 hE
    · rw [h1, hjc] at hE
      have := (hwf.lockstep i).mp ⟨r, hr⟩
      rw [this] at hE
      simp at hE
    · have := hpass jc h1
      rw [hjc] at this
      exact passes_not_key this r hr rfl
  · have hEq := hwf.unique _ _ _ _ hr' hr hk
    rw [searchLoop_stop_match t r.key_ hcap _ _ 'O' r' hO (by decide) hr' hk, hEq]

/-- A key that is not stored is reported absent as soon as the table has an
`Empty` slot. -/
theorem LPTable.Core.search_absent (hwf : t.Core hf) {key : String}
    (habs : ∀ (i : Nat) (r : Record α), t.records_[i]? = some (some r) → r.key_ ≠ key)
    {e : Nat} (hE : t.recordStatus_[e]? = some 'E')
    {fuel : Nat} (hfuel : 2 * t.capacity_ ≤ fuel) :
    t.search hf fuel key = .ok none := by
  have hcap : t.capacity_ ≠ 0 := Nat.pos_iff_ne_zero.mp hwf.cap_pos
  have he : e < t.capacity_ := hwf.lt_of_status hE
  have hh : hf key % SIZE_MOD < SIZE_MOD := Nat.mod_lt _ SIZE_MOD_pos
  obtain ⟨j0, hj0, hslot⟩ := advance_covers t.capacity_ _ e (cap_le_size_mod _ hwf.cap_le) hh he
  have hstop : ¬ t.passes key (advance (hf key % SIZE_MOD) j0 % t.capacity_) := by
    intro hp
    rw [hslot] at hp
    exact passes_not_empty hp hE
  obtain ⟨j1, hj1, hP, hmin⟩ :=
    first_step (fun j => ¬ t.passes key (advance (hf key % SIZE_MOD) j % t.capacity_)) j0 hstop
  have hpass : ∀ j', j' < j1 → t.passes key (advance (hf key % SIZE_MOD) j' % t.capacity_) := by
    intro j' hj'
    exact not_not.mp (hmin j' hj')
  have hlt : advance (hf key % SIZE_MOD) j1 % t.capacity_ < t.capacity_ :=
    Nat.mod_lt _ hwf.cap_pos
  have hfuel' : fuel = (fuel - j1 - 1) + 1 + j1 := by omega
  unfold LPTable.search
  rw [hfuel', searchLoop_skip t key hcap j1 _ _ hpass]
  rcases hwf.passes_or key hlt with hp | hE1 | ⟨r', hr', hk, _⟩
  · exact absurd hp hP
  · exact searchLoop_stop_empty t key hcap _ _ hE1
  · exact absurd hk (habs _ _ hr')

/-- When a search reports a key absent, no slot stores it. -/
theorem LPTable.Core.search_none_absent (hwf : t.Core hf) {key : String} {fuel : Nat}
    (hs : t.search hf fuel key = .ok none) :
    ∀ (i : Nat) (r : Record α), t.records_[i]? = some (some r) → r.key_ ≠ key := by
  intro i r hr hk
  have h1 : t.search hf (fuel + 2 * t.capacity_) r.key_ = .ok (some i) :=
    hwf.search_present hr (by omega)
  have h2 := searchLoop_mono t key (2 * t.capacity_) fuel _ _ hs
  rw [hk] at h1
  unfold LPTable.search at h1
  rw [h1] at h2
  simp at h2

/-- When a search reports a key absent, it stopped at an `Empty` slot. -/
theorem searchLoop_none_empty (t : LPTable α) (key : String) :
    ∀ fuel h, t.searchLoop key fuel h = .ok none →
      ∃ i : Nat, t.recordStatus_[i]? = some 'E' := by
  intro fuel
  induction fuel with
  | zero => intro h hres; simp [LPTable.searchLoop] at hres
  | succ n ih =>
    intro h hres
    rw [LPTable.searchLoop] at hres
    by_cases hc : t.capacity_ = 0
    · simp [hc] at hres
    · simp only [hc, if_false] at hres
      cases hs : t.recordStatus_[h % t.capacity_]? with
      | none => simp [hs] at hres
      | some st =>
        simp only [hs] at hres
        by_cases hE : st = 'E'
        · exact ⟨_, by rw [hs, hE]⟩
        · simp only [hE, if_false] at hres
          cases hr : t.records_[h % t.capacity_]? with
          | none => simp [hr] at hres
          | some o =>
            cases o with
            | none => simp only [hr] at hres; exact ih _ hres
            | some r =>
              simp only [hr] at hres
              by_cases hk : r.key_ = key
              · simp [hk] at hres
              · simp only [hk, if_false] at hres
                exact ih _ hres

/-- The insertion loop returns as soon as some slot is not `Occupied`. -/
theorem LPTable.Core.insert_total (hwf : t.Core hf) (key : String) (value : α) (h : Nat)
    (hh : h < SIZE_MOD) {e : Nat} {st : Char} (he : t.recordStatus_[e]? = some st)
    (hne : st ≠ 'O') {fuel : Nat} (hfuel : 2 * t.capacity_ ≤ fuel) :
    ∃ res, t.insert key value fuel h = .ok res := by
  have hcap : t.capacity_ ≠ 0 := Nat.pos_iff_ne_zero.mp hwf.cap_pos
  have he' : e < t.capacity_ := hwf.lt_of_status he
  obtain ⟨j0, hj0, hslot⟩ := advance_covers t.capacity_ _ e (cap_le_size_mod _ hwf.cap_le) hh he'
  have hstop : ¬ t.recordStatus_[advance h j0 % t.capacity_]? = some 'O' := by
    rw [hslot, he]
    intro hc
    exact hne (Option.some.inj hc)
  obtain ⟨j1, hj1, hP, hmin⟩ :=
    first_step (fun j => ¬ t.recordStatus_[advance h j % t.capacity_]? = some 'O') j0 hstop
  have hpass : ∀ j', j' < j1 → t.recordStatus_[advance h j' % t.capacity_]? = some 'O' := by
    intro j' hj'
    exact not_not.mp (hmin j' hj')
  have hlt : advance h j1 % t.capacity_ < t.capacity_ := Nat.mod_lt _ hwf.cap_pos
  obtain ⟨st1, hs1⟩ := hwf.status_some hlt
  have hfuel' : fuel = (fuel - j1 - 1) + 1 + j1 := by omega
  rw [hfuel', insert_skip t key value hcap j1 _ _ hpass]
  refine ⟨_, insert_here t key value hcap _ _ st1 hs1 ?_ ?_⟩
  · intro hc
    apply hP
    show t.recordStatus_[advance h j1 % t.capacity_]? = some 'O'
    rw [hs1, hc]
  · rw [hwf.len_records]; exact hlt

end Invariant

/-! ## The invariant is established and preserved -/

section Preservation

variable {α : Type} {hf : String → Nat} {t : LPTable α}

/-- The representation invariant only reads the arrays and the capacity. -/
theorem LPTable.Core.congr {t' : LPTable α} (hc : t.Core hf) (h1 : t'.records_ = t.records_)
    (h2 : t'.recordStatus_ = t.recordStatus_) (h3 : t'.capacity_ = t.capacity_) :
    t'.Core hf := by
  cases t; cases t'
  simp only at h1 h2 h3
  subst h1 h2 h3
  exact ⟨hc.cap_pos, hc.cap_le, hc.len_records, hc.len_status, hc.status_mem, hc.lockstep,
    hc.unique, hc.chain⟩

theorem ctor_core (hf : String → Nat) (capacity : Nat) (mlf : LoadFactor) (hc : 0 < capacity)
    (hi : (capacity : Int) ≤ INT_MAX) : (LPTable.ctor capacity mlf : LPTable α).Core hf where
  cap_pos := hc
  cap_le := hi
  len_records := by simp [LPTable.ctor]
  len_status := by simp [LPTable.ctor]
  status_mem := by
    intro st hst
    left
    exact List.eq_of_mem_replicate hst
  lockstep := by
    intro i
    simp only [LPTable.ctor, List.getElem?_replicate]
    constructor
    · rintro ⟨r, hr⟩
      split at hr <;> simp at hr
    · intro h
      split at h <;> simp at h
  unique := by
    intro i j ri rj hri
    simp only [LPTable.ctor, List.getElem?_replicate] at hri
    split at hri <;> simp at hri
  chain := by
    intro i r hri
    simp only [LPTable.ctor, List.getElem?_replicate] at hri
    split at hri <;> simp at hri

theorem ctor_wf (capacity : Nat) (mlf : LoadFactor) (hc : 0 < capacity)
    (hi : (capacity : Int) ≤ INT_MAX) (h0 : 0 < mlf.num) (h1 : mlf.num ≤ mlf.den) :
    (LPTable.ctor capacity mlf : LPTable α).WF hf where
  toCore := ctor_core hf capacity mlf hc hi
  size_eq := by simp [LPTable.ctor, List.count_replicate]
  max_nonneg := by
    simp only [LPTable.ctor]
    exact Int.tdiv_nonneg (by positivity) (by omega)
  max_le := by
    simp only [LPTable.ctor]
    have hd : (0 : Int) < mlf.den := by omega
    rw [Int.tdiv_eq_ediv (by positivity) (by omega)]
    apply Int.ediv_le_of_le_mul hd
    nlinarith

theorem count_set_occupied (l : List Char) (p : Nat) (st : Char) (hp : l[p]? = some st)
    (hne : st ≠ 'O') : (l.set p 'O').count 'O' = l.count 'O' + 1 := by
  obtain ⟨hlt, hget⟩ := List.getElem?_eq_some.mp hp
  rw [List.count_set _ _ _ _ hlt, hget]
  simp [hne]

theorem count_set_deleted (l : List Char) (p : Nat) (hp : l[p]? = some 'O') :
    (l.set p 'D').count 'O' + 1 = l.count 'O' := by
  obtain ⟨hlt, hget⟩ := List.getElem?_eq_some.mp hp
  have hpos : 0 < l.count 'O' := List.count_pos_iff.mpr (hget ▸ List.getElem_mem hlt)
  rw [List.count_set _ _ _ _ hlt, hget]
  simp
  omega

/-- Storing a new key in a slot that was not `Occupied`, reached from the
key's hash through `Occupied` slots only, keeps the representation
invariant. -/
theorem LPTable.Core.setSlot (hc : t.Core hf) {key : String} (value : α) {p : Nat} {st : Char}
    (habs : ∀ (i : Nat) (r : Record α), t.records_[i]? = some (some r) → r.key_ ≠ key)
    (hp : t.recordStatus_[p]? = some st)
    (hchain : ∃ j : Nat, advance (hf key % SIZE_MOD) j % t.capacity_ = p ∧
      ∀ j' : Nat, j' < j →
        t.recordStatus_[advance (hf key % SIZE_MOD) j' % t.capacity_]? = some 'O') :
    (t.setSlot p key value).Core hf := by
  have hplt : p < t.capacity_ := hc.lt_of_status hp
  have hpr : p < t.records_.length := by rw [hc.len_records]; exact hplt
  have hps : p < t.recordStatus_.length := by rw [hc.len_status]; exact hplt
  have hrec : ∀ (i : Nat) (r : Record α), (t.setSlot p key value).records_[i]? = some (some r) →
      (i = p ∧ r = ⟨value, key⟩) ∨ (i ≠ p ∧ t.records_[i]? = some (some r)) := by
    intro i r hr
    simp only [LPTable.setSlot, List.getElem?_set] at hr
    by_cases hip : p = i
    · left
      simp only [hip, if_true] at hr
      split at hr
      · simp only [Option.some.injEq] at hr
        exact ⟨hip.symm ▸ rfl, hr.symm⟩
      · simp at hr
    · right
      simp only [hip, if_false] at hr
      exact ⟨fun h => hip h.symm, hr⟩
  have hst : ∀ i : Nat, (t.setSlot p key value).recordStatus_[i]? =
      if p = i then some 'O' else t.recordStatus_[i]? := by
    intro i
    simp only [LPTable.setSlot, List.getElem?_set, hps, if_true]
  refine ⟨hc.cap_pos, hc.cap_le, ?_, ?_, ?_, ?_, ?_, ?_⟩
  · simp [LPTable.setSlot, hc.len_records]
  · simp [LPTable.setSlot, hc.len_status]
  · intro s hs
    rcases List.mem_or_eq_of_mem_set hs with h | h
    · exact hc.status_mem s h
    · right; left; exact h
  · intro i
    rw [hst]
    by_cases hip : p = i
    · simp only [hip, if_true, iff_true]
      refine ⟨⟨value, key⟩, ?_⟩
      simp [LPTable.setSlot, List.getElem?_set, ← hip, hpr]
    · simp only [hip, if_false]
      rw [← hc.lockstep i]
      simp only [LPTable.setSlot, List.getElem?_set, hip, if_false]
  · intro i j ri rj hri hrj hk
    rcases hrec i ri hri with ⟨hi, hri'⟩ | ⟨hi, hri'⟩ <;>
      rcases hrec j rj hrj with ⟨hj, hrj'⟩ | ⟨hj, hrj'⟩
    · rw [hi, hj]
    · exfalso
      apply habs j rj hrj'
      rw [← hk, hri']
    · exfalso
      apply habs i ri hri'
      rw [hk, hrj']
    · exact hc.unique i j ri rj hri' hrj' hk
  · intro i r hr
    rcases hrec i r hr with ⟨hi, hr'⟩ | ⟨hi, hr'⟩
    · obtain ⟨j, hj, hall⟩ := hchain
      refine ⟨j, ?_, ?_⟩
      · rw [hr', hi]; exact hj
      · intro j' hj'
        rw [hr', hst]
        have := hall j' hj'
        split
        · simp
        · show t.recordStatus_[advance (hf key % SIZE_MOD) j' % t.capacity_]? ≠ some 'E'
          rw [this]; simp
    · obtain ⟨j, hj, hall⟩ := hc.chain i r hr'
      refine ⟨j, hj, ?_⟩
      intro j' hj'
      rw [hst]
      split
      · simp
      · exact hall j' hj'

end Preservation

/-! ## One insertion, and the re-insertion loop of `grow` -/

section Grow

variable {α : Type} {hf : String → Nat}

theorem exists_not_occupied (l : List Char) (h : l.count 'O' < l.length) :
    ∃ (e : Nat) (st : Char), l[e]? = some st ∧ st ≠ 'O' := by
  have hne : ¬ ∀ b, b ∈ l → 'O' = b := by
    intro hall
    have := List.count_eq_length.mpr hall
    omega
  simp only [not_forall] at hne
  obtain ⟨b, hb, hbO⟩ := hne
  obtain ⟨e, he⟩ := List.mem_iff_getElem?.mp hb
  exact ⟨e, b, he, fun h => hbO h.symm⟩

/-- What a returning `insert` of a key that is not stored does to a table
satisfying the representation invariant. -/
theorem insert_step {t t1 : LPTable α} (hc : t.Core hf) {key : String} {value : α} {fuel : Nat}
    (habs : ∀ (i : Nat) (r : Record α), t.records_[i]? = some (some r) → r.key_ ≠ key)
    (hins : t.insert key value fuel (hf key % SIZE_MOD) = .ok t1) :
    t1.Core hf ∧ t1.capacity_ = t.capacity_ ∧ t1.max_ = t.max_ ∧ t1.size_ = t.size_ ∧
      (∀ r, Stored t1.records_ r ↔ r = ⟨value, key⟩ ∨ Stored t.records_ r) ∧
      t1.recordStatus_.count 'O' = t.recordStatus_.count 'O' + 1 ∧
      ((∀ st, st ∈ t.recordStatus_ → st = 'E' ∨ st = 'O') →
        ∀ st, st ∈ t1.recordStatus_ → st = 'E' ∨ st = 'O') ∧
      (∀ (i : Nat) (st : Char), t1.recordStatus_[i]? = some st → st ≠ 'O' →
        t.recordStatus_[i]? = some st) := by
  obtain ⟨j, _, hres, hlen, ⟨st, hst, hne⟩, hall⟩ := insert_sound t key value fuel _ t1 hins
  have hcore := hc.setSlot value habs hst ⟨j, rfl, hall⟩
  have hps : advance (hf key % SIZE_MOD) j % t.capacity_ < t.recordStatus_.length :=
    (List.getElem?_eq_some.mp hst).1
  have hnone : t.records_[advance (hf key % SIZE_MOD) j % t.capacity_]? = some none := by
    obtain ⟨o, ho⟩ := hc.record_some (hc.lt_of_status hst)
    cases o with
    | none => exact ho
    | some r =>
      have := (hc.lockstep _).mp ⟨r, ho⟩
      rw [hst] at this
      exact absurd (Option.some.inj this) hne
  subst hres
  refine ⟨hcore, rfl, rfl, rfl, ?_, ?_, ?_, ?_⟩
  · intro r
    constructor
    · rintro ⟨i, hi⟩
      simp only [LPTable.setSlot] at hi
      by_cases heq : advance (hf key % SIZE_MOD) j % t.capacity_ = i
      · left
        rw [← heq, List.getElem?_set_self hlen] at hi
        simp only [Option.some.injEq] at hi
        exact hi.symm
      · right
        rw [List.getElem?_set_ne heq] at hi
        exact ⟨i, hi⟩
    · rintro (h | ⟨i, hi⟩)
      · refine ⟨advance (hf key % SIZE_MOD) j % t.capacity_, ?_⟩
        simp [LPTable.setSlot, List.getElem?_set, hlen, h]
      · refine ⟨i, ?_⟩
        simp only [LPTable.setSlot, List.getElem?_set]
        split
        · rename_i heq
          rw [← heq, hnone] at hi
          simp at hi
        · exact hi
  · exact count_set_occupied _ _ st hst hne
  · intro hEO s hs
    rcases List.mem_or_eq_of_mem_set hs with h | h
    · exact hEO s h
    · right; exact h
  · intro i s hs hsO
    simp only [LPTable.setSlot] at hs
    by_cases heq : advance (hf key % SIZE_MOD) j % t.capacity_ = i
    · rw [← heq, List.getElem?_set_self hps] at hs
      simp only [Option.some.injEq] at hs
      exact absurd hs.symm hsO
    · rw [List.getElem?_set_ne heq] at hs
      exact hs

/-- The re-insertion loop: what it returns, when it returns. -/
theorem reinsert_sound (fuel : Nat) (old : List (Option (Record α)))
    (hold : ∀ (i j : Nat) (ri rj : Record α), old[i]? = some (some ri) →
      old[j]? = some (some rj) → ri.key_ = rj.key_ → i = j) :
    ∀ (is : List Nat) (t2 t' : LPTable α), is.Nodup → t2.Core hf →
      (∀ r, Stored t2.records_ r → ∀ (i : Nat) (ri : Record α), i ∈ is →
        old[i]? = some (some ri) → ri.key_ ≠ r.key_) →
      LPTable.reinsert hf fuel old is t2 = .ok t' →
      t'.Core hf ∧ t'.capacity_ = t2.capacity_ ∧ t'.max_ = t2.max_ ∧ t'.size_ = t2.size_ ∧
        (∀ r, Stored t'.records_ r ↔
          Stored t2.records_ r ∨ ∃ i : Nat, i ∈ is ∧ old[i]? = some (some r)) ∧
        t'.recordStatus_.count 'O' = t2.recordStatus_.count 'O' + is.countP (occupiedAt old) ∧
        ((∀ st, st ∈ t2.recordStatus_ → st = 'E' ∨ st = 'O') →
          ∀ st, st ∈ t'.recordStatus_ → st = 'E' ∨ st = 'O') := by
  intro is
  induction is with
  | nil =>
    intro t2 t' _ hc _ hres
    simp only [LPTable.reinsert, Except.ok.injEq] at hres
    subst hres
    refine ⟨hc, rfl, rfl, rfl, ?_, by simp, fun h => h⟩
    intro r
    simp
  | cons i rest ih =>
    intro t2 t' hnd hc hdis hres
    have hnd' : rest.Nodup := (List.nodup_cons.mp hnd).2
    have hi_notin : i ∉ rest := (List.nodup_cons.mp hnd).1
    rw [LPTable.reinsert] at hres
    cases ho : old[i]? with
    | none => simp [ho] at hres
    | some o =>
      cases o with
      | none =>
        simp only [ho] at hres
        have hdis' : ∀ r, Stored t2.records_ r → ∀ (i' : Nat) (ri : Record α), i' ∈ rest →
            old[i']? = some (some ri) → ri.key_ ≠ r.key_ :=
          fun r hr i' ri hi' => hdis r hr i' ri (List.mem_cons_of_mem _ hi')
        obtain ⟨h1, h2, h3, h4, h5, h6, h7⟩ := ih t2 t' hnd' hc hdis' hres
        refine ⟨h1, h2, h3, h4, ?_, ?_, h7⟩
        · intro r
          rw [h5 r]
          constructor
          · rintro (h | ⟨i', hi', hr⟩)
            · exact Or.inl h
            · exact Or.inr ⟨i', List.mem_cons_of_mem _ hi', hr⟩
          · rintro (h | ⟨i', hi', hr⟩)
            · exact Or.inl h
            · rcases List.mem_cons.mp hi' with heq | hmem
              · rw [heq, ho] at hr; simp at hr
              · exact Or.inr ⟨i', hmem, hr⟩
        · rw [h6, List.countP_cons]
          simp [occupiedAt, ho]
      | some ri =>
        simp only [ho] at hres
        cases hins : t2.insert ri.key_ ri.data_ fuel (hf ri.key_ % SIZE_MOD) with
        | error e => simp [hins] at hres
        | ok t1 =>
          simp only [hins] at hres
          have habs : ∀ (j : Nat) (r : Record α), t2.records_[j]? = some (some r) →
              r.key_ ≠ ri.key_ :=
            fun j r hr => (hdis r ⟨j, hr⟩ i ri (List.mem_cons_self _ _) ho).symm
          obtain ⟨s1, s2, s3, s4, s5, s6, s7, _⟩ := insert_step hc habs hins
          have hdis' : ∀ r, Stored t1.records_ r → ∀ (i' : Nat) (ri' : Record α), i' ∈ rest →
              old[i']? = some (some ri') → ri'.key_ ≠ r.key_ := by
            intro r hr i' ri' hi' ho'
            rcases (s5 r).mp hr with h | h
            · intro hk
              have : i' = i := hold i' i ri' ri ho' ho (by rw [hk, h])
              exact hi_notin (this ▸ hi')
            · exact hdis r h i' ri' (List.mem_cons_of_mem _ hi') ho'
          obtain ⟨h1, h2, h3, h4, h5, h6, h7⟩ := ih t1 t' hnd' s1 hdis' hres
          refine ⟨h1, by rw [h2, s2], by rw [h3, s3], by rw [h4, s4], ?_, ?_, fun h => h7 (s7 h)⟩
          · intro r
            rw [h5 r, s5 r]
            constructor
            · rintro ((h | h) | ⟨i', hi', hr⟩)
              · exact Or.inr ⟨i, List.mem_cons_self _ _, by rw [ho, h]⟩
              · exact Or.inl h
              · exact Or.inr ⟨i', List.mem_cons_of_mem _ hi', hr⟩
            · rintro (h | ⟨i', hi', hr⟩)
              · exact Or.inl (Or.inr h)
              · rcases List.mem_cons.mp hi' with heq | hmem
                · rw [heq, ho] at hr
                  simp only [Option.some.injEq] at hr
                  exact Or.inl (Or.inl hr.symm)
                · exact Or.inr ⟨i', hmem, hr⟩
          · rw [h6, s6, List.countP_cons]
            simp [occupiedAt, ho]
            omega

end Grow

section GrowTotal

variable {α : Type} {hf : String → Nat}

/-- The re-insertion loop returns when the new array has room for the records
still to be inserted. -/
theorem reinsert_total (fuel : Nat) (old : List (Option (Record α)))
    (hold : ∀ (i j : Nat) (ri rj : Record α), old[i]? = some (some ri) →
      old[j]? = some (some rj) → ri.key_ = rj.key_ → i = j) :
    ∀ (is : List Nat) (t2 : LPTable α), is.Nodup → (∀ i : Nat, i ∈ is → i < old.length) →
      t2.Core hf →
      (∀ r, Stored t2.records_ r → ∀ (i : Nat) (ri : Record α), i ∈ is →
        old[i]? = some (some ri) → ri.key_ ≠ r.key_) →
      t2.recordStatus_.count 'O' + is.length ≤ t2.capacity_ →
      2 * t2.capacity_ ≤ fuel →
      ∃ t', LPTable.reinsert hf fuel old is t2 = .ok t' := by
  intro is
  induction is with
  | nil =>
    intro t2 _ _ _ _ _ _
    exact ⟨t2, rfl⟩
  | cons i rest ih =>
    intro t2 hnd hlt hc hdis hcount hfuel
    have hnd' : rest.Nodup := (List.nodup_cons.mp hnd).2
    have hi_notin : i ∉ rest := (List.nodup_cons.mp hnd).1
    have hlt' : ∀ i' : Nat, i' ∈ rest → i' < old.length :=
      fun i' hi' => hlt i' (List.mem_cons_of_mem _ hi')
    simp only [List.length_cons] at hcount
    rw [LPTable.reinsert]
    obtain ⟨o, ho⟩ : ∃ o, old[i]? = some o :=
      ⟨_, List.getElem?_eq_getElem (hlt i (List.mem_cons_self _ _))⟩
    cases o with
    | none =>
      simp only [ho]
      exact ih t2 hnd' hlt' hc
        (fun r hr i' ri hi' => hdis r hr i' ri (List.mem_cons_of_mem _ hi')) (by omega) hfuel
    | some ri =>
      simp only [ho]
      have hroom : t2.recordStatus_.count 'O' < t2.recordStatus_.length := by
        rw [hc.len_status]; omega
      obtain ⟨e, st, he, hne⟩ := exists_not_occupied _ hroom
      obtain ⟨t1, hins⟩ := hc.insert_total ri.key_ ri.data_ (hf ri.key_ % SIZE_MOD)
        (Nat.mod_lt _ SIZE_MOD_pos) he hne hfuel
      simp only [hins]
      have habs : ∀ (j : Nat) (r : Record α), t2.records_[j]? = some (some r) →
          r.key_ ≠ ri.key_ :=
        fun j r hr => (hdis r ⟨j, hr⟩ i ri (List.mem_cons_self _ _) ho).symm
      obtain ⟨s1, s2, _, _, s5, s6, _, _⟩ := insert_step hc habs hins
      have hdis' : ∀ r, Stored t1.records_ r → ∀ (i' : Nat) (ri' : Record α), i' ∈ rest →
          old[i']? = some (some ri') → ri'.key_ ≠ r.key_ := by
        intro r hr i' ri' hi' ho'
        rcases (s5 r).mp hr with h | h
        · intro hk
          have : i' = i := hold i' i ri' ri ho' ho (by rw [hk, h])
          exact hi_notin (this ▸ hi')
        · exact hdis r h i' ri' (List.mem_cons_of_mem _ hi') ho'
      exact ih t1 hnd' hlt' s1 hdis' (by rw [s6, s2]; omega) (by rw [s2]; exact hfuel)

/-- With the arrays in lockstep, the non-null records are as many as the
`Occupied` statuses. -/
theorem countP_range_lockstep (rs : List (Option (Record α))) (sts : List Char)
    (hlen : rs.length = sts.length)
    (lock : ∀ i : Nat, (∃ r, rs[i]? = some (some r)) ↔ sts[i]? = some 'O') :
    (List.range rs.length).countP (occupiedAt rs) = sts.count 'O' := by
  have key : ∀ n, n ≤ sts.length →
      (List.range n).countP (occupiedAt rs) = (sts.take n).count 'O' := by
    intro n
    induction n with
    | zero => intro _; simp
    | succ m ih =>
      intro hm
      have hm' : m < sts.length := hm
      rw [List.range_succ, List.countP_append, ih (by omega), List.take_succ, List.count_append,
        List.getElem?_eq_getElem hm']
      congr 1
      have hl := lock m
      rw [List.getElem?_eq_getElem hm'] at hl
      by_cases hO : sts[m] = 'O'
      · obtain ⟨r, hr⟩ := hl.mpr (by rw [hO])
        simp [occupiedAt, hr, hO]
      · have hno : ¬ ∃ r, rs[m]? = some (some r) := fun h => hO (Option.some.inj (hl.mp h))
        have : occupiedAt rs m = false := by
          unfold occupiedAt
          split
          · rename_i r hr
            exact absurd ⟨r, hr⟩ hno
          · rfl
        simp [this, List.count_cons, hO]
  rw [hlen, key _ (Nat.le_refl _), List.take_length]

/-- The table that `grow` allocates before it re-inserts the records. -/
theorem grow_fresh_core (hf : String → Nat) (t : LPTable α) (hpos : 0 < t.capacity_)
    (hle : 2 * (t.capacity_ : Int) ≤ INT_MAX) (m s : Int) :
    ({ records_ := List.replicate (2 * t.capacity_) none
       recordStatus_ := List.replicate (2 * t.capacity_) 'E'
       max_ := m
       size_ := s
       capacity_ := 2 * t.capacity_ } : LPTable α).Core hf :=
  (ctor_core hf (2 * t.capacity_) ⟨0, 1⟩ (by omega) (by push_cast; exact hle)).congr
    rfl rfl rfl

/-- What `grow` returns, when it returns. -/
theorem grow_sound {t t' : LPTable α} (hc : t.Core hf) {fuel : Nat}
    (hg : t.grow hf fuel = .ok t') :
    t'.Core hf ∧ t'.capacity_ = 2 * t.capacity_ ∧ t'.max_ = 2 * t.max_ ∧ t'.size_ = t.size_ ∧
      (∀ r, Stored t'.records_ r ↔ Stored t.records_ r) ∧
      t'.recordStatus_.count 'O' = t.recordStatus_.count 'O' ∧
      (∀ st, st ∈ t'.recordStatus_ → st = 'E' ∨ st = 'O') ∧
      2 * (t.capacity_ : Int) ≤ INT_MAX := by
  unfold LPTable.grow at hg
  split at hg
  · simp at hg
  · rename_i hcap
    split at hg
    · simp at hg
    · have hcap' : 2 * (t.capacity_ : Int) ≤ INT_MAX := not_lt.mp hcap
      have hfresh := grow_fresh_core hf t hc.cap_pos hcap' (2 * t.max_) t.size_
      obtain ⟨h1, h2, h3, h4, h5, h6, h7⟩ :=
        reinsert_sound fuel t.records_ hc.unique (List.range t.capacity_) _ t'
          (List.nodup_range _) hfresh
          (by
            rintro r ⟨i, hi⟩
            simp only [List.getElem?_replicate] at hi
            split at hi <;> simp at hi) hg
      refine ⟨h1, h2, h3, h4, ?_, ?_, ?_, hcap'⟩
      · intro r
        rw [h5 r]
        constructor
        · rintro (⟨i, hi⟩ | ⟨i, _, hi⟩)
          · simp only [List.getElem?_replicate] at hi
            split at hi <;> simp at hi
          · exact ⟨i, hi⟩
        · rintro ⟨i, hi⟩
          exact Or.inr ⟨i, List.mem_range.mpr (hc.lt_of_record hi), hi⟩
      · rw [h6, ← hc.len_records,
          countP_range_lockstep t.records_ t.recordStatus_
            (by rw [hc.len_records, hc.len_status]) hc.lockstep]
        simp [List.count_replicate]
      · apply h7
        intro st hst
        left
        exact List.eq_of_mem_replicate hst

/-- `grow` returns when the doubled capacity and threshold are `int`s and the
fuel covers a probe of the new array. -/
theorem grow_total {t : LPTable α} (hc : t.Core hf) {fuel : Nat}
    (hcap : 2 * (t.capacity_ : Int) ≤ INT_MAX)
    (hmax : 2 * t.max_ ≤ INT_MAX ∧ INT_MIN ≤ 2 * t.max_)
    (hfuel : 4 * t.capacity_ ≤ fuel) :
    ∃ t', t.grow hf fuel = .ok t' := by
  unfold LPTable.grow
  rw [if_neg (not_lt.mpr hcap), if_neg (by rw [not_or, not_lt, not_lt]; exact hmax)]
  have hfresh := grow_fresh_core hf t hc.cap_pos hcap (2 * t.max_) t.size_
  apply reinsert_total fuel t.records_ hc.unique (List.range t.capacity_) _
    (List.nodup_range _) _ hfresh
  · rintro r ⟨i, hi⟩
    simp only [List.getElem?_replicate] at hi
    split at hi <;> simp at hi
  · simp [List.count_replicate]
    omega
  · show 2 * (2 * t.capacity_) ≤ fuel
    omega
  · intro i hi
    rw [hc.len_records]
    exact List.mem_range.mp hi

end GrowTotal

/-! ## The public operations -/

section Public

variable {α : Type} {hf : String → Nat} {t : LPTable α}

theorem INT_MIN_neg : INT_MIN < 0 := by decide

theorem INT_MAX_pos : 0 < INT_MAX := by decide

/-- Replacing the payload of a stored record keeps the representation
invariant. -/
theorem LPTable.Core.setData (hc : t.Core hf) {i : Nat} {r : Record α} (value : α)
    (hr : t.records_[i]? = some (some r)) :
    ({ t with records_ := t.records_.set i (some { r with data_ := value }) } : LPTable α).Core
      hf := by
  have hil : i < t.records_.length := (List.getElem?_eq_some.mp hr).1
  have hrec : ∀ (j : Nat) (rj : Record α),
      (t.records_.set i (some { r with data_ := value }))[j]? = some (some rj) →
      ∃ rj', t.records_[j]? = some (some rj') ∧ rj'.key_ = rj.key_ := by
    intro j rj hj
    by_cases heq : i = j
    · rw [← heq, List.getElem?_set_self hil] at hj
      simp only [Option.some.injEq] at hj
      exact ⟨r, heq ▸ hr, by rw [← hj]⟩
    · rw [List.getElem?_set_ne heq] at hj
      exact ⟨rj, hj, rfl⟩
  refine ⟨hc.cap_pos, hc.cap_le, ?_, hc.len_status, hc.status_mem, ?_, ?_, ?_⟩
  · simp [hc.len_records]
  · intro j
    rw [← hc.lockstep j]
    constructor
    · rintro ⟨rj, hj⟩
      obtain ⟨rj', hj', _⟩ := hrec j rj hj
      exact ⟨rj', hj'⟩
    · rintro ⟨rj, hj⟩
      by_cases heq : i = j
      · exact ⟨_, by rw [← heq]; exact List.getElem?_set_self hil⟩
      · exact ⟨rj, by simp only; rw [List.getElem?_set_ne heq]; exact hj⟩
  · intro j k rj rk hj hk hkey
    obtain ⟨rj', hj', e1⟩ := hrec j rj hj
    obtain ⟨rk', hk', e2⟩ := hrec k rk hk
    exact hc.unique j k rj' rk' hj' hk' (by rw [e1, e2, hkey])
  · intro j rj hj
    obtain ⟨rj', hj', e1⟩ := hrec j rj hj
    rw [← e1]
    exact hc.chain j rj' hj'

/-- Turning an `Occupied` slot into a `Deleted` one keeps the representation
invariant. -/
theorem LPTable.Core.delete (hc : t.Core hf) {i : Nat} {r : Record α}
    (hr : t.records_[i]? = some (some r)) (s : Int) :
    ({ t with
        records_ := t.records_.set i none
        recordStatus_ := t.recordStatus_.set i 'D'
        size_ := s } : LPTable α).Core hf := by
  have hil : i < t.records_.length := (List.getElem?_eq_some.mp hr).1
  have his : i < t.recordStatus_.length := by
    rw [hc.len_status, ← hc.len_records]; exact hil
  have hrec : ∀ (j : Nat) (rj : Record α), (t.records_.set i none)[j]? = some (some rj) →
      i ≠ j ∧ t.records_[j]? = some (some rj) := by
    intro j rj hj
    by_cases heq : i = j
    · rw [← heq, List.getElem?_set_self hil] at hj
      simp at hj
    · rw [List.getElem?_set_ne heq] at hj
      exact ⟨heq, hj⟩
  refine ⟨hc.cap_pos, hc.cap_le, ?_, ?_, ?_, ?_, ?_, ?_⟩
  · simp [hc.len_records]
  · simp [hc.len_status]
  · intro st hs
    rcases List.mem_or_eq_of_mem_set hs with h | h
    · exact hc.status_mem st h
    · right; right; exact h
  · intro j
    by_cases heq : i = j
    · simp only
      rw [← heq, List.getElem?_set_self hil, List.getElem?_set_self his]
      simp
    · simp only
      rw [List.getElem?_set_ne heq, List.getElem?_set_ne heq]
      exact hc.lockstep j
  · intro j k rj rk hj hk hkey
    exact hc.unique j k rj rk (hrec j rj hj).2 (hrec k rk hk).2 hkey
  · intro j rj hj
    obtain ⟨jj, hjj, hall⟩ := hc.chain j rj (hrec j rj hj).2
    refine ⟨jj, hjj, ?_⟩
    intro j' hj'
    simp only
    by_cases heq : i = advance (hf rj.key_ % SIZE_MOD) j' % t.capacity_
    · rw [← heq, List.getElem?_set_self his]
      simp
    · rw [List.getElem?_set_ne heq]
      exact hall j' hj'

theorem count_lt_of_empty (l : List Char) {e : Nat} (he : l[e]? = some 'E') :
    l.count 'O' < l.length := by
  rcases Nat.lt_or_ge (l.count 'O') l.length with h | h
  · exact h
  · exfalso
    have heq : l.count 'O' = l.length := Nat.le_antisymm (List.count_le_length _ _) h
    have hall := List.count_eq_length.mp heq
    have hmem : 'E' ∈ l := List.mem_iff_getElem?.mpr ⟨e, he⟩
    have := hall 'E' hmem
    simp at this

/-- What `update` returns, when it returns. -/
theorem update_sound {t' : LPTable α} (hwf : t.WF hf) {fuel : Nat} {key : String} {value : α}
    (hu : t.update hf fuel key value = .ok t') :
    t'.WF hf ∧
    (∀ r, Stored t'.records_ r ↔ r = ⟨value, key⟩ ∨ (r.key_ ≠ key ∧ Stored t.records_ r)) ∧
    ((∃ (i : Nat) (r : Record α), t.records_[i]? = some (some r) ∧ r.key_ = key ∧
        t' = { t with records_ := t.records_.set i (some { r with data_ := value }) }) ∨
      ((∀ (i : Nat) (r : Record α), t.records_[i]? = some (some r) → r.key_ ≠ key) ∧
        t.size_ + 1 ≤ t.max_ ∧ t'.capacity_ = t.capacity_ ∧ t'.max_ = t.max_ ∧
        t'.size_ = t.size_ + 1 ∧
        ((∀ st, st ∈ t.recordStatus_ → st = 'E' ∨ st = 'O') →
          ∀ st, st ∈ t'.recordStatus_ → st = 'E' ∨ st = 'O')) ∨
      ((∀ (i : Nat) (r : Record α), t.records_[i]? = some (some r) → r.key_ ≠ key) ∧
        t.max_ < t.size_ + 1 ∧ t'.capacity_ = 2 * t.capacity_ ∧ t'.max_ = 2 * t.max_ ∧
        t'.size_ = t.size_ + 1 ∧ ∀ st, st ∈ t'.recordStatus_ → st = 'E' ∨ st = 'O')) := by
  unfold LPTable.update at hu
  cases hs : t.search hf fuel key with
  | error e => simp [hs] at hu
  | ok res =>
    cases res with
    | some idx =>
      simp only [hs] at hu
      obtain ⟨r, hr, hk, _⟩ := searchLoop_sound t key fuel _ idx hs
      simp only [hr, Except.ok.injEq] at hu
      subst hu
      have hil : idx < t.records_.length := (List.getElem?_eq_some.mp hr).1
      refine ⟨⟨hwf.toCore.setData value hr, hwf.size_eq, hwf.max_nonneg, hwf.max_le⟩, ?_,
        Or.inl ⟨idx, r, hr, hk, rfl⟩⟩
      intro r'
      constructor
      · rintro ⟨j, hj⟩
        simp only at hj
        by_cases heq : idx = j
        · left
          rw [← heq, List.getElem?_set_self hil] at hj
          simp only [Option.some.injEq] at hj
          rw [← hj, hk]
        · right
          rw [List.getElem?_set_ne heq] at hj
          refine ⟨?_, j, hj⟩
          intro hk'
          exact heq (hwf.unique idx j r r' hr hj (by rw [hk, hk']))
      · rintro (h | ⟨hne, j, hj⟩)
        · refine ⟨idx, ?_⟩
          simp only
          rw [List.getElem?_set_self hil, h, hk]
        · refine ⟨j, ?_⟩
          simp only
          by_cases heq : idx = j
          · rw [← heq, hr] at hj
            simp only [Option.some.injEq] at hj
            exact absurd (hj ▸ hk) hne
          · rw [List.getElem?_set_ne heq]; exact hj
    | none =>
      simp only [hs] at hu
      have habs := hwf.toCore.search_none_absent hs
      cases hins : t.insert key value fuel (hf key % SIZE_MOD) with
      | error e => simp [hins] at hu
      | ok t1 =>
        simp only [hins] at hu
        obtain ⟨s1, s2, s3, s4, s5, s6, s7, _⟩ := insert_step hwf.toCore habs hins
        have hcontent : ∀ r, Stored t1.records_ r ↔
            r = ⟨value, key⟩ ∨ (r.key_ ≠ key ∧ Stored t.records_ r) := by
          intro r
          rw [s5 r]
          constructor
          · rintro (h | ⟨j, hj⟩)
            · exact Or.inl h
            · exact Or.inr ⟨habs j r hj, j, hj⟩
          · rintro (h | ⟨_, h⟩)
            · exact Or.inl h
            · exact Or.inr h
        split at hu
        · simp at hu
        · by_cases hgrow : t1.size_ + 1 > t1.max_
          · rw [if_pos hgrow] at hu
            have hc1 : ({ t1 with size_ := t1.size_ + 1 } : LPTable α).Core hf :=
              s1.congr rfl rfl rfl
            obtain ⟨g1, g2, g3, g4, g5, g6, g7, g8⟩ := grow_sound hc1 hu
            simp only at g2 g3 g4 g5 g6 g8
            refine ⟨⟨g1, ?_, ?_, ?_⟩, ?_, Or.inr (Or.inr ⟨habs, ?_, ?_, ?_, ?_, g7⟩)⟩
            · rw [g4, g6, s6, s4, hwf.size_eq]; push_cast; rfl
            · rw [g3, s3]; have := hwf.max_nonneg; omega
            · rw [g3, g2, s3, s2]; have := hwf.max_le; push_cast; omega
            · intro r; rw [g5 r]; exact hcontent r
            · rw [s4, s3] at hgrow; exact hgrow
            · rw [g2, s2]
            · rw [g3, s3]
            · rw [g4, s4]
          · rw [if_neg hgrow] at hu
            simp only [Except.ok.injEq] at hu
            subst hu
            refine ⟨⟨s1.congr rfl rfl rfl, ?_, ?_, ?_⟩, hcontent,
              Or.inr (Or.inl ⟨habs, ?_, s2, s3, ?_, s7⟩)⟩
            · simp only
              rw [s6, s4, hwf.size_eq]; push_cast; rfl
            · simp only; rw [s3]; exact hwf.max_nonneg
            · simp only; rw [s3, s2]; exact hwf.max_le
            · rw [s4, s3] at hgrow; omega
            · simp only; rw [s4]

/-- What `remove` returns, when it returns. -/
theorem remove_sound {t' : LPTable α} (hwf : t.WF hf) {fuel : Nat} {key : String} {b : Bool}
    (hrm : t.remove hf fuel key = .ok (b, t')) :
    t'.WF hf ∧
    (∀ r, Stored t'.records_ r ↔ r.key_ ≠ key ∧ Stored t.records_ r) ∧
    ((b = false ∧ t' = t ∧
        ∀ (i : Nat) (r : Record α), t.records_[i]? = some (some r) → r.key_ ≠ key) ∨
      (b = true ∧ ∃ (i : Nat) (r : Record α), t.records_[i]? = some (some r) ∧ r.key_ = key ∧
        t' = { t with
          records_ := t.records_.set i none
          recordStatus_ := t.recordStatus_.set i 'D'
          size_ := t.size_ - 1 })) := by
  unfold LPTable.remove at hrm
  cases hs : t.search hf fuel key with
  | error e => simp [hs] at hrm
  | ok res =>
    cases res with
    | none =>
      simp only [hs, Except.ok.injEq, Prod.mk.injEq] at hrm
      obtain ⟨hb, ht⟩ := hrm
      subst ht
      have habs := hwf.toCore.search_none_absent hs
      refine ⟨hwf, ?_, Or.inl ⟨hb.symm, rfl, habs⟩⟩
      intro r
      constructor
      · rintro ⟨j, hj⟩
        exact ⟨habs j r hj, j, hj⟩
      · rintro ⟨_, h⟩
        exact h
    | some idx =>
      simp only [hs] at hrm
      obtain ⟨r, hr, hk, _⟩ := searchLoop_sound t key fuel _ idx hs
      have hil : idx < t.records_.length := (List.getElem?_eq_some.mp hr).1
      have hO : t.recordStatus_[idx]? = some 'O' := (hwf.lockstep idx).mp ⟨r, hr⟩
      have his : idx < t.recordStatus_.length := (List.getElem?_eq_some.mp hO).1
      rw [if_pos ⟨hil, his⟩] at hrm
      split at hrm
      · simp at hrm
      · simp only [Except.ok.injEq, Prod.mk.injEq] at hrm
        obtain ⟨hb, ht⟩ := hrm
        subst ht
        refine ⟨⟨hwf.toCore.delete hr _, ?_, hwf.max_nonneg, hwf.max_le⟩, ?_,
          Or.inr ⟨hb.symm, idx, r, hr, hk, rfl⟩⟩
        · simp only
          have := count_set_deleted t.recordStatus_ idx hO
          rw [hwf.size_eq, ← this]; push_cast; omega
        · intro r'
          constructor
          · rintro ⟨j, hj⟩
            simp only at hj
            by_cases heq : idx = j
            · rw [← heq, List.getElem?_set_self hil] at hj
              simp at hj
            · rw [List.getElem?_set_ne heq] at hj
              refine ⟨?_, j, hj⟩
              intro hk'
              exact heq (hwf.unique idx j r r' hr hj (by rw [hk, hk']))
          · rintro ⟨hne, j, hj⟩
            refine ⟨j, ?_⟩
            simp only
            by_cases heq : idx = j
            · rw [← heq, hr] at hj
              simp only [Option.some.injEq] at hj
              exact absurd (hj ▸ hk) hne
            · rw [List.getElem?_set_ne heq]; exact hj

end Public

section Totality

variable {α : Type} {hf : String → Nat} {t : LPTable α}

/-- A stored key is found with its value. -/
theorem find_present (hc : t.Core hf) {key : String} {value : α} (hh : t.Holds key value)
    {fuel : Nat} (hfuel : 2 * t.capacity_ ≤ fuel) (out : α) :
    t.find hf fuel key out = .ok (true, value) := by
  obtain ⟨i, hi⟩ := hh
  have hs := hc.search_present hi hfuel
  simp only at hs
  unfold LPTable.find
  rw [hs]
  simp only [hi]

/-- A key that is not stored is reported absent when an `Empty` slot exists. -/
theorem find_absent (hc : t.Core hf) {key : String}
    (habs : ∀ (i : Nat) (r : Record α), t.records_[i]? = some (some r) → r.key_ ≠ key)
    {e : Nat} (hE : t.recordStatus_[e]? = some 'E') {fuel : Nat}
    (hfuel : 2 * t.capacity_ ≤ fuel) (out : α) :
    t.find hf fuel key out = .ok (false, out) := by
  unfold LPTable.find
  rw [hc.search_absent habs hE hfuel]

/-- What `find` returns, when it returns. -/
theorem find_sound (hc : t.Core hf) {key : String} {fuel : Nat} {out v : α} {b : Bool}
    (hfind : t.find hf fuel key out = .ok (b, v)) :
    (b = true ∧ t.Holds key v) ∨
      (b = false ∧ v = out ∧
        ∀ (i : Nat) (r : Record α), t.records_[i]? = some (some r) → r.key_ ≠ key) := by
  unfold LPTable.find at hfind
  cases hs : t.search hf fuel key with
  | error e => simp [hs] at hfind
  | ok res =>
    cases res with
    | none =>
      simp only [hs, Except.ok.injEq, Prod.mk.injEq] at hfind
      exact Or.inr ⟨hfind.1.symm, hfind.2.symm, hc.search_none_absent hs⟩
    | some idx =>
      simp only [hs] at hfind
      obtain ⟨r, hr, hk, _⟩ := searchLoop_sound t key fuel _ idx hs
      simp only [hr, Except.ok.injEq, Prod.mk.injEq] at hfind
      refine Or.inl ⟨hfind.1.symm, idx, ?_⟩
      rw [hr, ← hfind.2, ← hk]

/-- Updating a stored key returns. -/
theorem update_total_present (hc : t.Core hf) {key : String} {v0 : α}
    (hh : t.Holds key v0) {fuel : Nat} (hfuel : 2 * t.capacity_ ≤ fuel) (value : α) :
    ∃ t', t.update hf fuel key value = .ok t' := by
  obtain ⟨i, hi⟩ := hh
  have hs := hc.search_present hi hfuel
  simp only at hs
  unfold LPTable.update
  rw [hs]
  simp only [hi]
  exact ⟨_, rfl⟩

/-- Updating a key that is not stored returns when the table has an `Empty`
slot and, in case the table grows, the doubled capacity is an `int`. -/
theorem update_total_absent (hwf : t.WF hf) {key : String}
    (habs : ∀ (i : Nat) (r : Record α), t.records_[i]? = some (some r) → r.key_ ≠ key)
    {e : Nat} (hE : t.recordStatus_[e]? = some 'E')
    (hcap : t.size_ + 1 ≤ t.max_ ∨ 2 * (t.capacity_ : Int) ≤ INT_MAX)
    {fuel : Nat} (hfuel : 4 * t.capacity_ ≤ fuel) (value : α) :
    ∃ t', t.update hf fuel key value = .ok t' := by
  have hs : t.search hf fuel key = .ok none := hwf.toCore.search_absent habs hE (by omega)
  obtain ⟨t1, hins⟩ : ∃ res, t.insert key value fuel (hf key % SIZE_MOD) = .ok res :=
    hwf.toCore.insert_total key value (hf key % SIZE_MOD)
      (Nat.mod_lt _ SIZE_MOD_pos) hE (by decide) (by omega)
  obtain ⟨s1, s2, s3, s4, _, _, _, _⟩ := insert_step hwf.toCore habs hins
  have hcount := count_lt_of_empty _ hE
  have hsize : t.size_ + 1 ≤ INT_MAX := by
    have h1 := hwf.size_eq
    have h2 := hwf.len_status
    have h3 := hwf.cap_le
    omega
  unfold LPTable.update
  rw [hs]
  simp only [hins]
  rw [if_neg (by rw [s4]; omega)]
  by_cases hgrow : t1.size_ + 1 > t1.max_
  · rw [if_pos hgrow]
    have hc1 : ({ t1 with size_ := t1.size_ + 1 } : LPTable α).Core hf := s1.congr rfl rfl rfl
    have hcap' : 2 * (t.capacity_ : Int) ≤ INT_MAX := by
      rcases hcap with h | h
      · rw [s4, s3] at hgrow; omega
      · exact h
    apply grow_total hc1
    · simp only; rw [s2]; exact hcap'
    · simp only
      rw [s3]
      have h1 := hwf.max_nonneg
      have h2 := hwf.max_le
      have h3 := INT_MIN_neg
      constructor <;> omega
    · simp only; rw [s2]; exact hfuel
  · rw [if_neg hgrow]
    exact ⟨_, rfl⟩

/-- Removing a stored key returns `true`. -/
theorem remove_total_present (hwf : t.WF hf) {key : String} {v0 : α}
    (hh : t.Holds key v0) {fuel : Nat} (hfuel : 2 * t.capacity_ ≤ fuel) :
    ∃ t', t.remove hf fuel key = .ok (true, t') := by
  obtain ⟨i, hi⟩ := hh
  have hs := hwf.toCore.search_present hi hfuel
  simp only at hs
  have hil : i < t.records_.length := (List.getElem?_eq_some.mp hi).1
  have hO : t.recordStatus_[i]? = some 'O' := (hwf.lockstep i).mp ⟨_, hi⟩
  have his : i < t.recordStatus_.length := (List.getElem?_eq_some.mp hO).1
  unfold LPTable.remove
  rw [hs]
  simp only
  rw [if_pos ⟨hil, his⟩, if_neg]
  · exact ⟨_, rfl⟩
  · have h1 := hwf.size_eq
    have h3 := INT_MIN_neg
    omega

end Totality

/-! ## Reachable tables -/

section Reach

variable {α : Type}

/-- Every reachable table satisfies the data-model invariant. -/
theorem Reachable.wf {hf : String → Nat} {t : LPTable α} (h : Reachable hf t) : t.WF hf := by
  induction h with
  | ctor capacity mlf hpos hint h0 h1 => exact ctor_wf capacity mlf hpos hint h0 h1
  | update fuel key value _ hu ih => exact (update_sound ih hu).1
  | remove fuel key b _ hr ih => exact (remove_sound ih hr).1

end Reach

/-! ## Growth -/

section Growth

variable {α : Type} {hf : String → Nat}

theorem updateAll_append (fuel : Nat) (l1 l2 : List (String × α)) (t t1 : LPTable α)
    (h : t.updateAll hf fuel l1 = .ok t1) :
    t.updateAll hf fuel (l1 ++ l2) = t1.updateAll hf fuel l2 := by
  induction l1 generalizing t with
  | nil =>
    simp only [LPTable.updateAll, Except.ok.injEq] at h
    subst h
    rfl
  | cons kv rest ih =>
    obtain ⟨k, v⟩ := kv
    simp only [List.cons_append, LPTable.updateAll] at h ⊢
    cases hu : t.update hf fuel k v with
    | error e => simp [hu] at h
    | ok t' =>
      simp only [hu] at h ⊢
      exact ih t' h

theorem nodup_take_ne (kvs : List (String × α)) (hnd : (kvs.map Prod.fst).Nodup) (n : Nat)
    (k : String) (v : α) (hn : kvs[n]? = some (k, v)) :
    ∀ kv, kv ∈ kvs.take n → kv.1 ≠ k := by
  intro kv hkv hk
  obtain ⟨m, hm⟩ := List.mem_iff_getElem?.mp hkv
  rw [List.getElem?_take] at hm
  have hmn : m < n := by
    by_contra hge
    rw [if_neg hge] at hm
    simp at hm
  rw [if_pos hmn] at hm
  have h1 : (kvs.map Prod.fst)[m]? = some k := by
    rw [List.getElem?_map, hm]; simp [hk]
  have h2 : (kvs.map Prod.fst)[n]? = some k := by
    rw [List.getElem?_map, hn]; rfl
  obtain ⟨hml, hmg⟩ := List.getElem?_eq_some.mp h1
  obtain ⟨hnl, hng⟩ := List.getElem?_eq_some.mp h2
  have := (List.Nodup.getElem_inj_iff hnd).mp (hmg.trans hng.symm)
  omega

theorem filling_step {c thr : Nat} {kvs : List (String × α)} {n : Nat} {t : LPTable α}
    (hfill : Filling hf c thr kvs n t) (hnd : (kvs.map Prod.fst).Nodup)
    (hint : 2 * (c : Int) ≤ INT_MAX) (hlt : thr < c) (hn : n ≤ thr)
    {k : String} {v : α} (hkv : kvs[n]? = some (k, v)) {fuel : Nat} (hfuel : 4 * c ≤ fuel) :
    ∃ t', t.update hf fuel k v = .ok t' ∧ t'.WF hf ∧
      (∀ r, Stored t'.records_ r ↔ (r.key_, r.data_) ∈ kvs.take (n + 1)) ∧
      (n + 1 ≤ thr → Filling hf c thr kvs (n + 1) t') ∧
      (n = thr → t'.capacity_ = 2 * c ∧ t'.max_ = 2 * (thr : Int) ∧ t'.size_ = (thr : Int) + 1) := by
  have hwf := hfill.wf
  have hne := nodup_take_ne kvs hnd n k v hkv
  have habs : ∀ (i : Nat) (r : Record α), t.records_[i]? = some (some r) → r.key_ ≠ k := by
    intro i r hr
    exact hne _ ((hfill.content r).mp ⟨i, hr⟩)
  have hroom : t.recordStatus_.count 'O' < t.recordStatus_.length := by
    have h1 := hwf.size_eq
    have h2 := hwf.len_status
    have h3 := hfill.size
    have h4 := hfill.cap
    omega
  obtain ⟨e, st, he, hst⟩ := exists_not_occupied _ hroom
  have hE : t.recordStatus_[e]? = some 'E' := by
    rcases hfill.noDeleted st (List.mem_iff_getElem?.mpr ⟨e, he⟩) with h | h
    · rw [he, h]
    · exact absurd h hst
  obtain ⟨t', hu⟩ : ∃ t', t.update hf fuel k v = .ok t' :=
    update_total_absent hwf habs hE
      (Or.inr (by rw [hfill.cap]; exact hint)) (by rw [hfill.cap]; exact hfuel) v
  obtain ⟨hwf', hcontent, hcase⟩ := update_sound hwf hu
  have hcontent' : ∀ r, Stored t'.records_ r ↔ (r.key_, r.data_) ∈ kvs.take (n + 1) := by
    intro r
    rw [hcontent r, hfill.content r, List.take_succ, hkv]
    simp only [Option.toList, List.mem_append, List.mem_singleton, Prod.mk.injEq]
    constructor
    · rintro (h | ⟨_, h⟩)
      · right; rw [h]; exact ⟨rfl, rfl⟩
      · left; exact h
    · rintro (h | ⟨h1, h2⟩)
      · right; exact ⟨hne _ h, h⟩
      · left
        cases r
        simp only at h1 h2
        rw [h1, h2]
  refine ⟨t', hu, hwf', hcontent', ?_, ?_⟩
  · intro hle
    rcases hcase with ⟨i, r, hr, hk, _⟩ | ⟨_, _, h3, h4, h5, h6⟩ | ⟨_, h2, _⟩
    · exact absurd hk (habs i r hr)
    · exact ⟨hwf', by rw [h3, hfill.cap], by rw [h4, hfill.max],
        by rw [h5, hfill.size]; push_cast; rfl, h6 hfill.noDeleted, hcontent'⟩
    · rw [hfill.max, hfill.size] at h2
      omega
  · intro heq
    rcases hcase with ⟨i, r, hr, hk, _⟩ | ⟨_, h2, _⟩ | ⟨_, _, h3, h4, h5, _⟩
    · exact absurd hk (habs i r hr)
    · rw [hfill.max, hfill.size] at h2
      omega
    · refine ⟨by rw [h3, hfill.cap], by rw [h4, hfill.max], ?_⟩
      rw [h5, hfill.size, heq]

theorem filling_upto (hf : String → Nat) {c thr : Nat} {kvs : List (String × α)} {mlf : LoadFactor}
    (hc : 0 < c) (hint : 2 * (c : Int) ≤ INT_MAX)
    (hthr : (LPTable.ctor c mlf : LPTable α).max_ = (thr : Int)) (hlt : thr < c)
    (hnd : (kvs.map Prod.fst).Nodup) (hlen : kvs.length = thr + 1)
    {fuel : Nat} (hfuel : 4 * c ≤ fuel) :
    ∀ n, n ≤ thr → ∃ tn, (LPTable.ctor c mlf : LPTable α).updateAll hf fuel (kvs.take n) = .ok tn ∧
      Filling hf c thr kvs n tn := by
  intro n
  induction n with
  | zero =>
    intro _
    refine ⟨_, rfl, ⟨⟨ctor_core hf c mlf hc (by omega), ?_, ?_, ?_⟩, rfl, hthr, rfl, ?_, ?_⟩⟩
    · simp [LPTable.ctor, List.count_replicate]
    · rw [hthr]; omega
    · rw [hthr]; simp only [LPTable.ctor]; omega
    · intro st hst
      left
      exact List.eq_of_mem_replicate hst
    · intro r
      simp only [List.take_zero, List.not_mem_nil, iff_false]
      rintro ⟨i, hi⟩
      simp only [LPTable.ctor, List.getElem?_replicate] at hi
      split at hi <;> simp at hi
  | succ m ih =>
    intro hm
    obtain ⟨tm, hrun, hfill⟩ := ih (by omega)
    have hml : m < kvs.length := by omega
    obtain ⟨⟨k, v⟩, hkv⟩ : ∃ kv, kvs[m]? = some kv := ⟨_, List.getElem?_eq_getElem hml⟩
    obtain ⟨t', hu, _, _, hnext, _⟩ :=
      filling_step hfill hnd hint hlt (by omega) hkv hfuel
    refine ⟨t', ?_, hnext hm⟩
    rw [List.take_succ, hkv, updateAll_append fuel _ _ _ _ hrun]
    simp [LPTable.updateAll, hu]

end Growth

/-! ## Searches that never return -/

section Divergence

variable {α : Type}

/-- The search loop never stops on a table that has no `Empty` slot and does
not store the key. -/
theorem searchLoop_full_outOfFuel (t : LPTable α) (key : String)
    (hcap : t.capacity_ ≠ 0)
    (hst : ∀ i : Nat, i < t.capacity_ → ∃ st, t.recordStatus_[i]? = some st ∧ st ≠ 'E')
    (hrec : ∀ i : Nat, i < t.capacity_ → t.records_[i]? = some none ∨
      ∃ r, t.records_[i]? = some (some r) ∧ r.key_ ≠ key) :
    ∀ fuel h, t.searchLoop key fuel h = .error .outOfFuel := by
  intro fuel
  induction fuel with
  | zero => intro h; rfl
  | succ n ih =>
    intro h
    have hlt : h % t.capacity_ < t.capacity_ := Nat.mod_lt _ (Nat.pos_of_ne_zero hcap)
    obtain ⟨st, hs, hne⟩ := hst _ hlt
    rw [LPTable.searchLoop]
    simp only [hcap, if_false, hs, hne]
    rcases hrec _ hlt with h0 | ⟨r, hr, hk⟩
    · rw [h0]; exact ih _
    · rw [hr]; simp only [hk, if_false]; exact ih _

theorem fullTable_search (hf : String → Nat) (key : String) (hk : "a" ≠ key) (fuel : Nat) :
    fullTable.search hf fuel key = .error .outOfFuel := by
  apply searchLoop_full_outOfFuel fullTable key (by decide)
  · intro i hi
    have : i = 0 := by simp only [fullTable] at hi; omega
    subst this
    exact ⟨'O', rfl, by decide⟩
  · intro i hi
    have : i = 0 := by simp only [fullTable] at hi; omega
    subst this
    exact Or.inr ⟨⟨1, "a"⟩, rfl, hk⟩

theorem tombstoneTable_search (hf : String → Nat) (key : String) (fuel : Nat) :
    tombstoneTable.search hf fuel key = .error .outOfFuel := by
  apply searchLoop_full_outOfFuel tombstoneTable key (by decide)
  · intro i hi
    have : i = 0 := by simp only [tombstoneTable] at hi; omega
    subst this
    exact ⟨'D', rfl, by decide⟩
  · intro i hi
    have : i = 0 := by simp only [tombstoneTable] at hi; omega
    subst this
    exact Or.inl rfl

theorem ctor_one_update (hf : String → Nat) :
    (LPTable.ctor 1 ⟨1, 1⟩ : LPTable Nat).update hf 1 "a" 1 = .ok fullTable := by
  simp only [LPTable.update, LPTable.search, LPTable.searchLoop, LPTable.insert, LPTable.ctor,
    Nat.mod_one, INT_MAX, fullTable]
  rfl

theorem fullTable_remove (hf : String → Nat) :
    fullTable.remove hf 1 "a" = .ok (true, tombstoneTable) := by
  simp only [LPTable.remove, LPTable.search, LPTable.searchLoop, fullTable, Nat.mod_one,
    tombstoneTable]
  rfl

theorem fullTable_reachable (hf : String → Nat) : Reachable hf fullTable :=
  Reachable.update 1 "a" 1
    (Reachable.ctor 1 ⟨1, 1⟩ (by decide) (by decide) (by decide) (by decide))
    (ctor_one_update hf)

theorem tombstoneTable_reachable (hf : String → Nat) : Reachable hf tombstoneTable :=
  Reachable.remove 1 "a" true (fullTable_reachable hf) (fullTable_remove hf)

theorem oneKeyTable_reachable : Reachable String.length oneKeyTable :=
  Reachable.update 8 "a" 1
    (Reachable.ctor 4 ⟨1, 2⟩ (by decide) (by decide) (by decide) (by decide)) rfl

end Divergence

/-! ## What the operations guarantee whenever they return -/

section Returning

variable {α : Type} {hf : String → Nat}

/-- Whenever `update(key, value)` returns, a following `find(key)` returns
`true` and `value`. -/
theorem update_then_find {t t' : LPTable α} (hwf : t.WF hf) {fuel : Nat} {key : String}
    {value : α} (hu : t.update hf fuel key value = .ok t') {n : Nat}
    (hn : 2 * t'.capacity_ ≤ n) (out : α) :
    t'.find hf n key out = .ok (true, value) := by
  obtain ⟨hwf', hcontent, _⟩ := update_sound hwf hu
  exact find_present hwf'.toCore ((hcontent _).mpr (Or.inl rfl)) hn out

/-- Whenever a sequence of `update` and `remove` calls returns, `size_` is the
number of keys of the reference map, and the table stores exactly those keys. -/
theorem run_size_accounting (ops : List (Call α)) :
    ∀ (t t' : LPTable α) (ks : List String) (fuel : Nat), t.WF hf → ks.Nodup →
      (∀ k, (∃ v, t.Holds k v) ↔ k ∈ ks) → t.size_ = (ks.length : Int) →
      t.run hf fuel ops = .ok t' →
      t'.WF hf ∧ (refKeys ops ks).Nodup ∧ (∀ k, (∃ v, t'.Holds k v) ↔ k ∈ refKeys ops ks) ∧
        t'.numRecords = ((refKeys ops ks).length : Int) ∧
        (t'.isEmpty = true ↔ t'.numRecords = 0) := by
  induction ops with
  | nil =>
    intro t t' ks fuel hwf hnd hkeys hsize hrun
    simp only [LPTable.run, Except.ok.injEq] at hrun
    subst hrun
    exact ⟨hwf, hnd, hkeys, hsize, by simp [LPTable.isEmpty, LPTable.numRecords]⟩
  | cons op rest ih =>
    intro t t' ks fuel hwf hnd hkeys hsize hrun
    cases op with
    | update key value =>
      simp only [LPTable.run] at hrun
      cases hu : t.update hf fuel key value with
      | error e => simp [hu] at hrun
      | ok t1 =>
        simp only [hu] at hrun
        obtain ⟨hwf1, hcontent, hcase⟩ := update_sound hwf hu
        have hkeys1 : ∀ k, (∃ v, t1.Holds k v) ↔ k ∈ (if key ∈ ks then ks else key :: ks) := by
          intro k
          have hmem : k ∈ (if key ∈ ks then ks else key :: ks) ↔ k = key ∨ k ∈ ks := by
            split
            · constructor
              · exact Or.inr
              · rintro (h | h)
                · rw [h]; assumption
                · exact h
            · exact List.mem_cons
          rw [hmem, ← hkeys k]
          constructor
          · rintro ⟨v, hv⟩
            rcases (hcontent _).mp hv with h | ⟨_, h⟩
            · left
              exact congrArg Record.key_ h
            · right; exact ⟨v, h⟩
          · rintro (h | ⟨v, hv⟩)
            · exact ⟨value, (hcontent _).mpr (Or.inl (by rw [h]))⟩
            · by_cases hk : k = key
              · exact ⟨value, (hcontent _).mpr (Or.inl (by rw [hk]))⟩
              · exact ⟨v, (hcontent _).mpr (Or.inr ⟨hk, hv⟩)⟩
        have hnd1 : (if key ∈ ks then ks else key :: ks).Nodup := by
          split
          · exact hnd
          · rename_i hnot
            exact List.Nodup.cons hnot hnd
        have hsize1 : t1.size_ = ((if key ∈ ks then ks else key :: ks).length : Int) := by
          rcases hcase with ⟨i, r, hr, hk, ht1⟩ | ⟨habs, _, _, _, h5, _⟩ | ⟨habs, _, _, _, h5, _⟩
          · have hin : key ∈ ks := (hkeys key).mp ⟨r.data_, i, by rw [hr, ← hk]⟩
            rw [if_pos hin, ht1]
            exact hsize
          · have hnot : key ∉ ks := by
              intro hin
              obtain ⟨v, i, hi⟩ := (hkeys key).mpr hin
              exact habs i _ hi rfl
            rw [if_neg hnot, h5, hsize]
            simp
          · have hnot : key ∉ ks := by
              intro hin
              obtain ⟨v, i, hi⟩ := (hkeys key).mpr hin
              exact habs i _ hi rfl
            rw [if_neg hnot, h5, hsize]
            simp
        exact ih t1 t' _ fuel hwf1 hnd1 hkeys1 hsize1 hrun
    | remove key =>
      simp only [LPTable.run] at hrun
      cases hr : t.remove hf fuel key with
      | error e => simp [hr] at hrun
      | ok res =>
        obtain ⟨b, t1⟩ := res
        simp only [hr] at hrun
        obtain ⟨hwf1, hcontent, hcase⟩ := remove_sound hwf hr
        have hkeys1 : ∀ k, (∃ v, t1.Holds k v) ↔ k ∈ ks.erase key := by
          intro k
          rw [List.Nodup.mem_erase_iff hnd, ← hkeys k]
          constructor
          · rintro ⟨v, hv⟩
            obtain ⟨h1, h2⟩ := (hcontent _).mp hv
            exact ⟨h1, v, h2⟩
          · rintro ⟨h1, v, hv⟩
            exact ⟨v, (hcontent _).mpr ⟨h1, hv⟩⟩
        have hsize1 : t1.size_ = ((ks.erase key).length : Int) := by
          rcases hcase with ⟨_, ht1, habs⟩ | ⟨_, i, r, hri, hk, ht1⟩
          · have hnot : key ∉ ks := by
              intro hin
              obtain ⟨v, i, hi⟩ := (hkeys key).mpr hin
              exact habs i _ hi rfl
            rw [List.erase_of_not_mem hnot, ht1]
            exact hsize
          · have hin : key ∈ ks := (hkeys key).mp ⟨r.data_, i, by rw [hri, ← hk]⟩
            have hpos : 0 < ks.length := List.length_pos_of_mem hin
            rw [List.length_erase_of_mem hin, ht1]
            simp only
            rw [hsize]
            omega
        exact ih t1 t' _ fuel hwf1 (hnd.erase key) hkeys1 hsize1 hrun

/-- Tombstones fill a table whose load factor is below one. For any hash
function and any two keys whose hash indices have different parity,
`LPTable(2, 0.5)` is brought by `update(k1, v1)`, `remove(k1)`, `update(k2, v2)`,
`remove(k2)` to a table without records and without `Empty` slot, although its
size 0 is below its threshold 1 and its threshold is below its capacity 2; no
`find` returns on that table. -/
theorem tombstones_fill_table (hf : String → Nat) (k1 k2 : String) (v1 v2 : Nat)
    (h1 : hf k1 % SIZE_MOD % 2 = 1) (h2 : hf k2 % SIZE_MOD % 2 = 0) :
    (LPTable.ctor 2 ⟨1, 2⟩ : LPTable Nat).run hf 1
        [.update k1 v1, .remove k1, .update k2 v2, .remove k2] = .ok twoTombstones ∧
      ∀ (key : String) (fuel : Nat) (out : Nat),
        twoTombstones.find hf fuel key out = .error .outOfFuel := by
  constructor
  · have e1 : (LPTable.ctor 2 ⟨1, 2⟩ : LPTable Nat).update hf 1 k1 v1
        = .ok ⟨[none, some ⟨v1, k1⟩], ['E', 'O'], 1, 1, 2⟩ := by
      simp only [LPTable.update, LPTable.search, LPTable.searchLoop, LPTable.insert,
        LPTable.ctor, h1, INT_MAX]
      rfl
    have e2 : (⟨[none, some ⟨v1, k1⟩], ['E', 'O'], 1, 1, 2⟩ : LPTable Nat).remove hf 1 k1
        = .ok (true, ⟨[none, none], ['E', 'D'], 1, 0, 2⟩) := by
      simp [LPTable.remove, LPTable.search, LPTable.searchLoop, h1, INT_MIN]
    have e3 : (⟨[none, none], ['E', 'D'], 1, 0, 2⟩ : LPTable Nat).update hf 1 k2 v2
        = .ok ⟨[some ⟨v2, k2⟩, none], ['O', 'D'], 1, 1, 2⟩ := by
      simp only [LPTable.update, LPTable.search, LPTable.searchLoop, LPTable.insert, h2,
        INT_MAX]
      rfl
    have e4 : (⟨[some ⟨v2, k2⟩, none], ['O', 'D'], 1, 1, 2⟩ : LPTable Nat).remove hf 1 k2
        = .ok (true, twoTombstones) := by
      simp [LPTable.remove, LPTable.search, LPTable.searchLoop, h2, INT_MIN, twoTombstones]
    simp only [LPTable.run, e1, e2, e3, e4]
  · intro key fuel out
    unfold LPTable.find LPTable.search
    rw [searchLoop_full_outOfFuel twoTombstones key (by decide)]
    · intro i hi
      have hi' : i < 2 := hi
      have : i = 0 ∨ i = 1 := by omega
      rcases this with h | h <;> subst h <;> exact ⟨'D', rfl, by decide⟩
    · intro i hi
      have hi' : i < 2 := hi
      have : i = 0 ∨ i = 1 := by omega
      rcases this with h | h <;> subst h <;> exact Or.inl rfl

/-- The tombstone scenario with the length of a key as its hash: the keys
`"a"` and `""`. -/
theorem tombstones_fill_table_witness :
    (LPTable.ctor 2 ⟨1, 2⟩ : LPTable Nat).run String.length 1
        [.update "a" 1, .remove "a", .update "" 2, .remove ""] = .ok twoTombstones ∧
      ∀ (key : String) (fuel : Nat) (out : Nat),
        twoTombstones.find String.length fuel key out = .error .outOfFuel :=
  tombstones_fill_table String.length "a" "" 1 2 (by decide) (by decide)

end Returning

/-! ## Further consequences of the invariant -/

section Further

variable {α : Type} {hf : String → Nat}

/-- A returning sequence of calls leads from a reachable table to a reachable
table. -/
theorem Reachable.run {t t' : LPTable α} (ops : List (Call α)) (fuel : Nat)
    (h : Reachable hf t) (hrun : t.run hf fuel ops = .ok t') : Reachable hf t' := by
  induction ops generalizing t with
  | nil =>
    simp only [LPTable.run, Except.ok.injEq] at hrun
    exact hrun ▸ h
  | cons op rest ih =>
    cases op with
    | update key value =>
      simp only [LPTable.run] at hrun
      cases hu : t.update hf fuel key value with
      | error e => simp [hu] at hrun
      | ok t1 =>
        simp only [hu] at hrun
        exact ih (Reachable.update fuel key value h hu) hrun
    | remove key =>
      simp only [LPTable.run] at hrun
      cases hr : t.remove hf fuel key with
      | error e => simp [hr] at hrun
      | ok res =>
        obtain ⟨b, t1⟩ := res
        simp only [hr] at hrun
        exact ih (Reachable.remove fuel key b h hr) hrun

theorem twoKeyTable_reachable : Reachable String.length twoKeyTable :=
  Reachable.run [.update "a" 1, .update "b" 2] 8
    (Reachable.ctor 4 ⟨3, 4⟩ (by decide) (by decide) (by decide) (by decide)) rfl

theorem wrapTable_reachable : Reachable wrapHash wrapTable :=
  Reachable.run [.update "a" 1, .update "w" 2] 8
    (Reachable.ctor 7 ⟨1, 2⟩ (by decide) (by decide) (by decide) (by decide)) rfl

theorem oneTombstoneTable_reachable : Reachable String.length oneTombstoneTable :=
  Reachable.remove 8 "a" true twoKeyTable_reachable rfl

theorem mem_filterMap_id_iff (rs : List (Option (Record α))) (r : Record α) :
    r ∈ rs.filterMap id ↔ Stored rs r := by
  rw [List.mem_filterMap]
  constructor
  · rintro ⟨o, ho, hid⟩
    simp only [id] at hid
    rw [hid] at ho
    exact List.mem_iff_getElem?.mp ho
  · rintro ⟨i, hi⟩
    exact ⟨some r, List.mem_iff_getElem?.mpr ⟨i, hi⟩, rfl⟩

/-- The list of the non-null records of an array in which no record occurs in
two slots has no duplicate. -/
theorem nodup_filterMap_id (rs : List (Option (Record α)))
    (h : ∀ (i j : Nat) (r : Record α), rs[i]? = some (some r) → rs[j]? = some (some r) → i = j) :
    (rs.filterMap id).Nodup := by
  induction rs with
  | nil => simp
  | cons o rest ih =>
    have hrest : ∀ (i j : Nat) (r : Record α), rest[i]? = some (some r) →
        rest[j]? = some (some r) → i = j := by
      intro i j r hi hj
      have := h (i + 1) (j + 1) r (by simpa using hi) (by simpa using hj)
      omega
    cases o with
    | none =>
      simp only [List.filterMap_cons, id]
      exact ih hrest
    | some r =>
      simp only [List.filterMap_cons, id]
      refine List.Nodup.cons ?_ (ih hrest)
      intro hmem
      obtain ⟨j, hj⟩ := (mem_filterMap_id_iff rest r).mp hmem
      have := h 0 (j + 1) r (by simp) (by simpa using hj)
      omega

theorem LPTable.Core.records_nodup {t : LPTable α} (hc : t.Core hf) :
    (t.records_.filterMap id).Nodup :=
  nodup_filterMap_id t.records_ (fun i j r hi hj => hc.unique i j r r hi hj rfl)

/-- The offset at which a cyclic walk of an array of `cap` slots that starts
at slot `s` meets slot `i`. -/
theorem cyclic_offset_unique (cap s i j : Nat) (hs : s < cap) (hj : j < cap)
    (hmeet : (s + j) % cap = i) : j = (i + cap - s) % cap := by
  by_cases hlt : s + j < cap
  · rw [Nat.mod_eq_of_lt hlt] at hmeet
    have e : i + cap - s = j + cap := by omega
    rw [e, Nat.add_mod_right, Nat.mod_eq_of_lt hj]
  · have h2 : (s + j) % cap = s + j - cap := by
      rw [Nat.mod_eq_sub_mod (by omega), Nat.mod_eq_of_lt (by omega)]
    rw [h2] at hmeet
    have e : i + cap - s = j := by omega
    rw [e, Nat.mod_eq_of_lt hj]

/-- When the capacity divides `2^64`, or the hash index cannot wrap around
within one pass over the array, the probe sequence is the cyclic walk of the
slots. -/
theorem advance_mod_cyclic (cap h j : Nat) (hh : h < SIZE_MOD) (hj : j < cap)
    (hcond : SIZE_MOD % cap = 0 ∨ h + cap ≤ SIZE_MOD) :
    advance h j % cap = (h % cap + j) % cap := by
  rw [advance_eq_mod j h hh, Nat.mod_add_mod]
  rcases hcond with hd | hw
  · exact Nat.mod_mod_of_dvd _ (Nat.dvd_of_mod_eq_zero hd)
  · have e : (h + j) % SIZE_MOD = h + j := Nat.mod_eq_of_lt (by omega)
    rw [e]

/-- In a reachable table the size does not exceed the threshold, unless the
threshold is 0. -/
theorem size_le_max_or_zero {t : LPTable α} (h : Reachable hf t) :
    t.max_ = 0 ∨ t.size_ ≤ t.max_ := by
  induction h with
  | ctor capacity mlf hpos hint h0 h1 =>
    right
    have hwf : (LPTable.ctor capacity mlf : LPTable α).WF hf :=
      ctor_wf capacity mlf hpos hint h0 h1
    exact hwf.max_nonneg
  | @update t1 t2 fuel key value ht hu ih =>
    obtain ⟨_, _, hcase⟩ := update_sound ht.wf hu
    rcases hcase with ⟨i, r, _, _, ht'⟩ | ⟨_, h2, _, h4, h5, _⟩ | ⟨_, h2, _, h4, h5, _⟩
    · rw [ht']
      exact ih
    · right
      rw [h5, h4]
      exact h2
    · by_cases hz : t1.max_ = 0
      · left
        rw [h4, hz]
        rfl
      · right
        have hle : t1.size_ ≤ t1.max_ := ih.resolve_left hz
        have hnn := ht.wf.max_nonneg
        rw [h5, h4]
        omega
  | @remove t1 t2 fuel key b ht hr ih =>
    obtain ⟨_, _, hcase⟩ := remove_sound ht.wf hr
    rcases hcase with ⟨_, ht', _⟩ | ⟨_, i, r, _, _, ht'⟩
    · rw [ht']
      exact ih
    · rcases ih with h0 | hle
      · left
        rw [ht']
        exact h0
      · right
        rw [ht']
        show t1.size_ - 1 ≤ t1.max_
        omega

/-- Removing a key leaves the search for any other key as it was, step by
step. -/
theorem searchLoop_after_delete (t : LPTable α) (i : Nat) (r : Record α) (key : String)
    (s : Int) (hr : t.records_[i]? = some (some r)) (hO : t.recordStatus_[i]? = some 'O')
    (hk : r.key_ ≠ key) :
    ∀ n h, ({ t with
        records_ := t.records_.set i none
        recordStatus_ := t.recordStatus_.set i 'D'
        size_ := s } : LPTable α).searchLoop key n h = t.searchLoop key n h := by
  have hil : i < t.records_.length := (List.getElem?_eq_some.mp hr).1
  have his : i < t.recordStatus_.length := (List.getElem?_eq_some.mp hO).1
  intro n
  induction n with
  | zero => intro h; rfl
  | succ m ih =>
    intro h
    rw [LPTable.searchLoop, LPTable.searchLoop]
    simp only
    by_cases hc : t.capacity_ = 0
    · simp [hc]
    · simp only [hc, if_false]
      by_cases heq : i = h % t.capacity_
      · rw [← heq, List.getElem?_set_self his, List.getElem?_set_self hil, hO, hr]
        simp only [hk, if_false]
        rw [ih]
        simp
      · rw [List.getElem?_set_ne heq, List.getElem?_set_ne heq]
        cases hs : t.recordStatus_[h % t.capacity_]? with
        | none => rfl
        | some st =>
          simp only
          by_cases hE : st = 'E'
          · simp [hE]
          · simp only [hE, if_false]
            cases hrr : t.records_[h % t.capacity_]? with
            | none => rfl
            | some o =>
              cases o with
              | none => simp only; exact ih _
              | some r' =>
                simp only
                by_cases hk' : r'.key_ = key
                · simp [hk']
                · simp only [hk', if_false]; exact ih _

/-- `remove(k)` does not change what `find` answers for another key, whatever
the fuel: both calls return the same result or neither returns. -/
theorem find_other_key_after_remove {t t' : LPTable α} (hwf : t.WF hf) {fuel : Nat}
    {k k' : String} {b : Bool} (hkk : k ≠ k') (hrm : t.remove hf fuel k = .ok (b, t'))
    (n : Nat) (out : α) : t'.find hf n k' out = t.find hf n k' out := by
  obtain ⟨_, _, hcase⟩ := remove_sound hwf hrm
  rcases hcase with ⟨_, ht', _⟩ | ⟨_, i, r, hr, hk, ht'⟩
  · rw [ht']
  · have hO : t.recordStatus_[i]? = some 'O' := (hwf.lockstep i).mp ⟨r, hr⟩
    have hil : i < t.records_.length := (List.getElem?_eq_some.mp hr).1
    have hs := searchLoop_after_delete t i r k' (t.size_ - 1) hr hO (by rw [hk]; exact hkk)
      n (hf k' % SIZE_MOD)
    subst ht'
    unfold LPTable.find LPTable.search
    rw [hs]
    cases hres : t.searchLoop k' n (hf k' % SIZE_MOD) with
    | error e => rfl
    | ok res =>
      cases res with
      | none => rfl
      | some idx =>
        obtain ⟨r', hr', hk', _⟩ := searchLoop_sound t k' n _ idx hres
        have hne : i ≠ idx := by
          intro heq
          rw [← heq, hr] at hr'
          simp only [Option.some.injEq] at hr'
          exact hkk (by rw [← hk, hr', hk'])
        simp only
        rw [List.getElem?_set_ne hne]

/-- The value stored for a key is unique. -/
theorem LPTable.Core.holds_unique {t : LPTable α} (hc : t.Core hf) {key : String} {v1 v2 : α}
    (h1 : t.Holds key v1) (h2 : t.Holds key v2) : v1 = v2 := by
  obtain ⟨i, hi⟩ := h1
  obtain ⟨j, hj⟩ := h2
  have := hc.unique i j _ _ hi hj rfl
  rw [this, hj] at hi
  simp only [Option.some.injEq, Record.mk.injEq] at hi
  exact hi.1.symm

/-- Whenever `find(k')` returns before and after an `update(k, v)` of another
key, it returns the same flag and the same value. -/
theorem find_other_key_after_update {t t' : LPTable α} (hwf : t.WF hf) {fuel : Nat}
    {k k' : String} {v : α} (hkk : k ≠ k') (hu : t.update hf fuel k v = .ok t')
    {n m : Nat} {out : α} {r1 r2 : Bool × α} (h1 : t.find hf n k' out = .ok r1)
    (h2 : t'.find hf m k' out = .ok r2) : r1 = r2 := by
  obtain ⟨hwf', hcontent, _⟩ := update_sound hwf hu
  obtain ⟨b1, v1⟩ := r1
  obtain ⟨b2, v2⟩ := r2
  have hto : ∀ w, t'.Holds k' w → t.Holds k' w := by
    intro w hw
    rcases (hcontent _).mp hw with h | ⟨_, h⟩
    · exact absurd (congrArg Record.key_ h).symm hkk
    · exact h
  have hfrom : ∀ w, t.Holds k' w → t'.Holds k' w :=
    fun w hw => (hcontent _).mpr (Or.inr ⟨fun h => hkk h.symm, hw⟩)
  rcases find_sound hwf.toCore h1 with ⟨hb1, hh1⟩ | ⟨hb1, hv1, habs1⟩ <;>
    rcases find_sound hwf'.toCore h2 with ⟨hb2, hh2⟩ | ⟨hb2, hv2, habs2⟩
  · rw [hb1, hb2, hwf.toCore.holds_unique hh1 (hto _ hh2)]
  · obtain ⟨i, hi⟩ := hfrom _ hh1
    exact absurd rfl (habs2 i _ hi)
  · obtain ⟨i, hi⟩ := hto _ hh2
    exact absurd rfl (habs1 i _ hi)
  · rw [hb1, hb2, hv1, hv2]

end Further

section GrowthClaim

variable {α : Type}

/-- C6 (growth trigger and content preservation). A table constructed with
capacity `c` whose threshold `thr = floor(c * maxLoadFactor)` is below `c`
receives `thr + 1` distinct keys by `update`, for any hash function: the first
`thr` updates return without growing (capacity `c`, threshold `thr`, `n`
records after `n` updates), and the last one returns after growing exactly
once (capacity `2 * c`, threshold `2 * thr`, `thr + 1` records), after which
`find` returns `true` and the inserted value for every one of the keys. The
doubled capacity is assumed to be an `int`. -/
theorem growth_trigger_preserves_content (hf : String → Nat) (c : Nat) (mlf : LoadFactor)
    (thr : Nat) (kvs : List (String × α)) (fuel : Nat)
    (hint : 2 * (c : Int) ≤ INT_MAX)
    (hthr : (LPTable.ctor c mlf : LPTable α).max_ = (thr : Int)) (hlt : thr < c)
    (hnd : (kvs.map Prod.fst).Nodup) (hlen : kvs.length = thr + 1) (hfuel : 4 * c ≤ fuel) :
    (∀ n, n ≤ thr →
      ∃ tn, (LPTable.ctor c mlf : LPTable α).updateAll hf fuel (kvs.take n) = .ok tn ∧
        tn.capacity_ = c ∧ tn.max_ = (thr : Int) ∧ tn.numRecords = (n : Int)) ∧
    ∃ tf, (LPTable.ctor c mlf : LPTable α).updateAll hf fuel kvs = .ok tf ∧
      tf.capacity_ = 2 * c ∧ tf.max_ = 2 * (thr : Int) ∧ tf.numRecords = (thr : Int) + 1 ∧
      ∀ kv, kv ∈ kvs → ∀ out, tf.find hf fuel kv.1 out = .ok (true, kv.2) := by
  have hpre := filling_upto hf (Nat.lt_of_le_of_lt (Nat.zero_le thr) hlt) hint hthr hlt hnd hlen hfuel
  constructor
  · intro n hn
    obtain ⟨tn, hrun, hfill⟩ := hpre n hn
    exact ⟨tn, hrun, hfill.cap, hfill.max, hfill.size⟩
  · obtain ⟨tn, hrun, hfill⟩ := hpre thr (Nat.le_refl _)
    have hml : thr < kvs.length := by omega
    obtain ⟨⟨k, v⟩, hkv⟩ : ∃ kv, kvs[thr]? = some kv := ⟨_, List.getElem?_eq_getElem hml⟩
    obtain ⟨tf, hu, hwf, hcontent, _, hlast⟩ :=
      filling_step hfill hnd hint hlt (Nat.le_refl _) hkv hfuel
    obtain ⟨h1, h2, h3⟩ := hlast rfl
    have hall : kvs.take (thr + 1) = kvs := List.take_of_length_le (by omega)
    refine ⟨tf, ?_, h1, h2, h3, ?_⟩
    · rw [← hall, List.take_succ, hkv, updateAll_append fuel _ _ _ _ hrun]
      simp [LPTable.updateAll, hu]
    · intro kv hmem out
      apply find_present hwf.toCore _ (by rw [h1]; omega)
      show Stored tf.records_ ⟨kv.2, kv.1⟩
      rw [hcontent, hall]
      exact hmem

/-- The scenarios of the specification: capacity 4 with load factor 0.5 and
three keys, and capacity 4 with load factor 0.75 and the keys a, b, c, d. -/
theorem growth_trigger_preserves_content_witness :
    ((∀ n, n ≤ 2 →
        ∃ tn, (LPTable.ctor 4 ⟨1, 2⟩ : LPTable Nat).updateAll String.length 16
            ([("a", 1), ("b", 2), ("c", 3)].take n) = .ok tn ∧
          tn.capacity_ = 4 ∧ tn.max_ = ((2 : Nat) : Int) ∧ tn.numRecords = (n : Int)) ∧
      ∃ tf, (LPTable.ctor 4 ⟨1, 2⟩ : LPTable Nat).updateAll String.length 16
          [("a", 1), ("b", 2), ("c", 3)] = .ok tf ∧
        tf.capacity_ = 2 * 4 ∧ tf.max_ = 2 * ((2 : Nat) : Int) ∧
        tf.numRecords = ((2 : Nat) : Int) + 1 ∧
        ∀ kv, kv ∈ [("a", 1), ("b", 2), ("c", 3)] → ∀ out,
          tf.find String.length 16 kv.1 out = .ok (true, kv.2)) ∧
    ((∀ n, n ≤ 3 →
        ∃ tn, (LPTable.ctor 4 ⟨3, 4⟩ : LPTable Nat).updateAll String.length 16
            ([("a", 1), ("b", 2), ("c", 3), ("d", 4)].take n) = .ok tn ∧
          tn.capacity_ = 4 ∧ tn.max_ = ((3 : Nat) : Int) ∧ tn.numRecords = (n : Int)) ∧
      ∃ tf, (LPTable.ctor 4 ⟨3, 4⟩ : LPTable Nat).updateAll String.length 16
          [("a", 1), ("b", 2), ("c", 3), ("d", 4)] = .ok tf ∧
        tf.capacity_ = 2 * 4 ∧ tf.max_ = 2 * ((3 : Nat) : Int) ∧
        tf.numRecords = ((3 : Nat) : Int) + 1 ∧
        ∀ kv, kv ∈ [("a", 1), ("b", 2), ("c", 3), ("d", 4)] → ∀ out,
          tf.find String.length 16 kv.1 out = .ok (true, kv.2)) :=
  ⟨growth_trigger_preserves_content String.length 4 ⟨1, 2⟩ 2 [("a", 1), ("b", 2), ("c", 3)] 16
      (by decide) (by decide) (by decide) (by decide) (by decide) (by decide),
    growth_trigger_preserves_content String.length 4 ⟨3, 4⟩ 3
      [("a", 1), ("b", 2), ("c", 3), ("d", 4)] 16
      (by decide) (by decide) (by decide) (by decide) (by decide) (by decide)⟩

end GrowthClaim



/-! ## The free store: reads after a write -/

section FreeStoreLemmas

variable {α : Type}

theorem Heap.record_lt {h : Heap α} {p : Nat} {r : Record α} (hr : h.record p = some r) :
    p < h.cells.length := by
  unfold Heap.record at hr
  by_contra hlt
  rw [List.getElem?_eq_none (by omega)] at hr
  simp at hr

theorem Heap.ptrArray_lt {h : Heap α} {a : Nat} {ps : List (Option Nat)}
    (hr : h.ptrArray (some a) = some ps) : a < h.ptrArrays.length := by
  simp only [Heap.ptrArray] at hr
  by_contra hlt
  rw [List.getElem?_eq_none (by omega)] at hr
  simp at hr

theorem Heap.charArray_lt {h : Heap α} {b : Nat} {sts : List Char}
    (hr : h.charArray (some b) = some sts) : b < h.charArrays.length := by
  simp only [Heap.charArray] at hr
  by_contra hlt
  rw [List.getElem?_eq_none (by omega)] at hr
  simp at hr

theorem Heap.record_eq_of_cells {h h' : Heap α} (hc : h'.cells = h.cells) (p : Nat) :
    h'.record p = h.record p := by
  unfold Heap.record; rw [hc]

theorem Heap.ptrArray_eq_of_ptrArrays {h h' : Heap α} (hc : h'.ptrArrays = h.ptrArrays)
    (a : Option Nat) : h'.ptrArray a = h.ptrArray a := by
  cases a with
  | none => rfl
  | some a => unfold Heap.ptrArray; rw [hc]

theorem Heap.charArray_eq_of_charArrays {h h' : Heap α} (hc : h'.charArrays = h.charArrays)
    (b : Option Nat) : h'.charArray b = h.charArray b := by
  cases b with
  | none => rfl
  | some b => unfold Heap.charArray; rw [hc]

theorem Heap.record_set (h : Heap α) (p : Nat) (x : Option (Record α)) (hp : p < h.cells.length)
    (q : Nat) :
    Heap.record { h with cells := h.cells.set p x } q
      = if q = p then (match x with | some r => some r | none => none) else h.record q := by
  unfold Heap.record
  by_cases hq : q = p
  · subst hq
    simp only [if_true]
    rw [List.getElem?_set_self hp]
    cases x <;> rfl
  · simp only [if_neg hq]
    rw [List.getElem?_set_ne (Ne.symm hq)]

theorem Heap.ptrArray_set (h : Heap α) (a : Nat) (x : Option (List (Option Nat)))
    (ha : a < h.ptrArrays.length) (b : Option Nat) :
    Heap.ptrArray { h with ptrArrays := h.ptrArrays.set a x } b
      = if b = some a then x else h.ptrArray b := by
  cases b with
  | none => simp [Heap.ptrArray]
  | some b =>
    unfold Heap.ptrArray
    by_cases hq : b = a
    · subst hq
      simp only [if_true]
      rw [List.getElem?_set_self ha]
      cases x <;> rfl
    · have : ¬ (some b = some a) := by simpa using hq
      simp only [if_neg this]
      rw [List.getElem?_set_ne (Ne.symm hq)]

theorem Heap.charArray_set (h : Heap α) (a : Nat) (x : Option (List Char))
    (ha : a < h.charArrays.length) (b : Option Nat) :
    Heap.charArray { h with charArrays := h.charArrays.set a x } b
      = if b = some a then x else h.charArray b := by
  cases b with
  | none => simp [Heap.charArray]
  | some b =>
    unfold Heap.charArray
    by_cases hq : b = a
    · subst hq
      simp only [if_true]
      rw [List.getElem?_set_self ha]
      cases x <;> rfl
    · have : ¬ (some b = some a) := by simpa using hq
      simp only [if_neg this]
      rw [List.getElem?_set_ne (Ne.symm hq)]

theorem Heap.record_newRecord (h : Heap α) (r : Record α) (q : Nat) :
    (h.newRecord r).record q = if q = h.cells.length then some r else h.record q := by
  unfold Heap.record Heap.newRecord
  by_cases hq : q = h.cells.length
  · subst hq; simp
  · simp only [if_neg hq]
    by_cases hlt : q < h.cells.length
    · rw [List.getElem?_append_left hlt]
    · rw [List.getElem?_eq_none (by simp; omega), List.getElem?_eq_none (by omega)]

theorem Heap.ptrArray_newPtrArray (h : Heap α) (ps : List (Option Nat)) (b : Option Nat) :
    (h.newPtrArray ps).ptrArray b
      = if b = some h.ptrArrays.length then some ps else h.ptrArray b := by
  cases b with
  | none => simp [Heap.ptrArray]
  | some b =>
    unfold Heap.ptrArray Heap.newPtrArray
    by_cases hq : b = h.ptrArrays.length
    · subst hq; simp
    · have : ¬ (some b = some h.ptrArrays.length) := by simpa using hq
      simp only [if_neg this]
      by_cases hlt : b < h.ptrArrays.length
      · rw [List.getElem?_append_left hlt]
      · rw [List.getElem?_eq_none (by simp; omega), List.getElem?_eq_none (by omega)]

theorem Heap.charArray_newCharArray (h : Heap α) (sts : List Char) (b : Option Nat) :
    (h.newCharArray sts).charArray b
      = if b = some h.charArrays.length then some sts else h.charArray b := by
  cases b with
  | none => simp [Heap.charArray]
  | some b =>
    unfold Heap.charArray Heap.newCharArray
    by_cases hq : b = h.charArrays.length
    · subst hq; simp
    · have : ¬ (some b = some h.charArrays.length) := by simpa using hq
      simp only [if_neg this]
      by_cases hlt : b < h.charArrays.length
      · rw [List.getElem?_append_left hlt]
      · rw [List.getElem?_eq_none (by simp; omega), List.getElem?_eq_none (by omega)]

end FreeStoreLemmas

section FreeStoreWrites

variable {α : Type}

theorem Heap.writePointer_spec {h h' : Heap α} {a : Option Nat} {i : Nat} {q : Option Nat}
    (hw : h.writePointer a i q = some h') :
    ∃ ps, h.ptrArray a = some ps ∧ i < ps.length ∧
      (∀ b, h'.ptrArray b = if b = a then some (ps.set i q) else h.ptrArray b) ∧
      (∀ b, h'.charArray b = h.charArray b) ∧ (∀ p, h'.record p = h.record p) := by
  cases a with
  | none => simp [Heap.writePointer] at hw
  | some a0 =>
    simp only [Heap.writePointer] at hw
    cases hps : h.ptrArray (some a0) with
    | none => rw [hps] at hw; simp at hw
    | some ps =>
      rw [hps] at hw
      by_cases hi : i < ps.length
      · simp only [if_pos hi, Option.some.injEq] at hw
        subst hw
        exact ⟨ps, rfl, hi, fun b => Heap.ptrArray_set h a0 _ (Heap.ptrArray_lt hps) b,
          fun b => Heap.charArray_eq_of_charArrays rfl b, fun p => Heap.record_eq_of_cells rfl p⟩
      · simp [if_neg hi] at hw

theorem Heap.writePointer_ok {h : Heap α} {a : Option Nat} {ps : List (Option Nat)} {i : Nat}
    (q : Option Nat) (hps : h.ptrArray a = some ps) (hi : i < ps.length) :
    ∃ h', h.writePointer a i q = some h' := by
  cases a with
  | none => simp [Heap.ptrArray] at hps
  | some a0 =>
    simp only [Heap.writePointer]
    rw [hps]
    simp [if_pos hi]

theorem Heap.writeStatus_spec {h h' : Heap α} {a : Option Nat} {i : Nat} {st : Char}
    (hw : h.writeStatus a i st = some h') :
    ∃ sts, h.charArray a = some sts ∧ i < sts.length ∧
      (∀ b, h'.charArray b = if b = a then some (sts.set i st) else h.charArray b) ∧
      (∀ b, h'.ptrArray b = h.ptrArray b) ∧ (∀ p, h'.record p = h.record p) := by
  cases a with
  | none => simp [Heap.writeStatus] at hw
  | some a0 =>
    simp only [Heap.writeStatus] at hw
    cases hps : h.charArray (some a0) with
    | none => rw [hps] at hw; simp at hw
    | some sts =>
      rw [hps] at hw
      by_cases hi : i < sts.length
      · simp only [if_pos hi, Option.some.injEq] at hw
        subst hw
        exact ⟨sts, rfl, hi, fun b => Heap.charArray_set h a0 _ (Heap.charArray_lt hps) b,
          fun b => Heap.ptrArray_eq_of_ptrArrays rfl b, fun p => Heap.record_eq_of_cells rfl p⟩
      · simp [if_neg hi] at hw

theorem Heap.writeStatus_ok {h : Heap α} {a : Option Nat} {sts : List Char} {i : Nat}
    (st : Char) (hps : h.charArray a = some sts) (hi : i < sts.length) :
    ∃ h', h.writeStatus a i st = some h' := by
  cases a with
  | none => simp [Heap.charArray] at hps
  | some a0 =>
    simp only [Heap.writeStatus]
    rw [hps]
    simp [if_pos hi]

theorem Heap.writeData_spec {h h' : Heap α} {p : Nat} {value : α}
    (hw : h.writeData p value = some h') :
    ∃ r, h.record p = some r ∧
      (∀ q, h'.record q = if q = p then some { r with data_ := value } else h.record q) ∧
      (∀ b, h'.ptrArray b = h.ptrArray b) ∧ (∀ b, h'.charArray b = h.charArray b) := by
  simp only [Heap.writeData] at hw
  cases hr : h.record p with
  | none => rw [hr] at hw; simp at hw
  | some r =>
    rw [hr] at hw
    simp only [Option.some.injEq] at hw
    subst hw
    exact ⟨r, rfl, fun q => Heap.record_set h p _ (Heap.record_lt hr) q,
      fun b => Heap.ptrArray_eq_of_ptrArrays rfl b, fun b => Heap.charArray_eq_of_charArrays rfl b⟩

theorem Heap.deleteRecord_spec {h h' : Heap α} {p : Nat} (hw : h.deleteRecord p = some h') :
    (∃ r, h.record p = some r) ∧
      (∀ q, h'.record q = if q = p then none else h.record q) ∧
      (∀ b, h'.ptrArray b = h.ptrArray b) ∧ (∀ b, h'.charArray b = h.charArray b) := by
  simp only [Heap.deleteRecord] at hw
  cases hr : h.record p with
  | none => rw [hr] at hw; simp at hw
  | some r =>
    rw [hr] at hw
    simp only [Option.some.injEq] at hw
    subst hw
    exact ⟨⟨r, rfl⟩, fun q => Heap.record_set h p _ (Heap.record_lt hr) q,
      fun b => Heap.ptrArray_eq_of_ptrArrays rfl b, fun b => Heap.charArray_eq_of_charArrays rfl b⟩

theorem Heap.deleteRecord_ok {h : Heap α} {p : Nat} {r : Record α} (hr : h.record p = some r) :
    ∃ h', h.deleteRecord p = some h' := by
  simp only [Heap.deleteRecord]
  rw [hr]
  exact ⟨_, rfl⟩

theorem Heap.deletePtrArray_spec {h h' : Heap α} {a : Option Nat}
    (hw : h.deletePtrArray a = some h') :
    (∀ b, h'.ptrArray b = if b = a then none else h.ptrArray b) ∧
      (∀ b, h'.charArray b = h.charArray b) ∧ (∀ p, h'.record p = h.record p) := by
  cases a with
  | none =>
    simp only [Heap.deletePtrArray, Option.some.injEq] at hw
    subst hw
    refine ⟨fun b => ?_, fun _ => rfl, fun _ => rfl⟩
    by_cases hb : b = none
    · subst hb; simp [Heap.ptrArray]
    · simp [if_neg hb]
  | some a0 =>
    simp only [Heap.deletePtrArray] at hw
    cases hps : h.ptrArray (some a0) with
    | none => rw [hps] at hw; simp at hw
    | some ps =>
      rw [hps] at hw
      simp only [Option.some.injEq] at hw
      subst hw
      exact ⟨fun b => Heap.ptrArray_set h a0 _ (Heap.ptrArray_lt hps) b,
        fun b => Heap.charArray_eq_of_charArrays rfl b, fun p => Heap.record_eq_of_cells rfl p⟩

theorem Heap.deletePtrArray_ok {h : Heap α} {a : Option Nat} {ps : List (Option Nat)}
    (hps : h.ptrArray a = some ps) : ∃ h', h.deletePtrArray a = some h' := by
  cases a with
  | none => exact ⟨h, rfl⟩
  | some a0 =>
    simp only [Heap.deletePtrArray]
    rw [hps]
    exact ⟨_, rfl⟩

theorem Heap.deleteCharArray_spec {h h' : Heap α} {a : Option Nat}
    (hw : h.deleteCharArray a = some h') :
    (∀ b, h'.charArray b = if b = a then none else h.charArray b) ∧
      (∀ b, h'.ptrArray b = h.ptrArray b) ∧ (∀ p, h'.record p = h.record p) := by
  cases a with
  | none =>
    simp only [Heap.deleteCharArray, Option.some.injEq] at hw
    subst hw
    refine ⟨fun b => ?_, fun _ => rfl, fun _ => rfl⟩
    by_cases hb : b = none
    · subst hb; simp [Heap.charArray]
    · simp [if_neg hb]
  | some a0 =>
    simp only [Heap.deleteCharArray] at hw
    cases hps : h.charArray (some a0) with
    | none => rw [hps] at hw; simp at hw
    | some ps =>
      rw [hps] at hw
      simp only [Option.some.injEq] at hw
      subst hw
      exact ⟨fun b => Heap.charArray_set h a0 _ (Heap.charArray_lt hps) b,
        fun b => Heap.ptrArray_eq_of_ptrArrays rfl b, fun p => Heap.record_eq_of_cells rfl p⟩

theorem Heap.deleteCharArray_ok {h : Heap α} {a : Option Nat} {sts : List Char}
    (hps : h.charArray a = some sts) : ∃ h', h.deleteCharArray a = some h' := by
  cases a with
  | none => exact ⟨h, rfl⟩
  | some a0 =>
    simp only [Heap.deleteCharArray]
    rw [hps]
    exact ⟨_, rfl⟩

theorem Heap.pointerAt_congr {h h' : Heap α} {a : Option Nat}
    (hp : h'.ptrArray a = h.ptrArray a) (i : Nat) : h'.pointerAt a i = h.pointerAt a i := by
  unfold Heap.pointerAt; rw [hp]

theorem Heap.statusAt_congr {h h' : Heap α} {b : Option Nat}
    (hp : h'.charArray b = h.charArray b) (i : Nat) : h'.statusAt b i = h.statusAt b i := by
  unfold Heap.statusAt; rw [hp]

theorem Heap.slotAt_congr {h h' : Heap α} {a : Option Nat} {i : Nat}
    (hp : h'.pointerAt a i = h.pointerAt a i)
    (hr : ∀ p, h.pointerAt a i = some (some p) → h'.record p = h.record p) :
    h'.slotAt a i = h.slotAt a i := by
  unfold Heap.slotAt
  rw [hp]
  cases hq : h.pointerAt a i with
  | none => rfl
  | some q =>
    cases q with
    | none => rfl
    | some p => simp only; rw [hr p hq]

theorem Heap.pointerAt_lt {h : Heap α} {a : Option Nat} {i : Nat} {q : Option Nat}
    (hq : h.pointerAt a i = some q) : ∃ ps, h.ptrArray a = some ps ∧ i < ps.length ∧ ps[i]? = some q := by
  unfold Heap.pointerAt at hq
  cases hps : h.ptrArray a with
  | none => rw [hps] at hq; simp at hq
  | some ps =>
    rw [hps] at hq
    simp only at hq
    refine ⟨ps, rfl, ?_, hq⟩
    by_contra hlt
    rw [List.getElem?_eq_none (by omega)] at hq
    simp at hq

theorem Heap.pointerAt_of {h : Heap α} {a : Option Nat} {ps : List (Option Nat)}
    (hps : h.ptrArray a = some ps) (i : Nat) : h.pointerAt a i = ps[i]? := by
  unfold Heap.pointerAt; rw [hps]

theorem Heap.statusAt_of {h : Heap α} {b : Option Nat} {sts : List Char}
    (hps : h.charArray b = some sts) (i : Nat) : h.statusAt b i = sts[i]? := by
  unfold Heap.statusAt; rw [hps]

theorem Heap.slotAt_null {h : Heap α} {a : Option Nat} {i : Nat}
    (hq : h.pointerAt a i = some none) : h.slotAt a i = some none := by
  unfold Heap.slotAt; rw [hq]

theorem Heap.slotAt_record {h : Heap α} {a : Option Nat} {i p : Nat}
    (hq : h.pointerAt a i = some (some p)) :
    h.slotAt a i = (match h.record p with | none => none | some r => some (some r)) := by
  unfold Heap.slotAt; rw [hq]

theorem Heap.slotAt_none {h : Heap α} {a : Option Nat} {i : Nat}
    (hq : h.pointerAt a i = none) : h.slotAt a i = none := by
  unfold Heap.slotAt; rw [hq]

end FreeStoreWrites

section Regions

variable {α : Type}

theorem Region.Keeps.refl (S : Region) (h : Heap α) : S.Keeps h h :=
  ⟨fun _ _ => rfl, fun _ _ => rfl, fun _ _ => rfl⟩

theorem Region.Keeps.trans {S : Region} {h1 h2 h3 : Heap α} (h12 : S.Keeps h1 h2)
    (h23 : S.Keeps h2 h3) : S.Keeps h1 h3 :=
  ⟨fun a ha => (h23.1 a ha).trans (h12.1 a ha), fun b hb => (h23.2.1 b hb).trans (h12.2.1 b hb),
    fun p hp => (h23.2.2 p hp).trans (h12.2.2 p hp)⟩

theorem Region.Live.live_keeps {S : Region} {h h' : Heap α} (hl : S.Live h) (hk : S.Keeps h h') :
    S.Live h' := by
  refine ⟨fun a ha => ?_, fun b hb => ?_, fun p hp => ?_⟩
  · rw [hk.1 a ha]; exact hl.1 a ha
  · rw [hk.2.1 b hb]; exact hl.2.1 b hb
  · rw [hk.2.2 p hp]; exact hl.2.2 p hp

theorem Region.Keeps.of_union_left {S T : Region} {h h' : Heap α} (hk : (S.union T).Keeps h h') :
    S.Keeps h h' :=
  ⟨fun a ha => hk.1 a (Or.inl ha), fun b hb => hk.2.1 b (Or.inl hb),
    fun p hp => hk.2.2 p (Or.inl hp)⟩

theorem Region.Keeps.of_union_right {S T : Region} {h h' : Heap α} (hk : (S.union T).Keeps h h') :
    T.Keeps h h' :=
  ⟨fun a ha => hk.1 a (Or.inr ha), fun b hb => hk.2.1 b (Or.inr hb),
    fun p hp => hk.2.2 p (Or.inr hp)⟩

theorem Region.Live.live_union {S T : Region} {h : Heap α} (hs : S.Live h) (ht : T.Live h) :
    (S.union T).Live h :=
  ⟨fun a ha => ha.elim (hs.1 a) (ht.1 a), fun b hb => hb.elim (hs.2.1 b) (ht.2.1 b),
    fun p hp => hp.elim (hs.2.2 p) (ht.2.2 p)⟩

theorem Region.Apart.apart_union {S T : Region} {h : Heap α} {o : LPObject} (hs : S.Apart h o)
    (ht : T.Apart h o) : (S.union T).Apart h o :=
  ⟨fun a ha hx => hx.elim (hs.1 a ha) (ht.1 a ha),
    fun b hb hx => hx.elim (hs.2.1 b hb) (ht.2.1 b hb),
    fun i p hp hx => hx.elim (hs.2.2 i p hp) (ht.2.2 i p hp)⟩

theorem Region.Apart.apart_left {S T : Region} {h : Heap α} {o : LPObject}
    (hs : (S.union T).Apart h o) : S.Apart h o :=
  ⟨fun a ha hx => hs.1 a ha (Or.inl hx), fun b hb hx => hs.2.1 b hb (Or.inl hx),
    fun i p hp hx => hs.2.2 i p hp (Or.inl hx)⟩

theorem Region.Apart.apart_right {S T : Region} {h : Heap α} {o : LPObject}
    (hs : (S.union T).Apart h o) : T.Apart h o :=
  ⟨fun a ha hx => hs.1 a ha (Or.inr hx), fun b hb hx => hs.2.1 b hb (Or.inr hx),
    fun i p hp hx => hs.2.2 i p hp (Or.inr hx)⟩

/-- A store that keeps the storage of an object still holds the same table
there. -/
theorem Represents.of_keeps {h h' : Heap α} {o : LPObject} {t : LPTable α} (hr : Represents h o t)
    (hk : (o.region h).Keeps h h') : Represents h' o t := by
  have hptr : h'.ptrArray o.records_ = h.ptrArray o.records_ := by
    cases ha : o.records_ with
    | none => rfl
    | some a => exact hk.1 a ha
  have hchar : h'.charArray o.recordStatus_ = h.charArray o.recordStatus_ := by
    cases hb : o.recordStatus_ with
    | none => rfl
    | some b => exact hk.2.1 b hb
  have hpt : ∀ i, h'.pointerAt o.records_ i = h.pointerAt o.records_ i :=
    fun i => Heap.pointerAt_congr hptr i
  refine ⟨hr.max_eq, hr.size_eq, hr.cap_eq, by rw [hchar]; exact hr.status, ?_, ?_, ?_⟩
  · rw [hptr]; exact hr.live
  · intro i
    rw [Heap.slotAt_congr (hpt i) (fun p hp => hk.2.2 p ⟨i, hp⟩)]
    exact hr.slots i
  · intro i j p hi hj
    rw [hpt] at hi hj
    exact hr.inj i j p hi hj

/-- A pointer of a represented object addresses a live record, the one the
table holds in that slot. -/
theorem Represents.pointer_live {h : Heap α} {o : LPObject} {t : LPTable α}
    (hr : Represents h o t) {i p : Nat} (hp : h.pointerAt o.records_ i = some (some p)) :
    ∃ r, h.record p = some r ∧ t.records_[i]? = some (some r) := by
  obtain ⟨ps, hps, hi, _⟩ := Heap.pointerAt_lt hp
  obtain ⟨ps', hps', hlen⟩ := hr.live
  rw [hps] at hps'
  simp only [Option.some.injEq] at hps'
  subst hps'
  have hs := hr.slots i
  rw [Heap.slotAt_record hp] at hs
  cases hrec : h.record p with
  | none =>
    rw [hrec] at hs
    simp only at hs
    have : i < t.records_.length := by omega
    rw [List.getElem?_eq_getElem this] at hs
    simp at hs
  | some r =>
    rw [hrec] at hs
    exact ⟨r, rfl, hs.symm⟩

theorem Represents.region_live {h : Heap α} {o : LPObject} {t : LPTable α}
    (hr : Represents h o t) : (o.region h).Live h := by
  refine ⟨fun a ha => ?_, fun b hb => ?_, fun p hp => ?_⟩
  · obtain ⟨ps, hps, _⟩ := hr.live
    rw [show o.records_ = some a from ha] at hps
    exact ⟨ps, hps⟩
  · have := hr.status
    rw [show o.recordStatus_ = some b from hb] at this
    exact ⟨_, this⟩
  · obtain ⟨i, hi⟩ := hp
    obtain ⟨r, hr1, _⟩ := hr.pointer_live hi
    exact ⟨r, hr1⟩

theorem Represents.statusAt {h : Heap α} {o : LPObject} {t : LPTable α}
    (hr : Represents h o t) (i : Nat) : h.statusAt o.recordStatus_ i = t.recordStatus_[i]? :=
  Heap.statusAt_of hr.status i

/-- The new record of `new Record(...)` lies outside every live region. -/
theorem Region.Live.keeps_newRecord {S : Region} {h : Heap α} (hl : S.Live h) (r : Record α) :
    S.Keeps h (h.newRecord r) := by
  refine ⟨fun _ _ => rfl, fun _ _ => rfl, fun p hp => ?_⟩
  rw [Heap.record_newRecord]
  obtain ⟨r', hr'⟩ := hl.2.2 p hp
  have := Heap.record_lt hr'
  rw [if_neg (by omega)]

theorem Region.Live.keeps_newPtrArray {S : Region} {h : Heap α} (hl : S.Live h)
    (ps : List (Option Nat)) : S.Keeps h (h.newPtrArray ps) := by
  refine ⟨fun a ha => ?_, fun _ _ => rfl, fun _ _ => rfl⟩
  rw [Heap.ptrArray_newPtrArray]
  obtain ⟨ps', hps'⟩ := hl.1 a ha
  have := Heap.ptrArray_lt hps'
  rw [if_neg (by simp; omega)]

theorem Region.Live.keeps_newCharArray {S : Region} {h : Heap α} (hl : S.Live h)
    (sts : List Char) : S.Keeps h (h.newCharArray sts) := by
  refine ⟨fun _ _ => rfl, fun b hb => ?_, fun _ _ => rfl⟩
  rw [Heap.charArray_newCharArray]
  obtain ⟨ps', hps'⟩ := hl.2.1 b hb
  have := Heap.charArray_lt hps'
  rw [if_neg (by simp; omega)]

theorem Region.keeps_writePointer {S : Region} {h h' : Heap α} {a : Option Nat} {i : Nat}
    {q : Option Nat} (hw : h.writePointer a i q = some h')
    (ha : ∀ a0, a = some a0 → ¬ S.ptrs a0) : S.Keeps h h' := by
  obtain ⟨ps, _, _, hp, hc, hr⟩ := Heap.writePointer_spec hw
  refine ⟨fun b hb => ?_, fun b _ => hc _, fun p _ => hr p⟩
  rw [hp, if_neg]
  intro hba
  exact ha b hba.symm hb

theorem Region.keeps_writeStatus {S : Region} {h h' : Heap α} {a : Option Nat} {i : Nat}
    {st : Char} (hw : h.writeStatus a i st = some h')
    (ha : ∀ a0, a = some a0 → ¬ S.chars a0) : S.Keeps h h' := by
  obtain ⟨ps, _, _, hp, hc, hr⟩ := Heap.writeStatus_spec hw
  refine ⟨fun b _ => hc _, fun b hb => ?_, fun p _ => hr p⟩
  rw [hp, if_neg]
  intro hba
  exact ha b hba.symm hb

theorem Region.keeps_writeData {S : Region} {h h' : Heap α} {p : Nat} {value : α}
    (hw : h.writeData p value = some h') (hp : ¬ S.cells p) : S.Keeps h h' := by
  obtain ⟨r, _, hrec, hpa, hca⟩ := Heap.writeData_spec hw
  refine ⟨fun b _ => hpa _, fun b _ => hca _, fun q hq => ?_⟩
  rw [hrec, if_neg]
  intro hqp
  exact hp (hqp ▸ hq)

theorem Region.keeps_deleteRecord {S : Region} {h h' : Heap α} {p : Nat}
    (hw : h.deleteRecord p = some h') (hp : ¬ S.cells p) : S.Keeps h h' := by
  obtain ⟨_, hrec, hpa, hca⟩ := Heap.deleteRecord_spec hw
  refine ⟨fun b _ => hpa _, fun b _ => hca _, fun q hq => ?_⟩
  rw [hrec, if_neg]
  intro hqp
  exact hp (hqp ▸ hq)

theorem Region.keeps_deletePtrArray {S : Region} {h h' : Heap α} {a : Option Nat}
    (hw : h.deletePtrArray a = some h') (ha : ∀ a0, a = some a0 → ¬ S.ptrs a0) :
    S.Keeps h h' := by
  obtain ⟨hp, hc, hr⟩ := Heap.deletePtrArray_spec hw
  refine ⟨fun b hb => ?_, fun b _ => hc _, fun p _ => hr p⟩
  rw [hp, if_neg]
  intro hba
  exact ha b hba.symm hb

theorem Region.keeps_deleteCharArray {S : Region} {h h' : Heap α} {a : Option Nat}
    (hw : h.deleteCharArray a = some h') (ha : ∀ a0, a = some a0 → ¬ S.chars a0) :
    S.Keeps h h' := by
  obtain ⟨hp, hc, hr⟩ := Heap.deleteCharArray_spec hw
  refine ⟨fun b _ => hc _, fun b hb => ?_, fun p _ => hr p⟩
  rw [hp, if_neg]
  intro hba
  exact ha b hba.symm hb

end Regions

section RepresentsSteps

variable {α : Type}

/-- The represented table after one entry of the pointer array is assigned:
null, or the address of a live record that no other entry points to. -/
theorem Represents.set_pointer {h h1 : Heap α} {o : LPObject} {t : LPTable α}
    (hr : Represents h o t) {ps : List (Option Nat)} {i : Nat} {q : Option Nat}
    {v : Option (Record α)} (hps : h.ptrArray o.records_ = some ps) (hi : i < ps.length)
    (hps1 : h1.ptrArray o.records_ = some (ps.set i q))
    (hch : h1.charArray o.recordStatus_ = h.charArray o.recordStatus_)
    (hrec : ∀ (j p : Nat), j ≠ i → ps[j]? = some (some p) → h1.record p = h.record p)
    (hq : (q = none ∧ v = none) ∨
      ∃ p r, q = some p ∧ v = some r ∧ h1.record p = some r ∧
        ∀ j : Nat, j ≠ i → ps[j]? ≠ some (some p)) :
    Represents h1 o { t with records_ := t.records_.set i v } := by
  obtain ⟨ps', hps', hlen⟩ := hr.live
  rw [hps] at hps'
  simp only [Option.some.injEq] at hps'
  subst hps'
  have hpt : ∀ j, h.pointerAt o.records_ j = ps[j]? := Heap.pointerAt_of hps
  have hpt1 : ∀ j, h1.pointerAt o.records_ j = (ps.set i q)[j]? := Heap.pointerAt_of hps1
  refine ⟨hr.max_eq, hr.size_eq, hr.cap_eq, by rw [hch]; exact hr.status, ?_, ?_, ?_⟩
  · exact ⟨_, hps1, by simp [hlen]⟩
  · intro j
    show h1.slotAt o.records_ j = (t.records_.set i v)[j]?
    by_cases hj : j = i
    · subst hj
      rw [List.getElem?_set_self (by omega)]
      have hp1 : h1.pointerAt o.records_ j = some q := by
        rw [hpt1, List.getElem?_set_self hi]
      rcases hq with ⟨hq, hv⟩ | ⟨p, r, hq, hv, hrp, _⟩
      · subst hq hv
        exact Heap.slotAt_null hp1
      · subst hq hv
        rw [Heap.slotAt_record hp1, hrp]
    · rw [List.getElem?_set_ne (Ne.symm hj)]
      have hp1 : h1.pointerAt o.records_ j = h.pointerAt o.records_ j := by
        rw [hpt1, hpt, List.getElem?_set_ne (Ne.symm hj)]
      rw [Heap.slotAt_congr hp1 (fun p hp => hrec j p hj (by rw [← hpt]; exact hp))]
      exact hr.slots j
  · intro j1 j2 p h1j h2j
    rw [hpt1] at h1j h2j
    by_cases hj1 : j1 = i
    · by_cases hj2 : j2 = i
      · rw [hj1, hj2]
      · subst hj1
        rw [List.getElem?_set_self hi] at h1j
        rw [List.getElem?_set_ne (Ne.symm hj2)] at h2j
        rcases hq with ⟨hq, _⟩ | ⟨p', r, hq, _, _, hfresh⟩
        · subst hq; simp at h1j
        · subst hq
          simp only [Option.some.injEq] at h1j
          subst h1j
          exact absurd h2j (hfresh j2 hj2)
    · by_cases hj2 : j2 = i
      · subst hj2
        rw [List.getElem?_set_self hi] at h2j
        rw [List.getElem?_set_ne (Ne.symm hj1)] at h1j
        rcases hq with ⟨hq, _⟩ | ⟨p', r, hq, _, _, hfresh⟩
        · subst hq; simp at h2j
        · subst hq
          simp only [Option.some.injEq] at h2j
          subst h2j
          exact absurd h1j (hfresh j1 hj1)
      · rw [List.getElem?_set_ne (Ne.symm hj1)] at h1j
        rw [List.getElem?_set_ne (Ne.symm hj2)] at h2j
        rw [← hpt] at h1j h2j
        exact hr.inj j1 j2 p h1j h2j

/-- The represented table after the status array is replaced and the rest of
the storage of the object is kept. -/
theorem Represents.set_status {h h1 : Heap α} {o : LPObject} {t : LPTable α}
    (hr : Represents h o t) {sts : List Char}
    (hch : h1.charArray o.recordStatus_ = some sts)
    (hps : h1.ptrArray o.records_ = h.ptrArray o.records_)
    (hrec : ∀ (i p : Nat), h.pointerAt o.records_ i = some (some p) → h1.record p = h.record p) :
    Represents h1 o { t with recordStatus_ := sts } := by
  have hpt : ∀ i, h1.pointerAt o.records_ i = h.pointerAt o.records_ i :=
    fun i => Heap.pointerAt_congr hps i
  refine ⟨hr.max_eq, hr.size_eq, hr.cap_eq, hch, ?_, ?_, ?_⟩
  · rw [hps]; exact hr.live
  · intro i
    rw [Heap.slotAt_congr (hpt i) (fun p hp => hrec i p hp)]
    exact hr.slots i
  · intro i j p hi hj
    rw [hpt] at hi hj
    exact hr.inj i j p hi hj

/-- The scalar members of an object do not matter to what its storage holds. -/
theorem Represents.scalars {h : Heap α} {o o' : LPObject} {t : LPTable α}
    (hr : Represents h o t) (t' : LPTable α) (hrec : o'.records_ = o.records_)
    (hst : o'.recordStatus_ = o.recordStatus_) (hm : o'.max_ = t'.max_)
    (hs : o'.size_ = t'.size_) (hc : o'.capacity_ = t'.capacity_)
    (hr' : t'.records_ = t.records_) (hs' : t'.recordStatus_ = t.recordStatus_) :
    Represents h o' t' := by
  refine ⟨hm, hs, hc, ?_, ?_, ?_, ?_⟩
  · rw [hst, hs']; exact hr.status
  · rw [hrec, hr']; exact hr.live
  · intro i; rw [hrec, hr']; exact hr.slots i
  · intro i j p; rw [hrec]; exact hr.inj i j p

theorem Region.Apart.of_pointers {S : Region} {h h1 : Heap α} {o o1 : LPObject}
    (ha : S.Apart h o) (hrec : o1.records_ = o.records_)
    (hst : o1.recordStatus_ = o.recordStatus_)
    (hp : ∀ (i p : Nat), h1.pointerAt o.records_ i = some (some p) →
      (∃ j, h.pointerAt o.records_ j = some (some p)) ∨ ¬ S.cells p) :
    S.Apart h1 o1 := by
  refine ⟨fun a hx => ha.1 a (hrec ▸ hx), fun b hx => ha.2.1 b (hst ▸ hx), fun i p hx => ?_⟩
  rw [hrec] at hx
  rcases hp i p hx with ⟨j, hj⟩ | hn
  · exact ha.2.2 j p hj
  · exact hn

theorem Region.Apart.same_pointers {S : Region} {h h1 : Heap α} {o : LPObject}
    (ha : S.Apart h o) (hp : h1.ptrArray o.records_ = h.ptrArray o.records_) : S.Apart h1 o :=
  ha.of_pointers rfl rfl (fun i p hx => Or.inl ⟨i, by rw [← Heap.pointerAt_congr hp i]; exact hx⟩)

theorem LPObject.searchLoop_eq {h : Heap α} {o : LPObject} {t : LPTable α}
    (hr : Represents h o t) (key : String) :
    ∀ fuel hashIdx, o.searchLoop h key fuel hashIdx = t.searchLoop key fuel hashIdx := by
  intro fuel
  induction fuel with
  | zero => intro hashIdx; rfl
  | succ n ih =>
    intro hashIdx
    unfold LPObject.searchLoop LPTable.searchLoop
    rw [hr.cap_eq, hr.statusAt, hr.slots]
    simp only [ih]

/-- Exact agreement: `find` over the free store returns what `find` returns on the represented
table. -/
theorem LPObject.find_eq (hf : String → Nat) {h : Heap α} {o : LPObject} {t : LPTable α}
    (hr : Represents h o t) (fuel : Nat) (key : String) (value : α) :
    o.find hf fuel h key value = t.find hf fuel key value := by
  unfold LPObject.find LPTable.find LPObject.search LPTable.search
  rw [LPObject.searchLoop_eq hr]
  cases hs : t.searchLoop key fuel (hf key % SIZE_MOD) with
  | error e => rfl
  | ok res =>
    cases res with
    | none => rfl
    | some idx => simp only; rw [hr.slots]

end RepresentsSteps

section InsertOverStore

variable {α : Type}

/-- The assignment `records_[i] = new Record(...)`. -/
theorem LPObject.store_pointer_new {S : Region} {h : Heap α} {o : LPObject} {t : LPTable α}
    (hr : Represents h o t) (hl : S.Live h) (ha : S.Apart h o) (r : Record α) {i : Nat}
    (hi : i < t.records_.length) :
    ∃ h1, (h.newRecord r).writePointer o.records_ i (some h.cells.length) = some h1 ∧
      Represents h1 o { t with records_ := t.records_.set i (some r) } ∧ S.Keeps h h1 ∧
      S.Apart h1 o := by
  obtain ⟨ps, hps, hlen⟩ := hr.live
  have hpsN : (h.newRecord r).ptrArray o.records_ = some ps := hps
  have hrN : Represents (h.newRecord r) o t :=
    hr.of_keeps (hr.region_live.keeps_newRecord r)
  obtain ⟨h1, hw1⟩ := Heap.writePointer_ok (some h.cells.length) hpsN (by omega : i < ps.length)
  obtain ⟨ps', hps', _, hp1, hc1, hr1⟩ := Heap.writePointer_spec hw1
  rw [hpsN] at hps'
  simp only [Option.some.injEq] at hps'
  subst hps'
  have hfresh : ∀ j : Nat, ps[j]? ≠ some (some h.cells.length) := by
    intro j hj
    have hpj : h.pointerAt o.records_ j = some (some h.cells.length) := by
      rw [Heap.pointerAt_of hps]; exact hj
    obtain ⟨r', hr', _⟩ := hr.pointer_live hpj
    have := Heap.record_lt hr'
    omega
  have hnew : h1.record h.cells.length = some r := by
    rw [hr1, Heap.record_newRecord, if_pos rfl]
  refine ⟨h1, hw1, hrN.set_pointer hpsN (by omega) (by rw [hp1, if_pos rfl]) (hc1 _)
    (fun _ p _ _ => hr1 p) (Or.inr ⟨_, r, rfl, rfl, hnew, fun j _ => hfresh j⟩),
    (hl.keeps_newRecord r).trans (Region.keeps_writePointer hw1 ha.1),
    ha.of_pointers rfl rfl ?_⟩
  intro j p hp
  rw [Heap.pointerAt_of (show h1.ptrArray o.records_ = _ by rw [hp1, if_pos rfl])] at hp
  by_cases hj : j = i
  · subst hj
    rw [List.getElem?_set_self (by omega)] at hp
    simp only [Option.some.injEq] at hp
    subst hp
    right
    intro hc
    obtain ⟨r', hr'⟩ := hl.2.2 _ hc
    have := Heap.record_lt hr'
    omega
  · rw [List.getElem?_set_ne (Ne.symm hj)] at hp
    left
    exact ⟨j, by rw [Heap.pointerAt_of hps]; exact hp⟩

/-- The assignment `records_[i] = nullptr`. -/
theorem LPObject.store_pointer_null {S : Region} {h : Heap α} {o : LPObject} {t : LPTable α}
    (hr : Represents h o t) (ha : S.Apart h o) {i : Nat} (hi : i < t.records_.length) :
    ∃ h1, h.writePointer o.records_ i none = some h1 ∧
      Represents h1 o { t with records_ := t.records_.set i none } ∧ S.Keeps h h1 ∧
      S.Apart h1 o := by
  obtain ⟨ps, hps, hlen⟩ := hr.live
  obtain ⟨h1, hw1⟩ := Heap.writePointer_ok none hps (by omega : i < ps.length)
  obtain ⟨ps', hps', _, hp1, hc1, hr1⟩ := Heap.writePointer_spec hw1
  rw [hps] at hps'
  simp only [Option.some.injEq] at hps'
  subst hps'
  refine ⟨h1, hw1, hr.set_pointer hps (by omega) (by rw [hp1, if_pos rfl]) (hc1 _)
    (fun _ p _ _ => hr1 p) (Or.inl ⟨rfl, rfl⟩), Region.keeps_writePointer hw1 ha.1,
    ha.of_pointers rfl rfl ?_⟩
  intro j p hp
  rw [Heap.pointerAt_of (show h1.ptrArray o.records_ = _ by rw [hp1, if_pos rfl])] at hp
  by_cases hj : j = i
  · subst hj
    rw [List.getElem?_set_self (by omega)] at hp
    simp at hp
  · rw [List.getElem?_set_ne (Ne.symm hj)] at hp
    left
    exact ⟨j, by rw [Heap.pointerAt_of hps]; exact hp⟩

/-- The assignment `recordStatus_[i] = st`. -/
theorem LPObject.store_status {S : Region} {h : Heap α} {o : LPObject} {t : LPTable α}
    (hr : Represents h o t) (ha : S.Apart h o) (st : Char) {i : Nat}
    (hi : i < t.recordStatus_.length) :
    ∃ h1, h.writeStatus o.recordStatus_ i st = some h1 ∧
      Represents h1 o { t with recordStatus_ := t.recordStatus_.set i st } ∧ S.Keeps h h1 ∧
      S.Apart h1 o := by
  obtain ⟨h1, hw⟩ := Heap.writeStatus_ok st hr.status hi
  obtain ⟨sts', hsts', _, hc1, hp1, hr1⟩ := Heap.writeStatus_spec hw
  rw [hr.status] at hsts'
  simp only [Option.some.injEq] at hsts'
  subst hsts'
  exact ⟨h1, hw, hr.set_status (by rw [hc1, if_pos rfl]) (hp1 _) (fun _ p _ => hr1 p),
    Region.keeps_writeStatus hw ha.2.1, ha.same_pointers (hp1 _)⟩

/-- Source `insert`: the loop over the free store does what the loop on the
table does, and touches nothing outside the storage of the object. -/
theorem LPObject.insert_sim {S : Region} {h : Heap α} {o : LPObject} {t : LPTable α}
    (hr : Represents h o t) (hl : S.Live h) (ha : S.Apart h o) (key : String) (value : α) :
    ∀ fuel hashIdx,
      Sim (fun h' t' => Represents h' o t' ∧ S.Keeps h h' ∧ S.Apart h' o)
        (o.insert key value fuel hashIdx h) (t.insert key value fuel hashIdx) := by
  intro fuel
  induction fuel with
  | zero => intro hashIdx; simp [LPObject.insert, LPTable.insert, Sim]
  | succ n ih =>
    intro hashIdx
    unfold LPObject.insert LPTable.insert
    rw [hr.cap_eq, hr.statusAt]
    by_cases hcap : t.capacity_ = 0
    · simp [hcap, Sim]
    · simp only [if_neg hcap]
      cases hst : t.recordStatus_[hashIdx % t.capacity_]? with
      | none => simp [Sim]
      | some st =>
        simp only
        by_cases hO : st ≠ 'O'
        · simp only [if_pos hO]
          by_cases hi : hashIdx % t.capacity_ < t.records_.length
          · obtain ⟨h1, hw1, hr1, hk1, ha1⟩ :=
              LPObject.store_pointer_new hr hl ha ⟨value, key⟩ hi
            have hi2 : hashIdx % t.capacity_ < t.recordStatus_.length := by
              by_contra hlt
              rw [List.getElem?_eq_none (by omega)] at hst
              simp at hst
            obtain ⟨h2, hw2, hr2, hk2, ha2⟩ := LPObject.store_status hr1 ha1 'O' hi2
            simp only [hw1, hw2, if_pos hi, Sim]
            exact ⟨hr2, hk1.trans hk2, ha2⟩
          · rw [if_neg hi]
            cases hw1 : (h.newRecord ⟨value, key⟩).writePointer o.records_
                (hashIdx % t.capacity_) (some h.cells.length) with
            | none => simp [Sim]
            | some h1 =>
              obtain ⟨ps', hps', hi', _⟩ := Heap.writePointer_spec hw1
              obtain ⟨ps, hps, hlen⟩ := hr.live
              have hpsN : (h.newRecord ⟨value, key⟩).ptrArray o.records_ = some ps := hps
              rw [hpsN] at hps'
              simp only [Option.some.injEq] at hps'
              subst hps'
              omega
        · simp only [if_neg hO]
          exact ih _

end InsertOverStore

section GrowOverStore

variable {α : Type}

theorem Sim.mono {A B : Type} {R R' : A → B → Prop} (hRR : ∀ a b, R a b → R' a b)
    {x : Except Fault A} {y : Except Fault B} (hs : Sim R x y) : Sim R' x y := by
  cases x <;> cases y <;> simp only [Sim] at hs ⊢
  · exact hs
  · exact hRR _ _ hs

/-- A returning `reinsert` on the table read every index of its list inside the
old array. -/
theorem reinsert_ok_bounds (hf : String → Nat) (fuel : Nat) (old : List (Option (Record α))) :
    ∀ (is : List Nat) (t t' : LPTable α), LPTable.reinsert hf fuel old is t = .ok t' →
      ∀ i : Nat, i ∈ is → i < old.length := by
  intro is
  induction is with
  | nil => intro _ _ _ i hi; simp at hi
  | cons i0 rest ih =>
    intro t t' hres i hi
    unfold LPTable.reinsert at hres
    cases ho : old[i0]? with
    | none => rw [ho] at hres; simp at hres
    | some q =>
      have hi0 : i0 < old.length := by
        by_contra hlt
        rw [List.getElem?_eq_none (by omega)] at ho
        simp at ho
      rw [ho] at hres
      rcases List.mem_cons.mp hi with rfl | hmem
      · exact hi0
      · cases q with
        | none => exact ih t t' hres i hmem
        | some r =>
          simp only at hres
          cases hins : t.insert r.key_ r.data_ fuel (hf r.key_ % SIZE_MOD) with
          | error e => rw [hins] at hres; simp at hres
          | ok t1 => rw [hins] at hres; exact ih t1 t' hres i hmem

/-- The second loop of `grow` over the free store against the same loop on the
table, while the old array and its records are kept. -/
theorem LPObject.reinsert_sim (hf : String → Nat) {S : Region} (fuel : Nat) (tmp : Option Nat)
    (told : List (Option (Record α))) {o : LPObject} :
    ∀ (is : List Nat) (h : Heap α) (t : LPTable α), Represents h o t → S.Live h → S.Apart h o →
      (∀ h', S.Keeps h h' → ∀ i : Nat, h'.slotAt tmp i = told[i]?) →
      Sim (fun h' t' => Represents h' o t' ∧ S.Keeps h h' ∧ S.Apart h' o)
        (LPObject.reinsert hf fuel tmp o is h) (LPTable.reinsert hf fuel told is t) := by
  intro is
  induction is with
  | nil =>
    intro h t hr hl ha _
    simp only [LPObject.reinsert, LPTable.reinsert, Sim]
    exact ⟨hr, Region.Keeps.refl S h, ha⟩
  | cons i rest ih =>
    intro h t hr hl ha hold
    unfold LPObject.reinsert LPTable.reinsert
    rw [hold h (Region.Keeps.refl S h) i]
    cases ho : told[i]? with
    | none => simp [Sim]
    | some q =>
      cases q with
      | none => exact ih h t hr hl ha hold
      | some r =>
        simp only
        have hs := LPObject.insert_sim hr hl ha r.key_ r.data_ fuel (hf r.key_ % SIZE_MOD)
        cases hx : o.insert r.key_ r.data_ fuel (hf r.key_ % SIZE_MOD) h with
        | error e =>
          cases hy : t.insert r.key_ r.data_ fuel (hf r.key_ % SIZE_MOD) with
          | error e' => rw [hx, hy] at hs; simpa [Sim] using hs
          | ok t1 => rw [hx, hy] at hs; simp [Sim] at hs
        | ok h1 =>
          cases hy : t.insert r.key_ r.data_ fuel (hf r.key_ % SIZE_MOD) with
          | error e' => rw [hx, hy] at hs; simp [Sim] at hs
          | ok t1 =>
            rw [hx, hy] at hs
            simp only [Sim] at hs
            obtain ⟨hr1, hk1, ha1⟩ := hs
            simp only
            refine Sim.mono ?_ (ih h1 t1 hr1 (hl.live_keeps hk1) ha1
              (fun h' hk' => hold h' (hk1.trans hk')))
            rintro h' t' ⟨hr', hk', ha'⟩
            exact ⟨hr', hk1.trans hk', ha'⟩

/-- A `for` loop that deletes the records of an array returns when the array
is live, the indices are in range and distinct, and the records are live and
pointed to once; it changes no array and no other record. -/
theorem Heap.deleteRecords_spec (a : Option Nat) (ps : List (Option Nat))
    (hinj : ∀ (i j p : Nat), ps[i]? = some (some p) → ps[j]? = some (some p) → i = j) :
    ∀ (is : List Nat) (h : Heap α), h.ptrArray a = some ps → is.Nodup →
      (∀ i : Nat, i ∈ is → i < ps.length) →
      (∀ (i p : Nat), i ∈ is → ps[i]? = some (some p) → ∃ r, h.record p = some r) →
      ∃ h', Heap.deleteRecords a is h = .ok h' ∧ (∀ b, h'.ptrArray b = h.ptrArray b) ∧
        (∀ b, h'.charArray b = h.charArray b) ∧
        (∀ q : Nat, (∀ i : Nat, i ∈ is → ps[i]? ≠ some (some q)) → h'.record q = h.record q) := by
  intro is
  induction is with
  | nil =>
    intro h _ _ _ _
    exact ⟨h, rfl, fun _ => rfl, fun _ => rfl, fun _ _ => rfl⟩
  | cons i rest ih =>
    intro h hps hnd hlt hlive
    have hnd' := List.nodup_cons.mp hnd
    unfold Heap.deleteRecords
    have hi := hlt i (List.mem_cons_self _ _)
    obtain ⟨q0, hpi⟩ : ∃ q0, ps[i]? = some q0 := ⟨ps[i], List.getElem?_eq_getElem hi⟩
    rw [Heap.pointerAt_of hps, hpi]
    cases q0 with
    | none =>
      simp only
      obtain ⟨h', hd, hp, hc, hrec⟩ := ih h hps hnd'.2
        (fun j hj => hlt j (List.mem_cons_of_mem _ hj))
        (fun j p hj hp => hlive j p (List.mem_cons_of_mem _ hj) hp)
      exact ⟨h', hd, hp, hc, fun q hq' =>
        hrec q (fun j hj => hq' j (List.mem_cons_of_mem _ hj))⟩
    | some p =>
      simp only
      obtain ⟨r, hr⟩ := hlive i p (List.mem_cons_self _ _) hpi
      obtain ⟨h1, hd1⟩ := Heap.deleteRecord_ok hr
      rw [hd1]
      simp only
      obtain ⟨_, hrec1, hp1, hc1⟩ := Heap.deleteRecord_spec hd1
      obtain ⟨h', hd, hp, hc, hrec⟩ := ih h1 (by rw [hp1]; exact hps) hnd'.2
        (fun j hj => hlt j (List.mem_cons_of_mem _ hj))
        (fun j p' hj hp' => by
          rw [hrec1, if_neg]
          · exact hlive j p' (List.mem_cons_of_mem _ hj) hp'
          · intro hpp
            subst hpp
            have := hinj i j p' hpi hp'
            subst this
            exact hnd'.1 hj)
      refine ⟨h', hd, fun b => (hp b).trans (hp1 b), fun b => (hc b).trans (hc1 b), ?_⟩
      intro q hq'
      rw [hrec q (fun j hj => hq' j (List.mem_cons_of_mem _ hj)), hrec1, if_neg]
      intro hqp
      subst hqp
      exact hq' i (List.mem_cons_self _ _) hpi

/-- The storage of an object is released: the records of its first `n`
entries, then the two arrays.  The three steps return, and they keep every
region that the object owns nothing of. -/
theorem Represents.release {h : Heap α} {o : LPObject} {t : LPTable α} (hr : Represents h o t)
    (n : Nat) (hn : n ≤ t.records_.length) :
    ∃ h1 h2 h3, Heap.deleteRecords o.records_ (List.range n) h = .ok h1 ∧
      h1.deletePtrArray o.records_ = some h2 ∧ h2.deleteCharArray o.recordStatus_ = some h3 ∧
      ∀ T : Region, T.Apart h o → T.Keeps h h3 := by
  obtain ⟨ps, hps, hlen⟩ := hr.live
  have hpt : ∀ i, h.pointerAt o.records_ i = ps[i]? := Heap.pointerAt_of hps
  obtain ⟨h1, hd1, hp1, hc1, hrec1⟩ := Heap.deleteRecords_spec o.records_ ps
    (fun i j p hi hj => hr.inj i j p (by rw [hpt]; exact hi) (by rw [hpt]; exact hj))
    (List.range n) h hps (List.nodup_range n)
    (fun i hi => by have := List.mem_range.mp hi; omega)
    (fun i p _ hp => by
      obtain ⟨r, hr1, _⟩ := hr.pointer_live (by rw [hpt]; exact hp)
      exact ⟨r, hr1⟩)
  obtain ⟨h2, hd2⟩ := Heap.deletePtrArray_ok (show h1.ptrArray o.records_ = some ps
    by rw [hp1]; exact hps)
  obtain ⟨hp2, hc2, hrec2⟩ := Heap.deletePtrArray_spec hd2
  obtain ⟨h3, hd3⟩ := Heap.deleteCharArray_ok (show h2.charArray o.recordStatus_ = some _
    by rw [hc2, hc1]; exact hr.status)
  obtain ⟨hc3, hp3, hrec3⟩ := Heap.deleteCharArray_spec hd3
  refine ⟨h1, h2, h3, hd1, hd2, hd3, ?_⟩
  intro T hT
  refine ⟨fun a ha => ?_, fun b hb => ?_, fun p hp => ?_⟩
  · rw [hp3, hp2, if_neg, hp1]
    intro hx
    exact hT.1 a hx.symm ha
  · rw [hc3, if_neg, hc2, hc1]
    intro hx
    exact hT.2.1 b hx.symm hb
  · rw [hrec3, hrec2, hrec1]
    intro i _ hi
    exact hT.2.2 i p (by rw [hpt]; exact hi) hp

/-- Two new arrays, all entries null and one character: the object that holds
them is the table with those two lists. -/
theorem Represents.fresh_arrays (h : Heap α) (n : Nat) (c : Char) (m s : Int) (cap : Nat) :
    Represents ((h.newPtrArray (List.replicate n none)).newCharArray (List.replicate n c))
      { records_ := some h.ptrArrays.length, recordStatus_ := some h.charArrays.length
        max_ := m, size_ := s, capacity_ := cap }
      { records_ := List.replicate n none, recordStatus_ := List.replicate n c
        max_ := m, size_ := s, capacity_ := cap } := by
  have hps : ((h.newPtrArray (List.replicate n none)).newCharArray (List.replicate n c)).ptrArray
      (some h.ptrArrays.length) = some (List.replicate n none) := by
    show (h.newPtrArray (List.replicate n none)).ptrArray (some h.ptrArrays.length) = _
    rw [Heap.ptrArray_newPtrArray, if_pos rfl]
  have hpt := Heap.pointerAt_of hps
  refine ⟨rfl, rfl, rfl, ?_, ⟨_, hps, by simp⟩, ?_, ?_⟩
  · show ((h.newPtrArray (List.replicate n none)).newCharArray (List.replicate n c)).charArray
      (some h.charArrays.length) = _
    rw [Heap.charArray_newCharArray]
    exact if_pos rfl
  · intro i
    show Heap.slotAt _ (some h.ptrArrays.length) i = (List.replicate n none)[i]?
    by_cases hi : i < n
    · have : (List.replicate n (none : Option Nat))[i]? = some none := by
        rw [List.getElem?_replicate, if_pos hi]
      rw [Heap.slotAt_null (by rw [hpt, this]), List.getElem?_replicate, if_pos hi]
    · have : (List.replicate n (none : Option Nat))[i]? = none := by
        rw [List.getElem?_replicate, if_neg hi]
      rw [Heap.slotAt_none (by rw [hpt, this]), List.getElem?_replicate, if_neg hi]
  · intro i j p hi _
    rw [Heap.pointerAt_of hps] at hi
    rw [List.getElem?_replicate] at hi
    split at hi <;> simp at hi

/-- The two new arrays lie outside every live region, and allocating them keeps
it. -/
theorem Region.Live.keeps_fresh {S : Region} {h : Heap α} (hl : S.Live h) (n : Nat) (c : Char)
    (m s : Int) (cap : Nat) :
    S.Keeps h ((h.newPtrArray (List.replicate n none)).newCharArray (List.replicate n c)) ∧
    S.Apart ((h.newPtrArray (List.replicate n none)).newCharArray (List.replicate n c))
      { records_ := some h.ptrArrays.length, recordStatus_ := some h.charArrays.length
        max_ := m, size_ := s, capacity_ := cap } := by
  have hk1 := hl.keeps_newPtrArray (List.replicate n none)
  have hk2 := (hl.live_keeps hk1).keeps_newCharArray (List.replicate n c)
  refine ⟨hk1.trans hk2, ?_, ?_, ?_⟩
  · intro a ha hS
    simp only [Option.some.injEq] at ha
    obtain ⟨ps, hps⟩ := hl.1 a hS
    have := Heap.ptrArray_lt hps
    omega
  · intro b hb hS
    simp only [Option.some.injEq] at hb
    obtain ⟨ps, hps⟩ := hl.2.1 b hS
    have := Heap.charArray_lt hps
    omega
  · intro i p hp
    exact absurd hp (by
      intro hp
      have hr := Represents.fresh_arrays h n c m s cap
      obtain ⟨r, _, hr2⟩ := hr.pointer_live hp
      simp only [List.getElem?_replicate] at hr2
      split at hr2 <;> simp at hr2)

end GrowOverStore

section GrowSim

variable {α : Type}

theorem Region.Keeps.ptrArray_of {h h1 : Heap α} {o : LPObject}
    (hk : (o.region h).Keeps h h1) : h1.ptrArray o.records_ = h.ptrArray o.records_ := by
  cases ha : o.records_ with
  | none => rfl
  | some a => exact hk.1 a ha

/-- Two objects own disjoint storage: the relation is symmetric. -/
theorem Region.Apart.symm {h : Heap α} {o o1 : LPObject} (ha : (o.region h).Apart h o1) :
    (o1.region h).Apart h o := by
  refine ⟨fun a hx hy => ha.1 a hy hx, fun b hx hy => ha.2.1 b hy hx, ?_⟩
  rintro i p hp ⟨j, hj⟩
  exact ha.2.2 j p hj ⟨i, hp⟩

/-- The re-insertion and the release of the old storage in `grow`, from the
point where the two new arrays exist. -/
theorem LPObject.grow_tail (hf : String → Nat) {S : Region} {h hA : Heap α} {o o1 : LPObject}
    {t t1 : LPTable α} (hr : Represents h o t) (ha : S.Apart h o)
    (hfr : Represents hA o1 t1) (hlA : (S.union (o.region h)).Live hA)
    (hkA : (S.union (o.region h)).Keeps h hA)
    (haA : (S.union (o.region h)).Apart hA o1) (fuel : Nat) :
    Sim (fun (x : Heap α × LPObject) t' => Represents x.1 x.2 t' ∧ S.Keeps h x.1 ∧ S.Apart x.1 x.2)
      (match LPObject.reinsert hf fuel o.records_ o1 (List.range t.capacity_) hA with
       | .error e => .error e
       | .ok h1 =>
         match Heap.deleteRecords o.records_ (List.range t.capacity_) h1 with
         | .error e => .error e
         | .ok h2 =>
           match h2.deletePtrArray o.records_ with
           | none => .error .nullDeref
           | some h3 =>
             match h3.deleteCharArray o.recordStatus_ with
             | none => .error .nullDeref
             | some h4 => .ok (h4, o1))
      (LPTable.reinsert hf fuel t.records_ (List.range t.capacity_) t1) := by
  have hs := LPObject.reinsert_sim hf fuel o.records_ t.records_ (List.range t.capacity_) hA t1
    hfr hlA haA (fun h' hk' i => (hr.of_keeps (hkA.of_union_right.trans hk'.of_union_right)).slots i)
  cases hx : LPObject.reinsert hf fuel o.records_ o1 (List.range t.capacity_) hA with
  | error e =>
    cases hy : LPTable.reinsert hf fuel t.records_ (List.range t.capacity_) t1 with
    | error e' => rw [hx, hy] at hs; simpa [Sim] using hs
    | ok t' => rw [hx, hy] at hs; simp [Sim] at hs
  | ok h1 =>
    cases hy : LPTable.reinsert hf fuel t.records_ (List.range t.capacity_) t1 with
    | error e' => rw [hx, hy] at hs; simp [Sim] at hs
    | ok t' =>
      rw [hx, hy] at hs
      simp only [Sim] at hs
      obtain ⟨hr1, hk1, ha1⟩ := hs
      have hro1 : Represents h1 o t := hr.of_keeps (hkA.of_union_right.trans hk1.of_union_right)
      have hptr : h1.ptrArray o.records_ = h.ptrArray o.records_ :=
        (hkA.of_union_right.trans hk1.of_union_right).ptrArray_of
      have hcap : t.capacity_ ≤ t.records_.length := by
        by_contra hlt
        have := reinsert_ok_bounds hf fuel t.records_ _ _ _ hy t.records_.length
          (List.mem_range.mpr (by omega))
        omega
      obtain ⟨h2, h3, h4, hd1, hd2, hd3, hrel⟩ := hro1.release t.capacity_ hcap
      simp only [hd1, hd2, hd3, Sim]
      have hap : (o1.region h1).Apart h1 o := by
        refine ⟨fun a hx hy => ha1.apart_right.1 a hy hx, fun b hx hy => ha1.apart_right.2.1 b hy hx, ?_⟩
        rintro i p hp ⟨j, hj⟩
        exact ha1.apart_right.2.2 j p hj ⟨i, by rw [← Heap.pointerAt_congr hptr i]; exact hp⟩
      have hk4 := hrel (o1.region h1) hap
      refine ⟨hr1.of_keeps hk4, (hkA.of_union_left.trans hk1.of_union_left).trans (hrel S (ha.same_pointers hptr)),
        ha1.apart_left.same_pointers hk4.ptrArray_of⟩

/-- Source `grow`: over the free store it does what it does on the table, and
touches nothing outside the storage of the object. -/
theorem LPObject.grow_sim (hf : String → Nat) {S : Region} {h : Heap α} {o : LPObject}
    {t : LPTable α} (hr : Represents h o t) (hl : S.Live h) (ha : S.Apart h o) (fuel : Nat) :
    Sim (fun (x : Heap α × LPObject) t' => Represents x.1 x.2 t' ∧ S.Keeps h x.1 ∧ S.Apart x.1 x.2)
      (o.grow hf fuel h) (t.grow hf fuel) := by
  unfold LPObject.grow LPTable.grow
  rw [hr.cap_eq, hr.max_eq, hr.size_eq]
  by_cases h1 : INT_MAX < 2 * (t.capacity_ : Int)
  · simp [h1, Sim]
  · by_cases h2 : INT_MAX < 2 * t.max_ ∨ 2 * t.max_ < INT_MIN
    · simp [h1, h2, Sim]
    · simp only [if_neg h1, if_neg h2]
      have hlS : (S.union (o.region h)).Live h := hl.live_union hr.region_live
      obtain ⟨hkA, haA⟩ := hlS.keeps_fresh (2 * t.capacity_) 'E' (2 * t.max_) t.size_ (2 * t.capacity_)
      exact LPObject.grow_tail hf hr ha
        (Represents.fresh_arrays h (2 * t.capacity_) 'E' (2 * t.max_) t.size_ (2 * t.capacity_))
        (hlS.live_keeps hkA) hkA haA fuel

end GrowSim

section UpdateSim

variable {α : Type}

theorem Sim.error_left {A B : Type} {R : A → B → Prop} {e : Fault} {y : Except Fault B}
    (hs : Sim R (.error e) y) : y = .error e := by
  cases y with
  | error e' => simp only [Sim] at hs; rw [hs]
  | ok b => simp [Sim] at hs

theorem Sim.ok_left {A B : Type} {R : A → B → Prop} {a : A} {y : Except Fault B}
    (hs : Sim R (.ok a) y) : ∃ b, y = .ok b ∧ R a b := by
  cases y with
  | error e' => simp [Sim] at hs
  | ok b => exact ⟨b, rfl, hs⟩

theorem Sim.error_right {A B : Type} {R : A → B → Prop} {e : Fault} {x : Except Fault A}
    (hs : Sim R x (.error e)) : x = .error e := by
  cases x with
  | error e' => simp only [Sim] at hs; rw [hs]
  | ok b => simp [Sim] at hs

theorem Sim.ok_right {A B : Type} {R : A → B → Prop} {b : B} {x : Except Fault A}
    (hs : Sim R x (.ok b)) : ∃ a, x = .ok a ∧ R a b := by
  cases x with
  | error e' => simp [Sim] at hs
  | ok a => exact ⟨a, rfl, hs⟩

/-- Source `update`: over the free store it does what it does on the table, and
touches nothing outside the storage of the object. -/
theorem LPObject.update_sim (hf : String → Nat) {S : Region} {h : Heap α} {o : LPObject}
    {t : LPTable α} (hr : Represents h o t) (hl : S.Live h) (ha : S.Apart h o) (fuel : Nat)
    (key : String) (value : α) :
    Sim (fun (x : Heap α × LPObject) t' => Represents x.1 x.2 t' ∧ S.Keeps h x.1 ∧ S.Apart x.1 x.2)
      (o.update hf fuel h key value) (t.update hf fuel key value) := by
  unfold LPObject.update LPTable.update LPObject.search LPTable.search
  rw [LPObject.searchLoop_eq hr]
  cases hsr : t.searchLoop key fuel (hf key % SIZE_MOD) with
  | error e => simp [Sim]
  | ok res =>
    cases res with
    | some idx =>
      simp only
      cases hp : h.pointerAt o.records_ idx with
      | none =>
        have := hr.slots idx
        rw [Heap.slotAt_none hp] at this
        rw [← this]
        simp [Sim]
      | some q =>
        cases q with
        | none =>
          have := hr.slots idx
          rw [Heap.slotAt_null hp] at this
          rw [← this]
          simp [Sim]
        | some p =>
          obtain ⟨r, hrec, hslot⟩ := hr.pointer_live hp
          obtain ⟨ps, hps, hi, hpi⟩ := Heap.pointerAt_lt hp
          have hpt : ∀ j, h.pointerAt o.records_ j = ps[j]? := Heap.pointerAt_of hps
          rw [hslot]
          simp only
          cases hw : h.writeData p value with
          | none => simp [Heap.writeData, hrec] at hw
          | some h1 =>
            simp only [Sim]
            obtain ⟨r', hr', hrec1, hp1, hc1⟩ := Heap.writeData_spec hw
            rw [hrec] at hr'
            simp only [Option.some.injEq] at hr'
            subst hr'
            have hset : ps.set idx (some p) = ps := by
              apply List.ext_getElem?
              intro j
              by_cases hj : j = idx
              · subst hj; rw [List.getElem?_set_self hi, hpi]
              · rw [List.getElem?_set_ne (Ne.symm hj)]
            refine ⟨hr.set_pointer hps hi (by rw [hp1, hset]; exact hps) (hc1 _) ?_
              (Or.inr ⟨p, _, rfl, rfl, by rw [hrec1, if_pos rfl], ?_⟩),
              Region.keeps_writeData hw (ha.2.2 idx p hp), ha.same_pointers (hp1 _)⟩
            · intro j p' hj hpj
              rw [hrec1, if_neg]
              intro hpp
              subst hpp
              exact hj (hr.inj j idx p' (by rw [hpt]; exact hpj) hp)
            · intro j hj hpj
              exact hj (hr.inj j idx p (by rw [hpt]; exact hpj) hp)
    | none =>
      simp only
      have hs := LPObject.insert_sim hr hl ha key value fuel (hf key % SIZE_MOD)
      cases hy : t.insert key value fuel (hf key % SIZE_MOD) with
      | error e =>
        rw [hy] at hs
        rw [hs.error_right]
        simp [Sim]
      | ok t1 =>
        rw [hy] at hs
        obtain ⟨h1, hx, hr1, hk1, ha1⟩ := hs.ok_right
        rw [hx]
        simp only
        have hsz : o.size_ = t1.size_ := hr1.size_eq
        have hmx : o.max_ = t1.max_ := hr1.max_eq
        rw [hsz, hmx]
        by_cases hov : INT_MAX < t1.size_ + 1
        · simp [hov, Sim]
        · simp only [if_neg hov]
          have hr2 : Represents h1 ⟨o.records_, o.recordStatus_, t1.max_, t1.size_ + 1, o.capacity_⟩
              { t1 with size_ := t1.size_ + 1 } :=
            hr1.scalars _ rfl rfl rfl rfl hr1.cap_eq rfl rfl
          have ha2 : S.Apart h1 ⟨o.records_, o.recordStatus_, t1.max_, t1.size_ + 1, o.capacity_⟩ :=
            ha1.of_pointers rfl rfl (fun i p hx => Or.inl ⟨i, hx⟩)
          by_cases hg : t1.size_ + 1 > t1.max_
          · simp only [if_pos hg]
            refine Sim.mono ?_ (LPObject.grow_sim hf hr2 (hl.live_keeps hk1) ha2 fuel)
            rintro x t' ⟨hr', hk', ha'⟩
            exact ⟨hr', hk1.trans hk', ha'⟩
          · simp only [if_neg hg, Sim]
            exact ⟨hr2, hk1, ha2⟩

/-- Source `remove`: over the free store it does what it does on the table, and
touches nothing outside the storage of the object. -/
theorem LPObject.remove_sim (hf : String → Nat) {S : Region} {h : Heap α} {o : LPObject}
    {t : LPTable α} (hr : Represents h o t) (ha : S.Apart h o) (fuel : Nat)
    (key : String) :
    Sim (fun (x : Bool × Heap α × LPObject) (y : Bool × LPTable α) =>
        x.1 = y.1 ∧ Represents x.2.1 x.2.2 y.2 ∧ S.Keeps h x.2.1 ∧ S.Apart x.2.1 x.2.2)
      (o.remove hf fuel h key) (t.remove hf fuel key) := by
  unfold LPObject.remove LPTable.remove LPObject.search LPTable.search
  rw [LPObject.searchLoop_eq hr]
  cases hsr : t.searchLoop key fuel (hf key % SIZE_MOD) with
  | error e => simp [Sim]
  | ok res =>
    cases res with
    | none =>
      simp only [Sim]
      exact ⟨trivial, hr, Region.Keeps.refl S h, ha⟩
    | some idx =>
      simp only
      obtain ⟨ps, hps, hlen⟩ := hr.live
      have hpt : ∀ j, h.pointerAt o.records_ j = ps[j]? := Heap.pointerAt_of hps
      cases hp : h.pointerAt o.records_ idx with
      | none =>
        have hge : ¬ idx < t.records_.length := by
          intro hlt
          rw [hpt, List.getElem?_eq_getElem (by omega)] at hp
          simp at hp
        simp [hge, Sim]
      | some q =>
        obtain ⟨ps', hps', hi, hpi⟩ := Heap.pointerAt_lt hp
        rw [hps] at hps'
        simp only [Option.some.injEq] at hps'
        subst hps'
        have hdel : ∃ h1, (match q with
              | some p => h.deleteRecord p
              | none => some h) = some h1 ∧
            (∀ b, h1.ptrArray b = h.ptrArray b) ∧ (∀ b, h1.charArray b = h.charArray b) ∧
            (∀ p', q ≠ some p' → h1.record p' = h.record p') := by
          cases q with
          | none => exact ⟨h, rfl, fun _ => rfl, fun _ => rfl, fun _ _ => rfl⟩
          | some p =>
            obtain ⟨r, hrec, _⟩ := hr.pointer_live hp
            obtain ⟨h1, hd⟩ := Heap.deleteRecord_ok hrec
            obtain ⟨_, hrec1, hp1, hc1⟩ := Heap.deleteRecord_spec hd
            refine ⟨h1, hd, hp1, hc1, fun p' hne => ?_⟩
            rw [hrec1, if_neg]
            intro hpp
            exact hne (by rw [hpp])
        obtain ⟨h1, hd, hp1, hc1, hrec1⟩ := hdel
        dsimp only
        rw [hd]
        simp only
        obtain ⟨h2, hw2⟩ := Heap.writePointer_ok none (show h1.ptrArray o.records_ = some ps
          by rw [hp1]; exact hps) hi
        rw [hw2]
        simp only
        obtain ⟨ps', hps', _, hp2, hc2, hrec2⟩ := Heap.writePointer_spec hw2
        rw [hp1, hps] at hps'
        simp only [Option.some.injEq] at hps'
        subst hps'
        have hch2 : h2.charArray o.recordStatus_ = some t.recordStatus_ := by
          rw [hc2, hc1]; exact hr.status
        by_cases hi2 : idx < t.recordStatus_.length
        · obtain ⟨h3, hw3⟩ := Heap.writeStatus_ok 'D' hch2 hi2
          rw [hw3]
          simp only
          obtain ⟨sts', hsts', _, hc3, hp3, hrec3⟩ := Heap.writeStatus_spec hw3
          rw [hch2] at hsts'
          simp only [Option.some.injEq] at hsts'
          subst hsts'
          have hcond : idx < t.records_.length ∧ idx < t.recordStatus_.length := ⟨by omega, hi2⟩
          rw [if_pos hcond, hr.size_eq]
          by_cases hov : t.size_ - 1 < INT_MIN
          · simp [hov, Sim]
          · simp only [if_neg hov, Sim]
            have hR2 : Represents h2 o { t with records_ := t.records_.set idx none } := by
              refine hr.set_pointer hps hi (by rw [hp2, if_pos rfl]) ?_ ?_ (Or.inl ⟨rfl, rfl⟩)
              · rw [hc2, hc1]
              · intro j p' hj hpj
                rw [hrec2, hrec1]
                intro hq
                subst hq
                exact hj (hr.inj j idx p' (by rw [hpt]; exact hpj) hp)
            have hR3 := hR2.set_status (show h3.charArray o.recordStatus_
                = some (t.recordStatus_.set idx 'D') by rw [hc3, if_pos rfl]) (hp3 _)
              (fun _ p _ => hrec3 p)
            have hk1 : S.Keeps h h1 := by
              refine ⟨fun a _ => hp1 _, fun b _ => hc1 _, fun p' hp' => hrec1 p' ?_⟩
              intro hq
              subst hq
              exact ha.2.2 idx p' hp hp'
            have hk : S.Keeps h h3 :=
              (hk1.trans (Region.keeps_writePointer hw2 ha.1)).trans
                (Region.keeps_writeStatus hw3 ha.2.1)
            refine ⟨trivial, hR3.scalars _ rfl rfl hr.max_eq rfl hr.cap_eq rfl rfl, hk,
              ha.of_pointers rfl rfl ?_⟩
            intro j p' hpj
            rw [Heap.pointerAt_congr (hp3 _), Heap.pointerAt_of (show h2.ptrArray o.records_ = _
              by rw [hp2, if_pos rfl])] at hpj
            by_cases hj : j = idx
            · subst hj
              rw [List.getElem?_set_self hi] at hpj
              simp at hpj
            · rw [List.getElem?_set_ne (Ne.symm hj)] at hpj
              exact Or.inl ⟨j, by rw [hpt]; exact hpj⟩
        · have hnone : h2.writeStatus o.recordStatus_ idx 'D' = none := by
            cases hw3 : h2.writeStatus o.recordStatus_ idx 'D' with
            | none => rfl
            | some h3 =>
              obtain ⟨sts', hsts', hlt, _⟩ := Heap.writeStatus_spec hw3
              rw [hch2] at hsts'
              simp only [Option.some.injEq] at hsts'
              subst hsts'
              exact absurd hlt hi2
          rw [hnone]
          simp [hi2, Sim]

end UpdateSim

section CopyOverStore

variable {α : Type}

/-- A sequence of calls over the free store does what it does on the table, and
touches nothing outside the storage of the object. -/
theorem LPObject.run_sim (hf : String → Nat) {S : Region} (fuel : Nat) :
    ∀ (calls : List (Call α)) (h : Heap α) (o : LPObject) (t : LPTable α),
      Represents h o t → S.Live h → S.Apart h o →
      Sim (fun (x : Heap α × LPObject) t' =>
          Represents x.1 x.2 t' ∧ S.Keeps h x.1 ∧ S.Apart x.1 x.2)
        (LPObject.run hf fuel calls o h) (LPTable.run hf fuel calls t) := by
  intro calls
  induction calls with
  | nil =>
    intro h o t hr _ ha
    simp only [LPObject.run, LPTable.run, Sim]
    exact ⟨hr, Region.Keeps.refl S h, ha⟩
  | cons c rest ih =>
    intro h o t hr hl ha
    cases c with
    | update key value =>
      simp only [LPObject.run, LPTable.run]
      have hs := LPObject.update_sim hf hr hl ha fuel key value
      cases hy : t.update hf fuel key value with
      | error e =>
        rw [hy] at hs
        rw [hs.error_right]
        simp [Sim]
      | ok t1 =>
        rw [hy] at hs
        obtain ⟨⟨h1, o1⟩, hx, hr1, hk1, ha1⟩ := hs.ok_right
        rw [hx]
        simp only
        refine Sim.mono ?_ (ih h1 o1 t1 hr1 (hl.live_keeps hk1) ha1)
        rintro x t' ⟨hr', hk', ha'⟩
        exact ⟨hr', hk1.trans hk', ha'⟩
    | remove key =>
      simp only [LPObject.run, LPTable.run]
      have hs := LPObject.remove_sim hf hr ha fuel key
      cases hy : t.remove hf fuel key with
      | error e =>
        rw [hy] at hs
        rw [hs.error_right]
        simp [Sim]
      | ok bt =>
        rw [hy] at hs
        obtain ⟨⟨b, h1, o1⟩, hx, _, hr1, hk1, ha1⟩ := hs.ok_right
        rw [hx]
        simp only
        refine Sim.mono ?_ (ih h1 o1 bt.2 hr1 (hl.live_keeps hk1) ha1)
        rintro x t' ⟨hr', hk', ha'⟩
        exact ⟨hr', hk1.trans hk', ha'⟩

end CopyOverStore

section CopyLoop

variable {α : Type}

/-- The copy loop over the free store: after it, the entries of `this` at the
indices of the list are those of the table that `other` holds, the other
entries are as before, and nothing outside the storage of `this` has changed. -/
theorem LPObject.copyLoop_spec {S : Region} {this other : LPObject} {t : LPTable α} :
    ∀ (is : List Nat) (h : Heap α) (tc : LPTable α), Represents h this tc → S.Live h →
      S.Apart h this → (∀ h', S.Keeps h h' → Represents h' other t) →
      (∀ i : Nat, i ∈ is → i < t.records_.length ∧ i < t.recordStatus_.length ∧
        i < tc.records_.length ∧ i < tc.recordStatus_.length) →
      ∃ h' tc', this.copyLoop other is h = .ok h' ∧ Represents h' this tc' ∧ S.Keeps h h' ∧
        S.Apart h' this ∧
        tc'.records_.length = tc.records_.length ∧
        tc'.recordStatus_.length = tc.recordStatus_.length ∧
        tc'.max_ = tc.max_ ∧ tc'.size_ = tc.size_ ∧ tc'.capacity_ = tc.capacity_ ∧
        (∀ i : Nat, i ∈ is →
          tc'.records_[i]? = t.records_[i]? ∧ tc'.recordStatus_[i]? = t.recordStatus_[i]?) ∧
        (∀ i : Nat, i ∉ is →
          tc'.records_[i]? = tc.records_[i]? ∧ tc'.recordStatus_[i]? = tc.recordStatus_[i]?) := by
  intro is
  induction is with
  | nil =>
    intro h tc hr _ ha _ _
    exact ⟨h, tc, rfl, hr, Region.Keeps.refl S h, ha, rfl, rfl, rfl, rfl, rfl,
      fun i hi => by simp at hi, fun i _ => ⟨rfl, rfl⟩⟩
  | cons i0 rest ih =>
    intro h tc hr hl ha hother hb
    obtain ⟨hb1, hb2, hb3, hb4⟩ := hb i0 (List.mem_cons_self _ _)
    have hother0 := hother h (Region.Keeps.refl S h)
    unfold LPObject.copyLoop
    rw [hother0.slots, List.getElem?_eq_getElem hb1]
    dsimp only
    have hstep : ∃ h1, (match t.records_[i0] with
          | some r => (h.newRecord ⟨r.data_, r.key_⟩).writePointer this.records_ i0
              (some h.cells.length)
          | none => h.writePointer this.records_ i0 none) = some h1 ∧
        Represents h1 this { tc with records_ := tc.records_.set i0 t.records_[i0] } ∧
        S.Keeps h h1 ∧ S.Apart h1 this := by
      cases hslot : t.records_[i0] with
      | none => exact LPObject.store_pointer_null hr ha hb3
      | some r => exact LPObject.store_pointer_new hr hl ha ⟨r.data_, r.key_⟩ hb3
    obtain ⟨h1, hw1, hr1, hk1, ha1⟩ := hstep
    rw [hw1]
    dsimp only
    rw [(hother h1 hk1).statusAt, List.getElem?_eq_getElem hb2]
    dsimp only
    obtain ⟨h2, hw2, hr2, hk2, ha2⟩ := LPObject.store_status hr1 ha1 t.recordStatus_[i0]
      (show i0 < tc.recordStatus_.length from hb4)
    rw [hw2]
    dsimp only
    obtain ⟨h', tc', hrun, hr', hk', ha', hl1, hl2, hm, hs, hc, hin, hout⟩ :=
      ih h2 _ hr2 (hl.live_keeps (hk1.trans hk2)) ha2
        (fun h' hk' => hother h' ((hk1.trans hk2).trans hk'))
        (fun i hi => by
          obtain ⟨a1, a2, a3, a4⟩ := hb i (List.mem_cons_of_mem _ hi)
          refine ⟨a1, a2, ?_, ?_⟩
          · simpa using a3
          · simpa using a4)
    refine ⟨h', tc', hrun, hr', (hk1.trans hk2).trans hk', ha', by simpa using hl1,
      by simpa using hl2, hm, hs, hc, ?_, ?_⟩
    · intro i hi
      by_cases hir : i ∈ rest
      · exact hin i hir
      · have hii : i = i0 := by
          rcases List.mem_cons.mp hi with h0 | h0
          · exact h0
          · exact absurd h0 hir
        subst hii
        obtain ⟨e1, e2⟩ := hout i hir
        rw [e1, e2]
        simp only
        rw [List.getElem?_set_self hb3, List.getElem?_set_self hb4,
          List.getElem?_eq_getElem hb1, List.getElem?_eq_getElem hb2]
        exact ⟨rfl, rfl⟩
    · intro i hi
      have hne : i0 ≠ i := fun hx => hi (hx ▸ List.mem_cons_self _ _)
      have hir : i ∉ rest := fun hx => hi (List.mem_cons_of_mem _ hx)
      obtain ⟨e1, e2⟩ := hout i hir
      rw [e1, e2]
      simp only
      rw [List.getElem?_set_ne hne, List.getElem?_set_ne hne]
      exact ⟨rfl, rfl⟩

/-- The copy of both constructors from the point where the store is `h`: the
two arrays are allocated and filled, the new object holds the table of `other`,
`other` still holds it, and nothing live before has changed. -/
theorem LPObject.copy_fresh {S : Region} {h : Heap α} {other : LPObject} {t : LPTable α}
    (hr : Represents h other t) (hl : S.Live h) (hlr : t.records_.length = t.capacity_)
    (hls : t.recordStatus_.length = t.capacity_) :
    ∃ h1, LPObject.copyLoop
        { records_ := some h.ptrArrays.length
          recordStatus_ := some h.charArrays.length
          max_ := other.max_
          size_ := other.size_
          capacity_ := other.capacity_ }
        other (List.range other.capacity_)
        ((h.newPtrArray (List.replicate other.capacity_ none)).newCharArray
          (List.replicate other.capacity_ (Char.ofNat 0))) = .ok h1 ∧
      Represents h1 { records_ := some h.ptrArrays.length
                      recordStatus_ := some h.charArrays.length
                      max_ := other.max_
                      size_ := other.size_
                      capacity_ := other.capacity_ } t ∧
      Represents h1 other t ∧
      S.Keeps h h1 ∧
      S.Apart h1 { records_ := some h.ptrArrays.length
                   recordStatus_ := some h.charArrays.length
                   max_ := other.max_
                   size_ := other.size_
                   capacity_ := other.capacity_ } ∧
      (other.region h).Keeps h h1 ∧
      (other.region h).Apart h1 { records_ := some h.ptrArrays.length
                                  recordStatus_ := some h.charArrays.length
                                  max_ := other.max_
                                  size_ := other.size_
                                  capacity_ := other.capacity_ } := by
  rw [hr.max_eq, hr.size_eq, hr.cap_eq]
  have hlS : (S.union (other.region h)).Live h := hl.live_union hr.region_live
  obtain ⟨hkA, haA⟩ := hlS.keeps_fresh t.capacity_ (Char.ofNat 0) t.max_ t.size_ t.capacity_
  have hfr := Represents.fresh_arrays h t.capacity_ (Char.ofNat 0) t.max_ t.size_ t.capacity_
  obtain ⟨h1, tc', hrun, hr', hk', ha', hl1, hl2, hm, hs, hc, hin, _⟩ :=
    LPObject.copyLoop_spec (List.range t.capacity_) _ _ hfr (hlS.live_keeps hkA) haA
      (fun h' hk' => hr.of_keeps (hkA.of_union_right.trans hk'.of_union_right))
      (fun i hi => by
        have := List.mem_range.mp hi
        refine ⟨by omega, by omega, ?_, ?_⟩ <;> simp <;> omega)
  have hrec : tc'.records_ = t.records_ := by
    apply List.ext_getElem?
    intro i
    by_cases hi : i < t.capacity_
    · exact (hin i (List.mem_range.mpr hi)).1
    · rw [List.getElem?_eq_none (by simp at hl1; omega), List.getElem?_eq_none (by omega)]
  have hst : tc'.recordStatus_ = t.recordStatus_ := by
    apply List.ext_getElem?
    intro i
    by_cases hi : i < t.capacity_
    · exact (hin i (List.mem_range.mpr hi)).2
    · rw [List.getElem?_eq_none (by simp at hl2; omega), List.getElem?_eq_none (by omega)]
  have htc : tc' = t := by
    cases tc'; cases t
    simp only at hrec hst hm hs hc
    subst hrec hst hm hs hc
    rfl
  subst htc
  exact ⟨h1, hrun, hr', hr.of_keeps (hkA.of_union_right.trans hk'.of_union_right), hkA.of_union_left.trans hk'.of_union_left, ha'.apart_left,
    hkA.of_union_right.trans hk'.of_union_right, ha'.apart_right⟩

end CopyLoop

/-! ## Copies over the free store -/

section CopyIndependence

variable {α : Type}

/-- The constructor over the free store builds an object that holds the table
of the constructor. -/
theorem LPObject.ctor_represents (h : Heap α) (capacity : Nat) (maxLoadFactor : LoadFactor) :
    Represents (LPObject.ctor h capacity maxLoadFactor).1
      (LPObject.ctor h capacity maxLoadFactor).2 (LPTable.ctor capacity maxLoadFactor) :=
  Represents.fresh_arrays h capacity 'E' _ 0 capacity

/-- An object built over the free store by the constructor and a returning
sequence of calls holds a reachable table. -/
theorem LPObject.built_represents (hf : String → Nat) (h : Heap α) (capacity : Nat)
    (maxLoadFactor : LoadFactor) (hpos : 0 < capacity) (hint : (capacity : Int) ≤ INT_MAX)
    (h0 : 0 < maxLoadFactor.num) (h1 : maxLoadFactor.num ≤ maxLoadFactor.den) (fuel : Nat)
    (calls : List (Call α)) {h' : Heap α} {o' : LPObject}
    (hrun : LPObject.run hf fuel calls (LPObject.ctor h capacity maxLoadFactor).2
      (LPObject.ctor h capacity maxLoadFactor).1 = .ok (h', o')) :
    ∃ t', Reachable hf t' ∧ Represents h' o' t' := by
  have hl : (Region.mk (fun _ => False) (fun _ => False) (fun _ => False)).Live
      (LPObject.ctor h capacity maxLoadFactor).1 :=
    ⟨fun _ hx => hx.elim, fun _ hx => hx.elim, fun _ hx => hx.elim⟩
  have hs := LPObject.run_sim hf fuel calls _ _ _
    (LPObject.ctor_represents h capacity maxLoadFactor) hl
    ⟨fun _ _ hx => hx, fun _ _ hx => hx, fun _ _ _ hx => hx⟩
  rw [hrun] at hs
  obtain ⟨t', hy, hr', _, _⟩ := hs.ok_left
  exact ⟨t', (Reachable.ctor capacity maxLoadFactor hpos hint h0 h1).run calls fuel hy, hr'⟩

/-- The copy constructor over the free store returns; the new object holds the
table of `other` in storage of its own, and what was live before is kept. -/
theorem LPObject.copyCtor_spec {h : Heap α} {other : LPObject} {t : LPTable α}
    (hr : Represents h other t) (hlr : t.records_.length = t.capacity_)
    (hls : t.recordStatus_.length = t.capacity_) :
    ∃ h1 c, LPObject.copyCtor h other = .ok (h1, c) ∧ Represents h1 c t ∧
      (other.region h).Keeps h h1 ∧ (other.region h).Apart h1 c := by
  obtain ⟨h1, hrun, hc, _, _, _, hk, ha⟩ :=
    LPObject.copy_fresh hr hr.region_live hlr hls
  refine ⟨h1, _, ?_, hc, hk, ha⟩
  unfold LPObject.copyCtor
  rw [hrun]

/-- The copy assignment over the free store to another object `this` returns
when `this` holds a table in storage disjoint from that of `other`, or is in
the state a move leaves (null arrays, capacity 0); `this` then holds the table
of `other` in storage of its own, and the storage of `other` is kept. -/
theorem LPObject.copyAssign_spec {h : Heap α} {this other : LPObject} {t : LPTable α}
    (hr : Represents h other t)
    (hdest : (∃ td : LPTable α, Represents h this td ∧ td.capacity_ ≤ td.records_.length ∧
        (other.region h).Apart h this) ∨
      (this.records_ = none ∧ this.recordStatus_ = none ∧ this.capacity_ = 0))
    (hlr : t.records_.length = t.capacity_) (hls : t.recordStatus_.length = t.capacity_) :
    ∃ h1 c, LPObject.copyAssign h this other false = .ok (h1, c) ∧ Represents h1 c t ∧
      (other.region h).Keeps h h1 ∧ (other.region h).Apart h1 c := by
  rcases hdest with ⟨td, hd, hcap, hap⟩ | ⟨hn1, hn2, hn3⟩
  · obtain ⟨h1, h2, h3, hd1, hd2, hd3, hrel⟩ := hd.release td.capacity_ hcap
    have hk3 := hrel (other.region h) hap
    have hr3 : Represents h3 other t := hr.of_keeps hk3
    obtain ⟨h4, hrun, hc, _, hk, ha, _, _⟩ :=
      LPObject.copy_fresh hr3 (hr.region_live.live_keeps hk3) hlr hls
    refine ⟨h4, _, ?_, hc, hk3.trans hk, ha⟩
    unfold LPObject.copyAssign
    rw [hd.cap_eq]
    simp only [Bool.false_eq_true, if_false, hd1, hd2, hd3]
    rw [hrun]
  · obtain ⟨h4, hrun, hc, _, hk, ha, _, _⟩ :=
      LPObject.copy_fresh hr hr.region_live hlr hls
    refine ⟨h4, _, ?_, hc, hk, ha⟩
    unfold LPObject.copyAssign
    rw [hn1, hn2, hn3]
    simp only [Bool.false_eq_true, if_false, List.range_zero, Heap.deleteRecords,
      Heap.deletePtrArray, Heap.deleteCharArray]
    rw [hrun]

/-- What holds of an object `c` that holds the table of `s` in storage
disjoint from that of `s`: the contents agree slot by slot, no array and no
record is shared, `find` answers alike, and calls on `c` leave `s` alone. -/
theorem LPObject.independent_of_apart (hf : String → Nat) {h h1 : Heap α} {s c : LPObject}
    {t : LPTable α} (hs : Represents h s t) (hc : Represents h1 c t)
    (hk : (s.region h).Keeps h h1) (ha : (s.region h).Apart h1 c) :
    (c.capacity_ = s.capacity_ ∧ c.max_ = s.max_ ∧ c.size_ = s.size_) ∧
    (∀ i : Nat, h1.statusAt c.recordStatus_ i = h.statusAt s.recordStatus_ i ∧
      h1.slotAt c.records_ i = h.slotAt s.records_ i) ∧
    Represents h1 s t ∧
    (c.records_ ≠ s.records_ ∧ c.recordStatus_ ≠ s.recordStatus_ ∧
      ∀ (i j p : Nat), h1.pointerAt c.records_ i = some (some p) →
        h1.pointerAt s.records_ j ≠ some (some p)) ∧
    (∀ fuel key out, c.find hf fuel h1 key out = s.find hf fuel h key out ∧
      s.find hf fuel h1 key out = s.find hf fuel h key out) ∧
    (∀ fuel key value h2 c', c.update hf fuel h1 key value = .ok (h2, c') →
      (∃ t', t.update hf fuel key value = .ok t' ∧ Represents h2 c' t') ∧ Represents h2 s t ∧
      ∀ n k out, s.find hf n h2 k out = s.find hf n h k out) ∧
    (∀ fuel key b h2 c', c.remove hf fuel h1 key = .ok (b, h2, c') →
      (∃ t', t.remove hf fuel key = .ok (b, t') ∧ Represents h2 c' t') ∧ Represents h2 s t ∧
      ∀ n k out, s.find hf n h2 k out = s.find hf n h k out) ∧
    (∀ fuel calls h2 c', LPObject.run hf fuel calls c h1 = .ok (h2, c') →
      (∃ t', LPTable.run hf fuel calls t = .ok t' ∧ Represents h2 c' t') ∧ Represents h2 s t ∧
      ∀ n k out, s.find hf n h2 k out = s.find hf n h k out) ∧
    (∀ fuel calls t', LPTable.run hf fuel calls t = .ok t' →
      ∃ h2 c', LPObject.run hf fuel calls c h1 = .ok (h2, c')) := by
  have hs1 : Represents h1 s t := hs.of_keeps hk
  have hl1 : (s.region h).Live h1 := hs.region_live.live_keeps hk
  obtain ⟨ps, hps, _⟩ := hs.live
  refine ⟨⟨by rw [hc.cap_eq, hs.cap_eq], by rw [hc.max_eq, hs.max_eq],
    by rw [hc.size_eq, hs.size_eq]⟩, fun i => ⟨by rw [hc.statusAt, hs.statusAt],
    by rw [hc.slots, hs.slots]⟩, hs1, ⟨?_, ?_, ?_⟩, fun fuel key out =>
      ⟨by rw [LPObject.find_eq hf hc, LPObject.find_eq hf hs],
       by rw [LPObject.find_eq hf hs1, LPObject.find_eq hf hs]⟩, ?_, ?_, ?_, ?_⟩
  · intro heq
    cases hrec : s.records_ with
    | none => rw [hrec] at hps; simp [Heap.ptrArray] at hps
    | some a => exact ha.1 a (heq.trans hrec) hrec
  · intro heq
    cases hrec : s.recordStatus_ with
    | none => have := hs.status; rw [hrec] at this; simp [Heap.charArray] at this
    | some b => exact ha.2.1 b (heq.trans hrec) hrec
  · intro i j p hi hj
    refine ha.2.2 i p hi ⟨j, ?_⟩
    rw [← Heap.pointerAt_congr hk.ptrArray_of j]
    exact hj
  · intro fuel key value h2 c' hu
    have hsim := LPObject.update_sim hf hc hl1 ha fuel key value
    rw [hu] at hsim
    obtain ⟨t', hy, hr', hk2, _⟩ := hsim.ok_left
    have hs2 : Represents h2 s t := hs.of_keeps (hk.trans hk2)
    exact ⟨⟨t', hy, hr'⟩, hs2, fun n k out => by
      rw [LPObject.find_eq hf hs2, LPObject.find_eq hf hs]⟩
  · intro fuel key b h2 c' hu
    have hsim := LPObject.remove_sim hf hc ha fuel key
    rw [hu] at hsim
    obtain ⟨⟨b', t'⟩, hy, hb, hr', hk2, _⟩ := hsim.ok_left
    simp only at hb hr' hk2
    subst hb
    have hs2 : Represents h2 s t := hs.of_keeps (hk.trans hk2)
    exact ⟨⟨t', hy, hr'⟩, hs2, fun n k out => by
      rw [LPObject.find_eq hf hs2, LPObject.find_eq hf hs]⟩
  · intro fuel calls h2 c' hu
    have hsim := LPObject.run_sim hf fuel calls h1 c t hc hl1 ha
    rw [hu] at hsim
    obtain ⟨t', hy, hr', hk2, _⟩ := hsim.ok_left
    have hs2 : Represents h2 s t := hs.of_keeps (hk.trans hk2)
    exact ⟨⟨t', hy, hr'⟩, hs2, fun n k out => by
      rw [LPObject.find_eq hf hs2, LPObject.find_eq hf hs]⟩
  · intro fuel calls t' hy
    have hsim := LPObject.run_sim hf fuel calls h1 c t hc hl1 ha
    rw [hy] at hsim
    obtain ⟨⟨h2, c'⟩, hx, _⟩ := hsim.ok_right
    exact ⟨h2, c', hx⟩

/-- The store `oneKeyStore` and the object `oneKeyObject` are what the
constructor and `update("a", 1)` build on an empty store. -/
theorem oneKeyObject_built :
    LPObject.run String.length 8 [Call.update "a" 1]
      (LPObject.ctor (⟨[], [], []⟩ : Heap Nat) 4 ⟨1, 2⟩).2
      (LPObject.ctor (⟨[], [], []⟩ : Heap Nat) 4 ⟨1, 2⟩).1 = .ok (oneKeyStore, oneKeyObject) := rfl

theorem oneKeyObject_represents : Represents oneKeyStore oneKeyObject oneKeyTable := by
  have hl : (Region.mk (fun _ => False) (fun _ => False) (fun _ => False)).Live
      (LPObject.ctor (⟨[], [], []⟩ : Heap Nat) 4 ⟨1, 2⟩).1 :=
    ⟨fun _ hx => hx.elim, fun _ hx => hx.elim, fun _ hx => hx.elim⟩
  have hs := LPObject.run_sim String.length 8 [Call.update "a" 1] _ _ _
    (LPObject.ctor_represents (⟨[], [], []⟩ : Heap Nat) 4 ⟨1, 2⟩) hl
    ⟨fun _ _ hx => hx, fun _ _ hx => hx, fun _ _ _ hx => hx⟩
  rw [oneKeyObject_built, show LPTable.run String.length 8 [Call.update "a" 1]
    (LPTable.ctor 4 ⟨1, 2⟩) = .ok oneKeyTable from rfl] at hs
  exact hs.1

/-- The two kinds of copy told apart on `oneKeyObject`.  After the copy
constructor, `update("a", 7)` on the copy is seen by `find` on the copy and not
by `find` on the original, which still answers 1.  An object whose two pointers
are those of the original shares the arrays and the record: the same `update`
through it changes what `find` answers on the original. -/
theorem copied_and_shared_records_differ :
    (∃ h1 c h2 c', LPObject.copyCtor oneKeyStore oneKeyObject = .ok (h1, c) ∧
      c.update String.length 8 h1 "a" 7 = .ok (h2, c') ∧
      c'.find String.length 8 h2 "a" 0 = .ok (true, 7) ∧
      oneKeyObject.find String.length 8 h2 "a" 0 = .ok (true, 1)) ∧
    (∃ h2 c', LPObject.update String.length 8
        ⟨oneKeyObject.records_, oneKeyObject.recordStatus_, oneKeyObject.max_,
          oneKeyObject.size_, oneKeyObject.capacity_⟩ oneKeyStore "a" 7 = .ok (h2, c') ∧
      oneKeyObject.find String.length 8 h2 "a" 0 = .ok (true, 7)) :=
  ⟨⟨_, _, _, _, rfl, rfl, rfl, rfl⟩, ⟨_, _, rfl, rfl⟩⟩

end CopyIndependence

/-! ## The claims of the specification -/

section Claims

variable {α : Type}

/-- C1 (round trip). The claim fails on the code: on the table reached by
`LPTable(1, 1.0)` and `update("a", 1)`, a reachable table, `update("b", 2)`
never returns, for any hash function: its search finds neither the key nor an
`Empty` slot. So `update("b", 2)` followed by `find("b")` does not return
`(true, 2)`. -/
theorem round_trip_update_never_returns :
    ∀ hf : String → Nat,
      (LPTable.ctor 1 ⟨1, 1⟩ : LPTable Nat).update hf 1 "a" 1 = .ok fullTable ∧
      Reachable hf fullTable ∧
      ∀ fuel : Nat, fullTable.update hf fuel "b" 2 = .error .outOfFuel := by
  intro hf
  refine ⟨ctor_one_update hf, fullTable_reachable hf, ?_⟩
  intro fuel
  unfold LPTable.update
  rw [fullTable_search hf "b" (by decide) fuel]

/-- C2 (deletion). The claim fails on the code: from `LPTable(1, 1.0)`,
`update("a", 1)` returns, `remove("a")` returns `true`, and the following
`find("a")` never returns, for any hash function: the only slot is `Deleted`,
so the search meets no `Empty` slot. -/
theorem deletion_find_never_returns :
    ∀ hf : String → Nat,
      (LPTable.ctor 1 ⟨1, 1⟩ : LPTable Nat).update hf 1 "a" 1 = .ok fullTable ∧
      fullTable.remove hf 1 "a" = .ok (true, tombstoneTable) ∧
      (∀ (fuel : Nat) (out : Nat), tombstoneTable.find hf fuel "a" out = .error .outOfFuel) ∧
      ∀ fuel : Nat, tombstoneTable.remove hf fuel "a" = .error .outOfFuel := by
  intro hf
  refine ⟨ctor_one_update hf, fullTable_remove hf, ?_, ?_⟩
  · intro fuel out
    unfold LPTable.find
    rw [tombstoneTable_search hf "a" fuel]
  · intro fuel
    unfold LPTable.remove
    rw [tombstoneTable_search hf "a" fuel]

/-- C3 (size accounting). The claim fails on the code: the call sequence
`update("a", 1)`, `update("b", 2)` applied to `LPTable(1, 1.0)` never returns,
for any hash function, while the reference map holds two keys after it: no
`numRecords()` equal to 2 is ever observed. -/
theorem size_accounting_run_never_returns :
    ∀ (hf : String → Nat) (fuel : Nat),
      (LPTable.ctor 1 ⟨1, 1⟩ : LPTable Nat).run hf fuel [.update "a" 1, .update "b" 2]
        = .error .outOfFuel ∧
      (refKeys [Call.update "a" 1, Call.update "b" 2] []).length = 2 := by
  intro hf fuel
  refine ⟨?_, by decide⟩
  cases fuel with
  | zero => rfl
  | succ n =>
    have h1 : (LPTable.ctor 1 ⟨1, 1⟩ : LPTable Nat).update hf (n + 1) "a" 1 = .ok fullTable := by
      simp only [LPTable.update, LPTable.search, LPTable.searchLoop, LPTable.insert,
        LPTable.ctor, Nat.mod_one, INT_MAX, fullTable]
      rfl
    have h2 : fullTable.update hf (n + 1) "b" 2 = .error .outOfFuel := by
      unfold LPTable.update
      rw [fullTable_search hf "b" (by decide) (n + 1)]
    simp only [LPTable.run, h1, h2]

/-- C4 (overwriting update). The claim fails on the code: on the reachable
table left by `LPTable(1, 1.0)`, `update("a", 1)`, `remove("a")`, which holds no
record, the first `update("a", v1)` never returns, for any hash function and
value, so no second `update` and no `find` follow it. -/
theorem overwrite_first_update_never_returns :
    ∀ hf : String → Nat,
      Reachable hf tombstoneTable ∧ tombstoneTable.numRecords = 0 ∧
      ∀ (fuel : Nat) (v1 : Nat), tombstoneTable.update hf fuel "a" v1 = .error .outOfFuel := by
  intro hf
  refine ⟨tombstoneTable_reachable hf, rfl, ?_⟩
  intro fuel v1
  unfold LPTable.update
  rw [tombstoneTable_search hf "a" fuel]

/-- C5 (tombstone transparency). The claim fails on the code: in
`LPTable(1, 1.0)` the keys `"a"` and `"b"` start their probes at the same index
for any hash function; `update("a", 1)` returns and `update("b", 2)` never
does, so `remove("a")` and `find("b")` are not reached. -/
theorem tombstone_scenario_never_returns :
    ∀ hf : String → Nat,
      (hf "a" % SIZE_MOD) % (LPTable.ctor 1 ⟨1, 1⟩ : LPTable Nat).capacity_
        = (hf "b" % SIZE_MOD) % (LPTable.ctor 1 ⟨1, 1⟩ : LPTable Nat).capacity_ ∧
      ∃ t1, (LPTable.ctor 1 ⟨1, 1⟩ : LPTable Nat).update hf 1 "a" 1 = .ok t1 ∧
        ∀ fuel : Nat, t1.update hf fuel "b" 2 = .error .outOfFuel := by
  intro hf
  refine ⟨by simp [LPTable.ctor, Nat.mod_one], fullTable, ctor_one_update hf, ?_⟩
  intro fuel
  unfold LPTable.update
  rw [fullTable_search hf "b" (by decide) fuel]

/-- C7 (remove reports presence and leaves the table alone otherwise). On a
reachable table, for any fuel, `remove(key)` returns `true` exactly when
`find(key)` returns `true`; it returns `true` for some fuel exactly when a slot
stores the key; and when it returns `false` the table is unchanged. -/
theorem remove_true_iff_present (hf : String → Nat) (t : LPTable α) (key : String)
    (fuel : Nat) (out : α) (hreach : Reachable hf t) :
    ((∃ t', t.remove hf fuel key = .ok (true, t')) ↔
        ∃ v, t.find hf fuel key out = .ok (true, v)) ∧
      ((∃ n t', t.remove hf n key = .ok (true, t')) ↔ ∃ v, t.Holds key v) ∧
      ∀ t', t.remove hf fuel key = .ok (false, t') → t' = t := by
  have hwf := hreach.wf
  refine ⟨?_, ?_, ?_⟩
  · unfold LPTable.remove LPTable.find
    cases hs : t.search hf fuel key with
    | error e => simp
    | ok res =>
      cases res with
      | none => simp
      | some idx =>
        obtain ⟨r, hr, hk, _⟩ := searchLoop_sound t key fuel _ idx hs
        have hil : idx < t.records_.length := (List.getElem?_eq_some.mp hr).1
        have hO : t.recordStatus_[idx]? = some 'O' := (hwf.lockstep idx).mp ⟨r, hr⟩
        have his : idx < t.recordStatus_.length := (List.getElem?_eq_some.mp hO).1
        have hsz : ¬ t.size_ - 1 < INT_MIN := by
          have h1 := hwf.size_eq
          have h3 := INT_MIN_neg
          omega
        simp only [hr]
        rw [if_pos ⟨hil, his⟩, if_neg hsz]
        constructor
        · intro _; exact ⟨_, rfl⟩
        · intro _; exact ⟨_, rfl⟩
  · constructor
    · rintro ⟨n, t', hrm⟩
      obtain ⟨_, _, hcase⟩ := remove_sound hwf hrm
      rcases hcase with ⟨hb, _⟩ | ⟨_, i, r, hr, hk, _⟩
      · simp at hb
      · refine ⟨r.data_, i, ?_⟩
        rw [hr, ← hk]
    · rintro ⟨v, hh⟩
      obtain ⟨t', ht'⟩ := remove_total_present hwf hh (Nat.le_refl _)
      exact ⟨_, t', ht'⟩
  · intro t' hrm
    obtain ⟨_, _, hcase⟩ := remove_sound hwf hrm
    rcases hcase with ⟨_, ht, _⟩ | ⟨hb, _⟩
    · exact ht
    · simp at hb

/-- The claim C7 on the table that `LPTable(4, 0.5)` and `update("a", 1)` build,
for the stored key `"a"`. -/
theorem remove_true_iff_present_witness :
    Reachable String.length oneKeyTable ∧
    (((∃ t', oneKeyTable.remove String.length 8 "a" = .ok (true, t')) ↔
        ∃ v, oneKeyTable.find String.length 8 "a" 0 = .ok (true, v)) ∧
      ((∃ n t', oneKeyTable.remove String.length n "a" = .ok (true, t')) ↔
        ∃ v, oneKeyTable.Holds "a" v) ∧
      ∀ t', oneKeyTable.remove String.length 8 "a" = .ok (false, t') → t' = oneKeyTable) :=
  ⟨oneKeyTable_reachable,
    remove_true_iff_present String.length oneKeyTable "a" 8 0 oneKeyTable_reachable⟩

/-- C8 (totality). The claim fails on the code: on the table reached by
`LPTable(1, 1.0)` and `update("a", 1)`, none of `find("b")`, `remove("b")` and
`update("b", 2)` returns, for any hash function: the probe loop of `search`
meets neither the key nor an `Empty` slot, whatever the number of steps. -/
theorem search_loop_never_stops_on_full_table :
    ∀ hf : String → Nat,
      Reachable hf fullTable ∧
      (∀ (fuel : Nat) (out : Nat), fullTable.find hf fuel "b" out = .error .outOfFuel) ∧
      (∀ fuel : Nat, fullTable.remove hf fuel "b" = .error .outOfFuel) ∧
      (∀ fuel : Nat, fullTable.update hf fuel "b" 2 = .error .outOfFuel) ∧
      ∀ fuel h : Nat, fullTable.searchLoop "b" fuel h = .error .outOfFuel := by
  intro hf
  have hs := fullTable_search hf "b" (by decide)
  refine ⟨fullTable_reachable hf, ?_, ?_, ?_, ?_⟩
  · intro fuel out
    unfold LPTable.find
    rw [hs fuel]
  · intro fuel
    unfold LPTable.remove
    rw [hs fuel]
  · intro fuel
    unfold LPTable.update
    rw [hs fuel]
  · intro fuel h
    apply searchLoop_full_outOfFuel fullTable "b" (by decide)
    · intro i hi
      have : i = 0 := by simp only [fullTable] at hi; omega
      subst this
      exact ⟨'O', rfl, by decide⟩
    · intro i hi
      have : i = 0 := by simp only [fullTable] at hi; omega
      subst this
      exact Or.inr ⟨⟨1, "a"⟩, rfl, by decide⟩

/-- C9, the claim as stated fails. After the move constructor the source has
capacity 0 and `find` on it computes a remainder by zero; after a move
assignment into a table that held a record, the source holds that record and
is not empty. -/
theorem move_source_not_valid_empty :
    ((LPTable.moveCtor (LPTable.ctor 4 ⟨1, 2⟩ : LPTable Nat)).2.capacity_ = 0 ∧
      (LPTable.moveCtor (LPTable.ctor 4 ⟨1, 2⟩ : LPTable Nat)).2.find String.length 1 "a" 0
        = .error .divByZero) ∧
    ∃ d, (LPTable.ctor 4 ⟨1, 2⟩ : LPTable Nat).update String.length 8 "a" 1 = .ok d ∧
      (LPTable.moveAssign d (LPTable.ctor 4 ⟨1, 2⟩)).2.isEmpty = false ∧
      (LPTable.moveAssign d (LPTable.ctor 4 ⟨1, 2⟩)).2.numRecords = 1 :=
  ⟨⟨rfl, rfl⟩, _, rfl, rfl, rfl⟩

/-- C9, amended. The move constructor gives the destination exactly the state
of the source, so the destination answers `find` and `numRecords` as the source
did; it leaves the source with size 0 (`isEmpty()` is true), threshold 0,
capacity 0 and null arrays, on which `find`, `remove` and `update` compute a
remainder by zero. The move assignment swaps the two states: the destination
gets the state of the source, and the source gets the previous state of the
destination. -/
theorem move_transfers_state (hf : String → Nat) (this other : LPTable α) :
    (LPTable.moveCtor other).1 = other ∧
    (∀ fuel key out, (LPTable.moveCtor other).1.find hf fuel key out = other.find hf fuel key out) ∧
    (LPTable.moveCtor other).1.numRecords = other.numRecords ∧
    (LPTable.moveCtor other).2.numRecords = 0 ∧
    (LPTable.moveCtor other).2.isEmpty = true ∧
    (LPTable.moveCtor other).2 =
      { records_ := [], recordStatus_ := [], max_ := 0, size_ := 0, capacity_ := 0 } ∧
    (∀ fuel key out,
      (LPTable.moveCtor other).2.find hf (fuel + 1) key out = .error .divByZero) ∧
    (∀ fuel key, (LPTable.moveCtor other).2.remove hf (fuel + 1) key = .error .divByZero) ∧
    (∀ fuel key value,
      (LPTable.moveCtor other).2.update hf (fuel + 1) key value = .error .divByZero) ∧
    LPTable.moveAssign this other = (other, this) ∧
    (∀ fuel key out,
      (LPTable.moveAssign this other).1.find hf fuel key out = other.find hf fuel key out) ∧
    (LPTable.moveAssign this other).1.numRecords = other.numRecords := by
  refine ⟨rfl, fun _ _ _ => rfl, rfl, rfl, rfl, rfl, fun _ _ _ => rfl, fun _ _ => rfl,
    fun _ _ _ => rfl, rfl, fun _ _ _ => rfl, rfl⟩

theorem copyLoop_range (s : LPTable α) (hr : s.records_.length = s.capacity_)
    (hs : s.recordStatus_.length = s.capacity_) :
    s.copyLoop (List.range s.capacity_) = .ok (s.records_, s.recordStatus_) := by
  have key : ∀ (rs : List (Option (Record α))) (sts : List Char) (n : Nat),
      rs.length = sts.length → s.records_.drop n = rs → s.recordStatus_.drop n = sts →
      s.copyLoop (List.range' n rs.length) = .ok (rs, sts) := by
    intro rs
    induction rs with
    | nil =>
      intro sts n hl _ _
      have : sts = [] := List.length_eq_zero.mp (by simpa using hl.symm)
      subst this
      rfl
    | cons r rest ih =>
      intro sts n hl hd1 hd2
      cases sts with
      | nil => simp at hl
      | cons st srest =>
        have h1 : s.records_[n]? = some r := by
          have := congrArg (fun l => l[0]?) hd1
          simpa [List.getElem?_drop] using this
        have h2 : s.recordStatus_[n]? = some st := by
          have := congrArg (fun l => l[0]?) hd2
          simpa [List.getElem?_drop] using this
        have h3 : s.records_.drop (n + 1) = rest := by
          rw [← List.drop_drop, hd1]; rfl
        have h4 : s.recordStatus_.drop (n + 1) = srest := by
          rw [← List.drop_drop, hd2]; rfl
        simp only [List.length_cons, List.range'_succ, LPTable.copyLoop, h1, h2]
        rw [ih srest (n + 1) (by simpa using hl) h3 h4]
        cases r <;> rfl
  have := key s.records_ s.recordStatus_ 0 (by rw [hr, hs]) rfl rfl
  rw [List.range_eq_range', ← hr]
  exact this

/-- C10 (copy). Let the object `s` hold a reachable table `t` in the free
store `h`. The copy constructor returns, and so does the copy assignment to any
other object `d`, whether `d` holds a reachable table in storage disjoint from
that of `s` (whatever that table is) or is in the state a move leaves; a self
assignment returns and changes nothing. The object `c` that either call yields,
in the store `h1` it leaves, has the capacity, threshold and size of `s` and the
same status and the same record in every slot, so it holds `t` and `find`
answers on it as on `s` for every key. It shares no array and no record with
`s`: a later `update` or `remove` of `c`, or a sequence of them, changes `c` as
it changes the table, and leaves `s` holding `t` and every answer of `find` on
`s` as it was; and the sequence returns on `c` whenever it returns on the
table. -/
theorem copy_is_deep_and_independent (hf : String → Nat) (h : Heap α) (s : LPObject)
    (t : LPTable α) (hreach : Reachable hf t) (hs : Represents h s t) :
    (∃ h1 c, LPObject.copyCtor h s = .ok (h1, c)) ∧
    (∀ d : LPObject,
      ((∃ td : LPTable α, Reachable hf td ∧ Represents h d td ∧ (s.region h).Apart h d) ∨
        (d.records_ = none ∧ d.recordStatus_ = none ∧ d.capacity_ = 0)) →
      ∃ h1 c, LPObject.copyAssign h d s false = .ok (h1, c)) ∧
    LPObject.copyAssign h s s true = .ok (h, s) ∧
    ∀ (h1 : Heap α) (c : LPObject),
      (LPObject.copyCtor h s = .ok (h1, c) ∨
        ∃ d : LPObject,
          ((∃ td : LPTable α, Reachable hf td ∧ Represents h d td ∧ (s.region h).Apart h d) ∨
            (d.records_ = none ∧ d.recordStatus_ = none ∧ d.capacity_ = 0)) ∧
          LPObject.copyAssign h d s false = .ok (h1, c)) →
      Represents h1 c t ∧
      (c.capacity_ = s.capacity_ ∧ c.max_ = s.max_ ∧ c.size_ = s.size_) ∧
      (∀ i : Nat, h1.statusAt c.recordStatus_ i = h.statusAt s.recordStatus_ i ∧
        h1.slotAt c.records_ i = h.slotAt s.records_ i) ∧
      Represents h1 s t ∧
      (c.records_ ≠ s.records_ ∧ c.recordStatus_ ≠ s.recordStatus_ ∧
        ∀ (i j p : Nat), h1.pointerAt c.records_ i = some (some p) →
          h1.pointerAt s.records_ j ≠ some (some p)) ∧
      (∀ fuel key out, c.find hf fuel h1 key out = s.find hf fuel h key out ∧
        s.find hf fuel h1 key out = s.find hf fuel h key out) ∧
      (∀ fuel key value h2 c', c.update hf fuel h1 key value = .ok (h2, c') →
        (∃ t', t.update hf fuel key value = .ok t' ∧ Represents h2 c' t') ∧
        Represents h2 s t ∧ ∀ n k out, s.find hf n h2 k out = s.find hf n h k out) ∧
      (∀ fuel key b h2 c', c.remove hf fuel h1 key = .ok (b, h2, c') →
        (∃ t', t.remove hf fuel key = .ok (b, t') ∧ Represents h2 c' t') ∧
        Represents h2 s t ∧ ∀ n k out, s.find hf n h2 k out = s.find hf n h k out) ∧
      (∀ fuel calls h2 c', LPObject.run hf fuel calls c h1 = .ok (h2, c') →
        (∃ t', LPTable.run hf fuel calls t = .ok t' ∧ Represents h2 c' t') ∧
        Represents h2 s t ∧ ∀ n k out, s.find hf n h2 k out = s.find hf n h k out) ∧
      (∀ fuel calls t', LPTable.run hf fuel calls t = .ok t' →
        ∃ h2 c', LPObject.run hf fuel calls c h1 = .ok (h2, c')) := by
  have hwf := hreach.wf
  have hdest : ∀ d : LPObject,
      ((∃ td : LPTable α, Reachable hf td ∧ Represents h d td ∧ (s.region h).Apart h d) ∨
        (d.records_ = none ∧ d.recordStatus_ = none ∧ d.capacity_ = 0)) →
      ∃ h1 c, LPObject.copyAssign h d s false = .ok (h1, c) ∧ Represents h1 c t ∧
        (s.region h).Keeps h h1 ∧ (s.region h).Apart h1 c := by
    intro d hd
    refine LPObject.copyAssign_spec hs ?_ hwf.len_records hwf.len_status
    rcases hd with ⟨td, hrd, hd, hap⟩ | hnull
    · exact Or.inl ⟨td, hd, le_of_eq hrd.wf.len_records.symm, hap⟩
    · exact Or.inr hnull
  refine ⟨?_, ?_, rfl, ?_⟩
  · obtain ⟨h1, c, hc, _⟩ := LPObject.copyCtor_spec hs hwf.len_records hwf.len_status
    exact ⟨h1, c, hc⟩
  · intro d hd
    obtain ⟨h1, c, hc, _⟩ := hdest d hd
    exact ⟨h1, c, hc⟩
  · intro h1 c hcopy
    have hfacts : Represents h1 c t ∧ (s.region h).Keeps h h1 ∧ (s.region h).Apart h1 c := by
      rcases hcopy with hcopy | ⟨d, hd, hcopy⟩
      · obtain ⟨h1', c', hc, hr, hk, ha⟩ :=
          LPObject.copyCtor_spec hs hwf.len_records hwf.len_status
        rw [hcopy] at hc
        simp only [Except.ok.injEq, Prod.mk.injEq] at hc
        obtain ⟨e1, e2⟩ := hc
        subst e1 e2
        exact ⟨hr, hk, ha⟩
      · obtain ⟨h1', c', hc, hr, hk, ha⟩ := hdest d hd
        rw [hcopy] at hc
        simp only [Except.ok.injEq, Prod.mk.injEq] at hc
        obtain ⟨e1, e2⟩ := hc
        subst e1 e2
        exact ⟨hr, hk, ha⟩
    obtain ⟨hr, hk, ha⟩ := hfacts
    exact ⟨hr, LPObject.independent_of_apart hf hs hr hk ha⟩

/-- The claim C10 on the object that `LPTable(4, 0.5)` and `update("a", 1)`
build on an empty store: it is copied, the copy is then the destination of a
copy assignment, and so is an object in the state a move leaves. -/
theorem copy_is_deep_and_independent_witness :
    Reachable String.length oneKeyTable ∧ Represents oneKeyStore oneKeyObject oneKeyTable ∧
    (∃ h1 c, LPObject.copyCtor oneKeyStore oneKeyObject = .ok (h1, c) ∧
      Represents h1 c oneKeyTable ∧ (oneKeyObject.region h1).Apart h1 c ∧
      ∃ h2 c2, LPObject.copyAssign h1 c oneKeyObject false = .ok (h2, c2)) ∧
    (∃ h1 c, LPObject.copyAssign oneKeyStore ⟨none, none, 0, 0, 0⟩ oneKeyObject false
      = .ok (h1, c)) ∧
    LPObject.copyAssign oneKeyStore oneKeyObject oneKeyObject true
      = .ok (oneKeyStore, oneKeyObject) := by
  have hthm := copy_is_deep_and_independent String.length oneKeyStore oneKeyObject oneKeyTable
    oneKeyTable_reachable oneKeyObject_represents
  refine ⟨oneKeyTable_reachable, oneKeyObject_represents, ?_,
    hthm.2.1 ⟨none, none, 0, 0, 0⟩ (Or.inr ⟨rfl, rfl, rfl⟩), hthm.2.2.1⟩
  obtain ⟨h1, c, hc⟩ := hthm.1
  obtain ⟨hrc, _, _, hrs, ⟨hne1, hne2, hne3⟩, _⟩ := hthm.2.2.2 h1 c (Or.inl hc)
  have hap : (oneKeyObject.region h1).Apart h1 c :=
    ⟨fun a ha hx => hne1 (ha.trans hx.symm), fun b hb hx => hne2 (hb.trans hx.symm),
      fun i p hp hx => hx.elim (fun j hj => hne3 i j p hp hj)⟩
  exact ⟨h1, c, hc, hrc, hap,
    (copy_is_deep_and_independent String.length h1 oneKeyObject oneKeyTable
      oneKeyTable_reachable hrs).2.1 c (Or.inl ⟨oneKeyTable, oneKeyTable_reachable, hrc, hap⟩)⟩

end Claims

/-! ## The claims on the invariants and on the frame of the operations -/

section ClaimsTwo

variable {α : Type}

/-- C12 (key uniqueness). In a reachable table any two distinct `Occupied`
slots hold records, and the keys of the two records differ. -/
theorem occupied_slots_hold_distinct_keys (hf : String → Nat) (t : LPTable α)
    (i j : Nat) (hreach : Reachable hf t) (hij : i ≠ j)
    (hi : t.recordStatus_[i]? = some 'O') (hj : t.recordStatus_[j]? = some 'O') :
    ∃ ri rj, t.records_[i]? = some (some ri) ∧ t.records_[j]? = some (some rj) ∧
      ri.key_ ≠ rj.key_ := by
  have hwf := hreach.wf
  obtain ⟨ri, hri⟩ := (hwf.lockstep i).mpr hi
  obtain ⟨rj, hrj⟩ := (hwf.lockstep j).mpr hj
  exact ⟨ri, rj, hri, hrj, fun hk => hij (hwf.unique i j ri rj hri hrj hk)⟩

/-- The claim C12 on the slots 1 and 2 of a table with two colliding keys. -/
theorem occupied_slots_hold_distinct_keys_witness :
    Reachable String.length twoKeyTable ∧ (1 : Nat) ≠ 2 ∧
    twoKeyTable.recordStatus_[1]? = some 'O' ∧ twoKeyTable.recordStatus_[2]? = some 'O' ∧
    ∃ ri rj, twoKeyTable.records_[1]? = some (some ri) ∧
      twoKeyTable.records_[2]? = some (some rj) ∧ ri.key_ ≠ rj.key_ :=
  ⟨twoKeyTable_reachable, by decide, rfl, rfl,
    occupied_slots_hold_distinct_keys String.length twoKeyTable 1 2
      twoKeyTable_reachable (by decide) rfl rfl⟩

/-- C17 (size equals the `Occupied` count). In a reachable table `size_` is the
number of slots whose status is `'O'`, and it lies between 0 and `capacity_`. -/
theorem size_is_occupied_count (hf : String → Nat) (t : LPTable α) (hreach : Reachable hf t) :
    t.size_ = ((t.recordStatus_.count 'O' : Nat) : Int) ∧ t.numRecords = t.size_ ∧
      0 ≤ t.size_ ∧ t.size_ ≤ (t.capacity_ : Int) := by
  have hwf := hreach.wf
  have h1 := hwf.size_eq
  have h2 := List.count_le_length 'O' t.recordStatus_
  have h3 := hwf.len_status
  refine ⟨h1, rfl, ?_, ?_⟩ <;> omega

/-- The claim C17 on a table with two records. -/
theorem size_is_occupied_count_witness :
    Reachable String.length twoKeyTable ∧
    (twoKeyTable.size_ = ((twoKeyTable.recordStatus_.count 'O' : Nat) : Int) ∧
      twoKeyTable.numRecords = twoKeyTable.size_ ∧
      0 ≤ twoKeyTable.size_ ∧ twoKeyTable.size_ ≤ (twoKeyTable.capacity_ : Int)) :=
  ⟨twoKeyTable_reachable, size_is_occupied_count String.length twoKeyTable twoKeyTable_reachable⟩

/-- C16 (remove of a present key). When `remove(key)` returns `true` on a
reachable table, one slot held `key` and was `Occupied`; afterwards that slot is
`Deleted` and holds no record, every other slot has the status and the record
it had, `size_` is smaller by exactly 1, and `capacity_` and `max_` are
unchanged. -/
theorem remove_changes_one_slot (hf : String → Nat) (t t' : LPTable α) (fuel : Nat)
    (key : String) (hreach : Reachable hf t) (hrm : t.remove hf fuel key = .ok (true, t')) :
    ∃ (i : Nat) (r : Record α), t.records_[i]? = some (some r) ∧ r.key_ = key ∧
      t.recordStatus_[i]? = some 'O' ∧
      t'.recordStatus_[i]? = some 'D' ∧ t'.records_[i]? = some none ∧
      (∀ j : Nat, j ≠ i → t'.recordStatus_[j]? = t.recordStatus_[j]? ∧
        t'.records_[j]? = t.records_[j]?) ∧
      t'.recordStatus_.length = t.recordStatus_.length ∧
      t'.records_.length = t.records_.length ∧
      t'.size_ = t.size_ - 1 ∧ t'.capacity_ = t.capacity_ ∧ t'.max_ = t.max_ := by
  have hwf := hreach.wf
  obtain ⟨_, _, hcase⟩ := remove_sound hwf hrm
  rcases hcase with ⟨hb, _⟩ | ⟨_, i, r, hr, hk, ht'⟩
  · simp at hb
  · have hO : t.recordStatus_[i]? = some 'O' := (hwf.lockstep i).mp ⟨r, hr⟩
    have hil : i < t.records_.length := (List.getElem?_eq_some.mp hr).1
    have his : i < t.recordStatus_.length := (List.getElem?_eq_some.mp hO).1
    subst ht'
    refine ⟨i, r, hr, hk, hO, List.getElem?_set_self his, List.getElem?_set_self hil, ?_,
      by simp, by simp, rfl, rfl, rfl⟩
    intro j hj
    exact ⟨List.getElem?_set_ne (fun h => hj h.symm), List.getElem?_set_ne (fun h => hj h.symm)⟩

/-- The claim C16 on the removal of `"a"` from a table holding `"a"` and
`"b"`. -/
theorem remove_changes_one_slot_witness :
    Reachable String.length twoKeyTable ∧
    twoKeyTable.remove String.length 8 "a" = .ok (true,
      { records_ := [none, none, some ⟨2, "b"⟩, none]
        recordStatus_ := ['E', 'D', 'O', 'E'], max_ := 3, size_ := 1, capacity_ := 4 }) ∧
    ∃ (i : Nat) (r : Record Nat), twoKeyTable.records_[i]? = some (some r) ∧ r.key_ = "a" ∧
      twoKeyTable.recordStatus_[i]? = some 'O' :=
  ⟨twoKeyTable_reachable, rfl,
    match remove_changes_one_slot String.length twoKeyTable _ 8 "a" twoKeyTable_reachable rfl with
    | ⟨i, r, h1, h2, h3, _⟩ => ⟨i, r, h1, h2, h3⟩⟩

theorem copyCtor_eq_of_shape (s c : LPTable α) (hr : s.records_.length = s.capacity_)
    (hs : s.recordStatus_.length = s.capacity_) (hc : s.copyCtor = .ok c) : c = s := by
  unfold LPTable.copyCtor at hc
  rw [copyLoop_range s hr hs] at hc
  simp only [Except.ok.injEq] at hc
  exact hc.symm

theorem searchLoop_ne_nullDeref (t : LPTable α) (key : String) :
    ∀ n h, t.searchLoop key n h ≠ .error .nullDeref := by
  intro n
  induction n with
  | zero => intro h; simp [LPTable.searchLoop]
  | succ m ih =>
    intro h
    rw [LPTable.searchLoop]
    split
    · simp
    · split
      · simp
      · split
        · simp
        · split
          · simp
          · exact ih _
          · split
            · simp
            · exact ih _

theorem searchLoop_ne_outOfBounds {hf : String → Nat} {t : LPTable α} (hc : t.Core hf)
    (key : String) : ∀ n h, t.searchLoop key n h ≠ .error .outOfBounds := by
  have hcap : t.capacity_ ≠ 0 := Nat.pos_iff_ne_zero.mp hc.cap_pos
  intro n
  induction n with
  | zero => intro h; simp [LPTable.searchLoop]
  | succ m ih =>
    intro h
    obtain ⟨st, hst⟩ := hc.status_some (Nat.mod_lt h hc.cap_pos)
    obtain ⟨o, ho⟩ := hc.record_some (Nat.mod_lt h hc.cap_pos)
    rw [LPTable.searchLoop]
    simp only [hcap, if_false, hst, ho]
    split
    · simp
    · cases o with
      | none => exact ih _
      | some r =>
        simp only
        split
        · simp
        · exact ih _

/-- C20 (lockstep). In a reachable table, in the table that `grow` makes of it
and in a copy of it, every index below `capacity_` has a record pointer and a
status, and the record pointer is non-null exactly when the status is `'O'`.
`search` returns only indices whose record is non-null and whose status is
`'O'`, so `find` dereferences no null record and reads inside the arrays. -/
theorem arrays_stay_in_lockstep (hf : String → Nat) (t : LPTable α) (hreach : Reachable hf t) :
    (∀ i : Nat, i < t.capacity_ →
      (∃ o, t.records_[i]? = some o) ∧ (∃ st, t.recordStatus_[i]? = some st) ∧
      ((∃ r, t.records_[i]? = some (some r)) ↔ t.recordStatus_[i]? = some 'O')) ∧
    (∀ (fuel : Nat) (g : LPTable α), t.grow hf fuel = .ok g → ∀ i : Nat, i < g.capacity_ →
      (∃ o, g.records_[i]? = some o) ∧ (∃ st, g.recordStatus_[i]? = some st) ∧
      ((∃ r, g.records_[i]? = some (some r)) ↔ g.recordStatus_[i]? = some 'O')) ∧
    (∀ c : LPTable α, t.copyCtor = .ok c → ∀ i : Nat, i < c.capacity_ →
      (∃ o, c.records_[i]? = some o) ∧ (∃ st, c.recordStatus_[i]? = some st) ∧
      ((∃ r, c.records_[i]? = some (some r)) ↔ c.recordStatus_[i]? = some 'O')) ∧
    (∀ (fuel : Nat) (key : String) (i : Nat), t.search hf fuel key = .ok (some i) →
      ∃ r, t.records_[i]? = some (some r) ∧ r.key_ = key ∧ t.recordStatus_[i]? = some 'O') ∧
    (∀ (fuel : Nat) (key : String) (out : α),
      t.find hf fuel key out ≠ .error .nullDeref ∧
      t.find hf fuel key out ≠ .error .outOfBounds) := by
  have hwf := hreach.wf
  have hcore : ∀ g : LPTable α, g.Core hf → ∀ i : Nat, i < g.capacity_ →
      (∃ o, g.records_[i]? = some o) ∧ (∃ st, g.recordStatus_[i]? = some st) ∧
      ((∃ r, g.records_[i]? = some (some r)) ↔ g.recordStatus_[i]? = some 'O') :=
    fun g hg i hi => ⟨hg.record_some hi, hg.status_some hi, hg.lockstep i⟩
  have hsearch : ∀ (fuel : Nat) (key : String) (i : Nat), t.search hf fuel key = .ok (some i) →
      ∃ r, t.records_[i]? = some (some r) ∧ r.key_ = key ∧ t.recordStatus_[i]? = some 'O' := by
    intro fuel key i hs
    obtain ⟨r, hr, hk, _⟩ := searchLoop_sound t key fuel _ i hs
    exact ⟨r, hr, hk, (hwf.lockstep i).mp ⟨r, hr⟩⟩
  refine ⟨hcore t hwf.toCore, ?_, ?_, hsearch, ?_⟩
  · intro fuel g hg
    exact hcore g (grow_sound hwf.toCore hg).1
  · intro c hc
    rw [copyCtor_eq_of_shape t c hwf.len_records hwf.len_status hc]
    exact hcore t hwf.toCore
  · intro fuel key out
    unfold LPTable.find
    cases hs : t.search hf fuel key with
    | error e =>
      simp only
      constructor
      · intro h
        simp only [Except.error.injEq] at h
        exact searchLoop_ne_nullDeref t key fuel _ (by rw [← h]; exact hs)
      · intro h
        simp only [Except.error.injEq] at h
        exact searchLoop_ne_outOfBounds hwf.toCore key fuel _ (by rw [← h]; exact hs)
    | ok res =>
      cases res with
      | none => simp
      | some i =>
        obtain ⟨r, hr, _, _⟩ := hsearch fuel key i hs
        simp [hr]

/-- The claim C20 on a table with two records, at its `Occupied` slot 1 and
its `Empty` slot 3. -/
theorem arrays_stay_in_lockstep_witness :
    Reachable String.length twoKeyTable ∧
    ((∃ r, twoKeyTable.records_[1]? = some (some r)) ↔
      twoKeyTable.recordStatus_[1]? = some 'O') ∧
    ((∃ r, twoKeyTable.records_[3]? = some (some r)) ↔
      twoKeyTable.recordStatus_[3]? = some 'O') :=
  ⟨twoKeyTable_reachable,
    ((arrays_stay_in_lockstep String.length twoKeyTable twoKeyTable_reachable).1 1
      (by decide)).2.2,
    ((arrays_stay_in_lockstep String.length twoKeyTable twoKeyTable_reachable).1 3
      (by decide)).2.2⟩

/-- C15 (postcondition of `grow`). On a table that satisfies the data-model
invariant and whose doubled capacity is an `int`, `grow` returns a table with
twice the capacity and twice the threshold and with the same size. The new
table has no `Deleted` slot: a slot is `Occupied` when it holds a record and
`Empty` otherwise. Its records are the old records, as multisets, and each
record is reached from the hash of its key, taken modulo the new capacity,
through `Occupied` slots only. The new table satisfies the data-model
invariant. -/
theorem grow_postcondition (hf : String → Nat) (t : LPTable α) (fuel : Nat) (hwf : t.WF hf)
    (hint : 2 * (t.capacity_ : Int) ≤ INT_MAX) (hfuel : 4 * t.capacity_ ≤ fuel) :
    ∃ g, t.grow hf fuel = .ok g ∧
      g.capacity_ = 2 * t.capacity_ ∧ g.max_ = 2 * t.max_ ∧ g.size_ = t.size_ ∧
      (∀ st, st ∈ g.recordStatus_ → st = 'E' ∨ st = 'O') ∧
      (∀ i : Nat, i < g.capacity_ →
        ((∃ r, g.records_[i]? = some (some r)) ∧ g.recordStatus_[i]? = some 'O') ∨
        (g.records_[i]? = some none ∧ g.recordStatus_[i]? = some 'E')) ∧
      (g.records_.filterMap id).Perm (t.records_.filterMap id) ∧
      (∀ (i : Nat) (r : Record α), g.records_[i]? = some (some r) →
        ∃ j : Nat, advance (hf r.key_ % SIZE_MOD) j % g.capacity_ = i ∧
          ∀ j' : Nat, j' < j →
            g.recordStatus_[advance (hf r.key_ % SIZE_MOD) j' % g.capacity_]? = some 'O') ∧
      g.WF hf := by
  have hmax : 2 * t.max_ ≤ INT_MAX ∧ INT_MIN ≤ 2 * t.max_ := by
    have h1 := hwf.max_nonneg
    have h2 := hwf.max_le
    have h3 := INT_MIN_neg
    constructor <;> omega
  obtain ⟨g, hg⟩ := grow_total hwf.toCore hint hmax hfuel
  obtain ⟨g1, g2, g3, g4, g5, g6, g7, _⟩ := grow_sound hwf.toCore hg
  have hEO : ∀ i : Nat, i < g.capacity_ →
      g.recordStatus_[i]? = some 'E' ∨ g.recordStatus_[i]? = some 'O' := by
    intro i hi
    obtain ⟨st, hst⟩ := g1.status_some hi
    rcases g7 st (List.mem_iff_getElem?.mpr ⟨i, hst⟩) with h | h
    · left; rw [hst, h]
    · right; rw [hst, h]
  have hgwf : g.WF hf := by
    refine ⟨g1, ?_, ?_, ?_⟩
    · rw [g4, g6]; exact hwf.size_eq
    · rw [g3]; have := hwf.max_nonneg; omega
    · rw [g3, g2]; have := hwf.max_le; push_cast; omega
  refine ⟨g, hg, g2, g3, g4, g7, ?_, ?_, ?_, hgwf⟩
  · intro i hi
    obtain ⟨o, ho⟩ := g1.record_some hi
    rcases hEO i hi with h | h
    · right
      refine ⟨?_, h⟩
      cases o with
      | none => exact ho
      | some r =>
        have := (g1.lockstep i).mp ⟨r, ho⟩
        rw [h] at this
        simp at this
    · left
      exact ⟨(g1.lockstep i).mpr h, h⟩
  · rw [List.perm_ext_iff_of_nodup g1.records_nodup hwf.toCore.records_nodup]
    intro r
    rw [mem_filterMap_id_iff, mem_filterMap_id_iff]
    exact g5 r
  · intro i r hr
    obtain ⟨j, hj, hall⟩ := g1.chain i r hr
    refine ⟨j, hj, ?_⟩
    intro j' hj'
    rcases hEO _ (Nat.mod_lt (advance (hf r.key_ % SIZE_MOD) j') g1.cap_pos) with h | h
    · exact absurd h (hall j' hj')
    · exact h

/-- The claim C15 on a table holding one tombstone and one record: `grow`
drops the tombstone and re-inserts the record. -/
theorem grow_postcondition_witness :
    Reachable String.length oneTombstoneTable ∧
    ∃ g, oneTombstoneTable.grow String.length 16 = .ok g ∧
      g.capacity_ = 2 * oneTombstoneTable.capacity_ ∧ g.max_ = 2 * oneTombstoneTable.max_ ∧
      g.size_ = oneTombstoneTable.size_ ∧
      ∀ st, st ∈ g.recordStatus_ → st = 'E' ∨ st = 'O' :=
  ⟨oneTombstoneTable_reachable,
    match grow_postcondition String.length oneTombstoneTable 16
      oneTombstoneTable_reachable.wf (by decide) (by decide) with
    | ⟨g, h1, h2, h3, h4, h5, _⟩ => ⟨g, h1, h2, h3, h4, h5⟩⟩

/-- C11, the claim as stated fails. Under a hash function that sends `"w"` to
the largest `size_t`, `LPTable(7, 0.5)`, `update("a", 1)`, `update("w", 2)` put
`"w"` into slot 0: its probe starts at slot 1, which holds `"a"`, and
`++hashIdx` wraps around to 0. The cyclic path from slot 1 up to slot 0 runs
over the slots 2 to 6, which are `Empty`. -/
theorem cyclic_path_has_empty_slot :
    (LPTable.ctor 7 ⟨1, 2⟩ : LPTable Nat).run wrapHash 8 [.update "a" 1, .update "w" 2]
      = .ok wrapTable ∧
    Reachable wrapHash wrapTable ∧
    wrapTable.records_[0]? = some (some ⟨2, "w"⟩) ∧
    wrapHash "w" % SIZE_MOD % wrapTable.capacity_ = 1 ∧
    wrapTable.recordStatus_[2]? = some 'E' ∧
    ¬ wrapTable.cyclicChain wrapHash := by
  refine ⟨rfl, wrapTable_reachable, rfl, by decide, rfl, ?_⟩
  intro hcyc
  have h := hcyc 0 ⟨2, "w"⟩ rfl rfl 1 (by decide)
  revert h
  decide

/-- C11, amended. In a reachable table, for every record stored in a slot `i`:
the slot is `Occupied`; the probe sequence of `search` for the key of the
record, the slots `((hash(key) + j) mod 2^64) mod capacity` for `j = 0, 1, ...`,
reaches `i` after slots that are all `Occupied` or `Deleted`; so `search(key)`
returns `i`. That sequence is the cyclic path from `hash(key) mod capacity`
when the capacity divides `2^64` or `hash(key) + capacity <= 2^64`, and then
every slot of the cyclic path up to but excluding `i` is `Occupied` or
`Deleted`. -/
theorem probe_chain_of_stored_key (hf : String → Nat) (t : LPTable α) (i : Nat)
    (r : Record α) (hreach : Reachable hf t) (hr : t.records_[i]? = some (some r)) :
    t.recordStatus_[i]? = some 'O' ∧
    (∃ j : Nat, (hf r.key_ % SIZE_MOD + j) % SIZE_MOD % t.capacity_ = i ∧
      ∀ j' : Nat, j' < j →
        t.recordStatus_[(hf r.key_ % SIZE_MOD + j') % SIZE_MOD % t.capacity_]? = some 'O' ∨
        t.recordStatus_[(hf r.key_ % SIZE_MOD + j') % SIZE_MOD % t.capacity_]? = some 'D') ∧
    (∀ fuel : Nat, 2 * t.capacity_ ≤ fuel → t.search hf fuel r.key_ = .ok (some i)) ∧
    (SIZE_MOD % t.capacity_ = 0 ∨ hf r.key_ % SIZE_MOD + t.capacity_ ≤ SIZE_MOD →
      ∀ d : Nat, d < (i + t.capacity_ - hf r.key_ % SIZE_MOD % t.capacity_) % t.capacity_ →
        t.recordStatus_[(hf r.key_ % SIZE_MOD % t.capacity_ + d) % t.capacity_]? = some 'O' ∨
        t.recordStatus_[(hf r.key_ % SIZE_MOD % t.capacity_ + d) % t.capacity_]? = some 'D') := by
  have hwf := hreach.wf
  have hh : hf r.key_ % SIZE_MOD < SIZE_MOD := Nat.mod_lt _ SIZE_MOD_pos
  have hOD : ∀ s : Nat, s < t.capacity_ → t.recordStatus_[s]? ≠ some 'E' →
      t.recordStatus_[s]? = some 'O' ∨ t.recordStatus_[s]? = some 'D' := by
    intro s hs hne
    obtain ⟨st, hst⟩ := hwf.toCore.status_some hs
    rcases hwf.status_mem st (List.mem_iff_getElem?.mpr ⟨s, hst⟩) with h | h | h
    · exact absurd (by rw [hst, h]) hne
    · left; rw [hst, h]
    · right; rw [hst, h]
  obtain ⟨jc, hjc, hall⟩ := hwf.chain i r hr
  refine ⟨(hwf.lockstep i).mp ⟨r, hr⟩, ⟨jc, ?_, ?_⟩, ?_, ?_⟩
  · rw [← advance_eq_mod jc _ hh]; exact hjc
  · intro j' hj'
    rw [← advance_eq_mod j' _ hh]
    exact hOD _ (Nat.mod_lt _ hwf.cap_pos) (hall j' hj')
  · intro fuel hfuel
    exact hwf.toCore.search_present hr hfuel
  · intro hcond d hd
    have hil : i < t.capacity_ := hwf.toCore.lt_of_record hr
    have hdist : (i + t.capacity_ - hf r.key_ % SIZE_MOD % t.capacity_) % t.capacity_
        < t.capacity_ := Nat.mod_lt _ hwf.cap_pos
    have hdc : d < t.capacity_ := by omega
    have hdj : d < jc := by
      by_contra hge
      have hjlt : jc < t.capacity_ := by omega
      have hmeet : (hf r.key_ % SIZE_MOD % t.capacity_ + jc) % t.capacity_ = i := by
        rw [← advance_mod_cyclic t.capacity_ _ jc hh hjlt hcond]; exact hjc
      have := cyclic_offset_unique t.capacity_ _ i jc (Nat.mod_lt _ hwf.cap_pos) hjlt hmeet
      omega
    rw [← advance_mod_cyclic t.capacity_ _ d hh hdc hcond]
    exact hOD _ (Nat.mod_lt _ hwf.cap_pos) (hall d hdj)

/-- The amended claim C11 on the key `"w"`, stored in slot 0 although its probe
starts at slot 1. -/
theorem probe_chain_of_stored_key_witness :
    Reachable wrapHash wrapTable ∧ wrapTable.records_[0]? = some (some ⟨2, "w"⟩) ∧
    wrapTable.recordStatus_[0]? = some 'O' ∧
    ∀ fuel : Nat, 2 * wrapTable.capacity_ ≤ fuel →
      wrapTable.search wrapHash fuel (⟨2, "w"⟩ : Record Nat).key_ = .ok (some 0) :=
  ⟨wrapTable_reachable, rfl,
    (probe_chain_of_stored_key wrapHash wrapTable 0 ⟨2, "w"⟩ wrapTable_reachable rfl).1,
    (probe_chain_of_stored_key wrapHash wrapTable 0 ⟨2, "w"⟩ wrapTable_reachable rfl).2.2.1⟩

/-- C13 (an `Empty` slot always remains). The claim fails on the code: for
any hash function and any two keys whose hash indices have different parity,
`LPTable(2, 0.5)`, `update(k1, 1)`, `remove(k1)`, `update(k2, 2)`, `remove(k2)`
reach a table with size 0, threshold 1 and capacity 2, so with
`size <= growthThreshold < capacity`, in which no slot is `Empty`; a search
for any key cycles through that table forever. -/
theorem empty_slot_can_vanish (hf : String → Nat) (k1 k2 : String)
    (h1 : hf k1 % SIZE_MOD % 2 = 1) (h2 : hf k2 % SIZE_MOD % 2 = 0) :
    (LPTable.ctor 2 ⟨1, 2⟩ : LPTable Nat).run hf 1
        [.update k1 1, .remove k1, .update k2 2, .remove k2] = .ok twoTombstones ∧
    Reachable hf twoTombstones ∧
    twoTombstones.size_ ≤ twoTombstones.max_ ∧
    twoTombstones.max_ < (twoTombstones.capacity_ : Int) ∧
    (∀ i : Nat, twoTombstones.recordStatus_[i]? ≠ some 'E') ∧
    ∀ (key : String) (fuel : Nat) (out : Nat),
      twoTombstones.find hf fuel key out = .error .outOfFuel := by
  obtain ⟨hrun, hfind⟩ := tombstones_fill_table hf k1 k2 1 2 h1 h2
  refine ⟨hrun, ?_, by decide, by decide, ?_, hfind⟩
  · exact Reachable.run _ 1
      (Reachable.ctor 2 ⟨1, 2⟩ (by decide) (by decide) (by decide) (by decide)) hrun
  · intro i
    match i with
    | 0 => decide
    | 1 => decide
    | n + 2 => simp [twoTombstones]

/-- The scenario of C13 with the length of a key as its hash and the keys `"a"`
and `""`. -/
theorem empty_slot_can_vanish_witness :
    (LPTable.ctor 2 ⟨1, 2⟩ : LPTable Nat).run String.length 1
        [.update "a" 1, .remove "a", .update "" 2, .remove ""] = .ok twoTombstones ∧
    Reachable String.length twoTombstones ∧
    twoTombstones.size_ ≤ twoTombstones.max_ ∧
    twoTombstones.max_ < (twoTombstones.capacity_ : Int) ∧
    (∀ i : Nat, twoTombstones.recordStatus_[i]? ≠ some 'E') ∧
    ∀ (key : String) (fuel : Nat) (out : Nat),
      twoTombstones.find String.length fuel key out = .error .outOfFuel :=
  empty_slot_can_vanish String.length "a" "" (by decide) (by decide)

/-- C14 (no threshold violation after update). The claim fails on the code:
`LPTable(1, 0.5)` has threshold 0, and `update("a", 1)` returns, for any hash
function, a table with size 1, capacity 2 and threshold 0: `grow` doubles the
threshold 0 to 0, so the size still exceeds the threshold. -/
theorem update_leaves_size_above_zero_threshold :
    ∀ hf : String → Nat,
      Reachable hf (LPTable.ctor 1 ⟨1, 2⟩ : LPTable Nat) ∧
      (LPTable.ctor 1 ⟨1, 2⟩ : LPTable Nat).max_ = 0 ∧
      ∃ t', (LPTable.ctor 1 ⟨1, 2⟩ : LPTable Nat).update hf 4 "a" 1 = .ok t' ∧
        t'.size_ = 1 ∧ t'.max_ = 0 ∧ t'.capacity_ = 2 ∧ ¬ t'.size_ ≤ t'.max_ := by
  intro hf
  have hreach : Reachable hf (LPTable.ctor 1 ⟨1, 2⟩ : LPTable Nat) :=
    Reachable.ctor 1 ⟨1, 2⟩ (by decide) (by decide) (by decide) (by decide)
  have hwf := hreach.wf
  have habs : ∀ (i : Nat) (r : Record Nat),
      (LPTable.ctor 1 ⟨1, 2⟩ : LPTable Nat).records_[i]? = some (some r) → r.key_ ≠ "a" := by
    intro i r hr
    simp only [LPTable.ctor, List.getElem?_replicate] at hr
    split at hr <;> simp at hr
  have hE : (LPTable.ctor 1 ⟨1, 2⟩ : LPTable Nat).recordStatus_[0]? = some 'E' := rfl
  obtain ⟨t', hu⟩ : ∃ t', (LPTable.ctor 1 ⟨1, 2⟩ : LPTable Nat).update hf 4 "a" 1 = .ok t' :=
    update_total_absent hwf habs hE (Or.inr (by decide)) (by decide) 1
  obtain ⟨_, _, hcase⟩ := update_sound hwf hu
  have hmax : (LPTable.ctor 1 ⟨1, 2⟩ : LPTable Nat).max_ = 0 := by decide
  have hsize : (LPTable.ctor 1 ⟨1, 2⟩ : LPTable Nat).size_ = 0 := rfl
  refine ⟨hreach, hmax, t', hu, ?_⟩
  rcases hcase with ⟨i, r, hr, hk, _⟩ | ⟨_, h2, _⟩ | ⟨_, _, h3, h4, h5, _⟩
  · exact absurd hk (habs i r hr)
  · rw [hmax, hsize] at h2
    omega
  · rw [hmax] at h4
    rw [hsize] at h5
    refine ⟨by rw [h5]; rfl, by rw [h4]; rfl, by rw [h3]; rfl, ?_⟩
    rw [h5, h4]
    decide

/-- C19 (other keys are untouched). The claim fails on the code for `update`:
on `LPTable(1, 1.0)`, `find("b")` returns `false`; after `update("a", 1)`, which
returns, `find("b")` never returns, for any hash function, because the update
filled the last `Empty` slot and the table did not grow. -/
theorem find_other_key_stops_returning :
    ∀ hf : String → Nat,
      (∀ out : Nat, (LPTable.ctor 1 ⟨1, 1⟩ : LPTable Nat).find hf 1 "b" out = .ok (false, out)) ∧
      (LPTable.ctor 1 ⟨1, 1⟩ : LPTable Nat).update hf 1 "a" 1 = .ok fullTable ∧
      ∀ (fuel : Nat) (out : Nat), fullTable.find hf fuel "b" out = .error .outOfFuel := by
  intro hf
  refine ⟨?_, ctor_one_update hf, ?_⟩
  · intro out
    simp [LPTable.find, LPTable.search, LPTable.searchLoop, LPTable.ctor, Nat.mod_one]
  · intro fuel out
    unfold LPTable.find
    rw [fullTable_search hf "b" (by decide) fuel]

end ClaimsTwo
